import Mathlib

/-!
Verification of the open-addressing hash container (`include/hash_map.h`,
`include/hash_set.h`, `include/policy.h`).

The C++ code is shallowly embedded: `std::size_t` arithmetic is `Nat` with an
explicit `% 2 ^ 64` wherever the source can overflow, the tri-state slot
variant `Empty / Erased / Node` becomes the inductive `Element`, the table's
`m_data / m_size / m_begin` members become the `HashMap` structure, and every
potentially non-terminating probe loop of the source is modelled with an
explicit fuel argument, returning `none` when the fuel runs out (so genuine
divergence of the C++ loop corresponds to returning `none` at every fuel).
The hash function and the key/value types are parameters, as in the template;
the default policies (`LinearProbing`, `MaskRangeHashing`,
`Power2RehashPolicy`, `std::equal_to`) are embedded and used by the table
operations exactly as the default template arguments do.
-/

/-- Number of values of `std::size_t`: machine arithmetic is mod `W`. -/
def W : Nat := 2 ^ 64

/-- `HashMap::m_end = std::numeric_limits<size_type>::max()`, the sentinel
index meaning "no link" / end iterator. -/
def m_end : Nat := 2 ^ 64 - 1

namespace LinearProbing

/-- `LinearProbing::next(start, step, size) = (start + step) & (size - 1)`,
with `size_t` addition wrapping mod `2^64`. -/
def next (start step size : Nat) : Nat :=
  ((start + step) % W) &&& (size - 1)

end LinearProbing

namespace QuadraticProbing

/-- `QuadraticProbing::next`: for power-of-two sizes the triangular form
`(start + ((step*step + step) >> 1)) & (size - 1)`, otherwise
`(start + step*step) % size`; every intermediate `size_t` operation wraps. -/
def next (start step size : Nat) : Nat :=
  if size &&& (size - 1) == 0 then
    ((start + (((step * step + step) % W) >>> 1)) % W) &&& (size - 1)
  else
    ((start + (step * step) % W) % W) % size

end QuadraticProbing

namespace MaskRangeHashing

/-- `MaskRangeHashing::hash(index, size) = index & (size - 1)`. -/
def hash (index size : Nat) : Nat :=
  index &&& (size - 1)

end MaskRangeHashing

namespace Power2RehashPolicy

/-- `Power2RehashPolicy::need_rehash(size, bucket_count) = size > bucket_count >> 1`. -/
def need_rehash (size bucket_count : Nat) : Bool :=
  bucket_count >>> 1 < size

/-- `Power2RehashPolicy::buckets_number(desired) = desired << 1` in `size_t`. -/
def buckets_number (desired : Nat) : Nat :=
  (desired <<< 1) % W

/-- `Power2RehashPolicy::new_size(desired, current)`: double `current` until it
reaches `desired`.  The C++ loop can run forever (when `current` is zero or
the shift wraps to zero), so the embedding takes fuel. -/
def new_sizeF : Nat → Nat → Nat → Option Nat
  | 0, _, _ => none
  | fuel + 1, desired, current =>
    if current < desired then new_sizeF fuel desired ((current <<< 1) % W)
    else some current

end Power2RehashPolicy

/-- Triangular number `s * (s + 1) / 2`, the quadratic policy's offset. -/
def tri (s : Nat) : Nat := (s * s + s) / 2


inductive Element (K V : Type) where
  | empty : Element K V
  | erased : Element K V
  | node (key : K) (val : V) (next prev : Nat) : Element K V
deriving DecidableEq

namespace Element

/-- `Element::is_used()`: holds a `Node`. -/
def is_used {K V : Type} : Element K V → Bool
  | .node _ _ _ _ => true
  | _ => false

/-- `Element::is_empty()`: holds `Empty`. -/
def is_empty {K V : Type} : Element K V → Bool
  | .empty => true
  | _ => false

/-- The key stored in an occupied slot, if any. -/
def key? {K V : Type} : Element K V → Option K
  | .node k _ _ _ => some k
  | _ => none

/-- The mapped value stored in an occupied slot, if any. -/
def val? {K V : Type} : Element K V → Option V
  | .node _ v _ _ => some v
  | _ => none

/-- The full entry stored in an occupied slot, if any. -/
def entry? {K V : Type} : Element K V → Option (K × V)
  | .node k v _ _ => some (k, v)
  | _ => none

end Element

/-- Read the slot at index `i`; reading past the end of the array yields
`Element.empty` (all in-bounds behaviour of the source keeps indices inside
the vector, masked by the power-of-two size). -/
def slotAt {K V : Type} : List (Element K V) → Nat → Element K V
  | [], _ => .empty
  | e :: _, 0 => e
  | _ :: rest, n + 1 => slotAt rest n

/-- Write the slot at index `i` (no-op when out of range, which the source
never does). -/
def setSlot {K V : Type} : List (Element K V) → Nat → Element K V → List (Element K V)
  | [], _, _ => []
  | _ :: rest, 0, e => e :: rest
  | x :: rest, n + 1, e => x :: setSlot rest n e

/-- The table state: `std::vector<Element> m_data`, `size_type m_size`,
`size_type m_begin` of the C++ `HashMap`. -/
structure HashMap (K V : Type) where
  m_data : List (Element K V)
  m_size : Nat
  m_begin : Nat
deriving DecidableEq

namespace HashMap

variable {K V : Type} [DecidableEq K] [DecidableEq V]

/-- `index(key) = RangeHash::hash(hasher(key), m_data.size())`. -/
def index (hash : K → Nat) (T : HashMap K V) (k : K) : Nat :=
  MaskRangeHashing.hash (hash k) T.m_data.length

/-- The slot inspected at probe step `s` for key `k` (step 0 is the reduced
hash itself, which `LinearProbing.next` also yields at step 0). -/
def probeAt (hash : K → Nat) (data : List (Element K V)) (k : K) (s : Nat) : Nat :=
  LinearProbing.next (MaskRangeHashing.hash (hash k) data.length) s data.length

/-- The probe path from an arbitrary start index. -/
def pathOf (start len s : Nat) : Nat := LinearProbing.next start s len

/-- No probe step before `s` stops the search: no Empty slot, no Occupied
slot with the sought key. -/
def NoHitBefore [DecidableEq K] (data : List (Element K V)) (k : K) (start s : Nat) : Prop :=
  ∀ t, t < s → (slotAt data (pathOf start data.length t)).is_empty = false ∧
    (slotAt data (pathOf start data.length t)).key? ≠ some k

/-- What a successful `find_pos` returning an occupied slot `r` means: `r`
holds the sought key and lies on the probe path, with no earlier stopping
point. -/
def FoundSpec [DecidableEq K] (data : List (Element K V)) (k : K) (start r : Nat) : Prop :=
  (slotAt data r).key? = some k ∧
  ∃ s, pathOf start data.length s = r ∧ NoHitBefore data k start s

/-- What a successful `find_pos` returning a non-occupied slot `r` means:
the walk reached an Empty slot at step `e` with no earlier stopping point;
without `seek_erased` the result is that Empty slot, and in general the
result lies on the path no later than `e` with only non-Empty slots before
it. -/
def MissSpec [DecidableEq K] (data : List (Element K V)) (k : K) (se : Bool) (start r : Nat) : Prop :=
  (slotAt data r).is_used = false ∧
  ∃ e, (slotAt data (pathOf start data.length e)).is_empty = true ∧
    NoHitBefore data k start e ∧
    (se = false → r = pathOf start data.length e) ∧
    ∃ s, s ≤ e ∧ pathOf start data.length s = r ∧
      ∀ t, t < s → (slotAt data (pathOf start data.length t)).is_empty = false

/-- The loop of `HashMap::find_pos(key, seek_erased)`: walk the probe
sequence; return at the first Empty slot (the remembered first Tombstone when
one was seen and `seek_erased`), or at the first Occupied slot with an equal
key.  `fe` is `first_erased`, initialised to `m_data.size()`.  The C++ loop
can run forever, hence the fuel. -/
def find_posGo (data : List (Element K V)) (k : K) (se : Bool) (start : Nat) :
    Nat → Nat → Nat → Nat → Option Nat
  | 0, _, _, _ => none
  | fuel + 1, step, i, fe =>
    match slotAt data i with
    | .empty => some (if fe = data.length then i else fe)
    | .node k0 _ _ _ =>
      if k0 = k then some i
      else find_posGo data k se start fuel (step + 1)
        (LinearProbing.next start (step + 1) data.length) fe
    | .erased =>
      find_posGo data k se start fuel (step + 1)
        (LinearProbing.next start (step + 1) data.length)
        (if se && fe = data.length then i else fe)

/-- `HashMap::find_pos(key, seek_erased)`. -/
def find_pos (hash : K → Nat) (T : HashMap K V) (k : K) (se : Bool) (fuel : Nat) :
    Option Nat :=
  find_posGo T.m_data k se (index hash T k) fuel 0 (index hash T k) T.m_data.length

/-- `HashMap::search(key) = find_pos(key, false)`. -/
def search (hash : K → Nat) (T : HashMap K V) (k : K) (fuel : Nat) : Option Nat :=
  find_pos hash T k false fuel

/-- `HashMap::find_insertion_pos(key) = find_pos(key, true)`. -/
def find_insertion_pos (hash : K → Nat) (T : HashMap K V) (k : K) (fuel : Nat) :
    Option Nat :=
  find_pos hash T k true fuel

/-- Update only the `next` link of the node at `i` (the source writes through
`m_data[i].get().next`, which presupposes the slot is occupied). -/
def setNextSlot (data : List (Element K V)) (i r : Nat) : List (Element K V) :=
  match slotAt data i with
  | .node k v _ p => setSlot data i (.node k v r p)
  | _ => data

/-- Update only the `prev` link of the node at `i`. -/
def setPrevSlot (data : List (Element K V)) (i r : Nat) : List (Element K V) :=
  match slotAt data i with
  | .node k v n _ => setSlot data i (.node k v n r)
  | _ => data

/-- Update only the mapped value of the node at `i`
(`result.first->second = value`). -/
def setValSlot (data : List (Element K V)) (i : Nat) (v : V) : List (Element K V) :=
  match slotAt data i with
  | .node k _ n p => setSlot data i (.node k v n p)
  | _ => data

/-- `HashMap::link_nodes(left, right)`. -/
def link_nodes (T : HashMap K V) (left right : Nat) : HashMap K V :=
  let T1 : HashMap K V :=
    if left ≠ m_end then ⟨setNextSlot T.m_data left right, T.m_size, T.m_begin⟩
    else ⟨T.m_data, T.m_size, right⟩
  if right ≠ m_end then ⟨setPrevSlot T1.m_data right left, T1.m_size, T1.m_begin⟩
  else T1

/-- `HashMap::remove_node(pos)`: splice out, mark Tombstone, `--m_size`
(with `size_t` wrap-around). -/
def remove_node (T : HashMap K V) (pos : Nat) : HashMap K V :=
  match slotAt T.m_data pos with
  | .node _ _ nx pv =>
    let T1 := link_nodes T pv nx
    ⟨setSlot T1.m_data pos .erased, (T1.m_size + (W - 1)) % W, T1.m_begin⟩
  | _ => T

/-- `HashMap::insert_at(pos, key, value)`: occupy the slot (fresh node has
`next = prev = m_end`), link at the head of the traversal list, `++m_size`. -/
def insert_at (T : HashMap K V) (pos : Nat) (k : K) (v : V) : HashMap K V :=
  let d1 := setSlot T.m_data pos (.node k v T.m_begin m_end)
  let d2 := if T.m_begin ≠ m_end then setPrevSlot d1 T.m_begin pos else d1
  ⟨d2, (T.m_size + 1) % W, pos⟩

/-- The raw re-insertion probe of `HashMap::rehash`:
`for (step = 0; m_data[pos].is_used(); pos = next(start, ++step, size))`. -/
def probeFreeGo (data : List (Element K V)) (start : Nat) :
    Nat → Nat → Nat → Option Nat
  | 0, _, _ => none
  | fuel + 1, step, pos =>
    if (slotAt data pos).is_used then
      probeFreeGo data start fuel (step + 1)
        (LinearProbing.next start (step + 1) data.length)
    else some pos

/-- The re-insertion loop of `HashMap::rehash`: walk the old traversal list
from its head, re-inserting each node into the accumulator table. -/
def rehashGo (hash : K → Nat) :
    Nat → List (Element K V) → Nat → HashMap K V → Option (HashMap K V)
  | 0, _, _, _ => none
  | fuel + 1, old, i, T =>
    if i = m_end then some T
    else
      match slotAt old i with
      | .node k v nx _ =>
        let start := MaskRangeHashing.hash (hash k) T.m_data.length
        match probeFreeGo T.m_data start (fuel + 1) 0 start with
        | none => none
        | some pos => rehashGo hash fuel old nx (insert_at T pos k v)
      | _ => none

/-- `HashMap::rehash(count)`: allocate
`new_size(count, old.m_data.size())` Empty slots, reset, re-insert every
node of the old traversal list. -/
def rehash (hash : K → Nat) (T : HashMap K V) (count fuel : Nat) :
    Option (HashMap K V) :=
  match Power2RehashPolicy.new_sizeF fuel count T.m_data.length with
  | none => none
  | some newLen =>
    rehashGo hash fuel T.m_data T.m_begin ⟨List.replicate newLen .empty, 0, m_end⟩

/-- `HashMap::reserve(count) = rehash(buckets_number(count))`. -/
def reserve (hash : K → Nat) (T : HashMap K V) (count fuel : Nat) :
    Option (HashMap K V) :=
  rehash hash T (Power2RehashPolicy.buckets_number count) fuel

/-- `HashMap::try_emplace_impl(key, value)`: grow when the impending
insertion crosses the load threshold, then probe for the insertion slot and
occupy it unless the key is already present.  Returns the new state and the
slot index. -/
def try_emplace_impl (hash : K → Nat) (T : HashMap K V) (k : K) (v : V)
    (fuel : Nat) : Option (HashMap K V × Nat) :=
  let step2 : HashMap K V → Option (HashMap K V × Nat) := fun T1 =>
    match find_insertion_pos hash T1 k fuel with
    | none => none
    | some pos =>
      if (slotAt T1.m_data pos).is_used then some (T1, pos)
      else some (insert_at T1 pos k v, pos)
  if Power2RehashPolicy.need_rehash ((T.m_size + 1) % W) T.m_data.length then
    match reserve hash T ((T.m_size + 1) % W) fuel with
    | none => none
    | some T1 => step2 T1
  else step2 T

/-- `HashMap::insert(value)` via `generic_try_emplace`: the `inserted` flag
is `old_size != size()`. -/
def insert (hash : K → Nat) (T : HashMap K V) (k : K) (v : V) (fuel : Nat) :
    Option (HashMap K V × Nat × Bool) :=
  match try_emplace_impl hash T k v fuel with
  | none => none
  | some (T1, pos) => some (T1, pos, decide (T.m_size ≠ T1.m_size))

/-- `HashMap::insert_or_assign(key, value)`: `try_emplace`, then overwrite
the mapped value when nothing was inserted. -/
def insert_or_assign (hash : K → Nat) (T : HashMap K V) (k : K) (v : V)
    (fuel : Nat) : Option (HashMap K V × Nat × Bool) :=
  match insert hash T k v fuel with
  | none => none
  | some (T1, pos, ins) =>
    if ins then some (T1, pos, true)
    else some (⟨setValSlot T1.m_data pos v, T1.m_size, T1.m_begin⟩, pos, false)

/-- `HashMap::erase(key)`: `search`, and if the slot is occupied remove the
node and return 1, else return 0. -/
def erase_key (hash : K → Nat) (T : HashMap K V) (k : K) (fuel : Nat) :
    Option (HashMap K V × Nat) :=
  match search hash T k fuel with
  | none => none
  | some pos =>
    if (slotAt T.m_data pos).is_used then some (remove_node T pos, 1)
    else some (T, 0)

/-- `HashMap::find(key)`: the returned iterator's index — the occupied slot,
or `m_end` for the end iterator. -/
def find (hash : K → Nat) (T : HashMap K V) (k : K) (fuel : Nat) : Option Nat :=
  match search hash T k fuel with
  | none => none
  | some pos => some (if (slotAt T.m_data pos).is_used then pos else m_end)

/-- `HashMap::contains(key)`. -/
def contains (hash : K → Nat) (T : HashMap K V) (k : K) (fuel : Nat) :
    Option Bool :=
  match search hash T k fuel with
  | none => none
  | some pos => some (slotAt T.m_data pos).is_used

/-- The node fields at `i`, or `none` when the slot is not occupied — reading
`m_data[i].get()` on such a slot (in particular `i = m_end`) is undefined
behaviour in the source. -/
def nodeAt? (data : List (Element K V)) (i : Nat) : Option (K × V × Nat × Nat) :=
  match slotAt data i with
  | .node k v n p => some (k, v, n, p)
  | _ => none

/-- The erasure loop of `HashMap::erase(first, last)`. -/
def eraseLoopGo (last : Nat) : Nat → HashMap K V → Nat → Option (HashMap K V × Nat)
  | 0, T, cur => if cur = last then some (T, last) else none
  | fuel + 1, T, cur =>
    if cur = last then some (T, last)
    else
      match nodeAt? T.m_data cur with
      | some (_, _, nx, _) =>
        eraseLoopGo last fuel
          ⟨setSlot T.m_data cur .erased, (T.m_size + (W - 1)) % W, T.m_begin⟩ nx
      | none => none

/-- `HashMap::erase(first, last)`: relink around the range — note the
unconditional read `first.get_node().prev`, undefined when `first` is the
end iterator — then erase every slot in the range.  Returns the new state
and the returned iterator's index. -/
def erase_range (T : HashMap K V) (first last fuel : Nat) :
    Option (HashMap K V × Nat) :=
  match nodeAt? T.m_data first with
  | none => none
  | some (_, _, _, pv) => eraseLoopGo last fuel (link_nodes T pv last) first

/-- The loop of `HashMap::clear()`: walk the traversal list resetting every
visited slot to Empty. -/
def clearGo : Nat → List (Element K V) → Nat → Option (List (Element K V))
  | 0, _, _ => none
  | fuel + 1, data, i =>
    if i = m_end then some data
    else
      match slotAt data i with
      | .node _ _ nx _ => clearGo fuel (setSlot data i .empty) nx
      | _ => none

/-- `HashMap::clear()`: clear the slots on the traversal list, then `reset()`
(`m_begin = m_end; m_size = 0`).  Does not touch Tombstone slots. -/
def clear (T : HashMap K V) (fuel : Nat) : Option (HashMap K V) :=
  match clearGo fuel T.m_data T.m_begin with
  | none => none
  | some d => some ⟨d, 0, m_end⟩

/-- The constructor `HashMap(expected_max_size)`:
`m_data(new_size(buckets_number(expected_max_size)))` (with the default
floor of 64), then `reset()`. -/
def mkTable (expected fuel : Nat) : Option (HashMap K V) :=
  match Power2RehashPolicy.new_sizeF fuel
      (Power2RehashPolicy.buckets_number expected) 64 with
  | none => none
  | some len => some ⟨List.replicate len .empty, 0, m_end⟩

/-- `operator==`'s per-entry loop: for each entry of `lhs` (walking its
traversal list), look the key up in `rhs` and compare mapped values. -/
def eqGo (hash : K → Nat) (T2 : HashMap K V) :
    Nat → List (Element K V) → Nat → Option Bool
  | 0, _, _ => none
  | fuel + 1, data1, i =>
    if i = m_end then some true
    else
      match slotAt data1 i with
      | .node k v nx _ =>
        match find hash T2 k fuel with
        | none => none
        | some r =>
          if r = m_end then some false
          else
            match (slotAt T2.m_data r).val? with
            | some v2 => if v2 = v then eqGo hash T2 fuel data1 nx else some false
            | none => some false
      | _ => none

/-- `operator==(lhs, rhs)`. -/
def tableEq (hash : K → Nat) (T1 T2 : HashMap K V) (fuel : Nat) : Option Bool :=
  if T1.m_size ≠ T2.m_size then some false
  else eqGo hash T2 fuel T1.m_data T1.m_begin

/-- Iterating the container from `begin()` to `end()`: the sequence of
entries on the traversal list. -/
def toList (T : HashMap K V) : Nat → Nat → Option (List (K × V))
  | 0, _ => none
  | fuel + 1, i =>
    if i = m_end then some []
    else
      match slotAt T.m_data i with
      | .node k v nx _ =>
        match toList T fuel nx with
        | none => none
        | some rest => some ((k, v) :: rest)
      | _ => none

/-- `begin()`-to-`end()` iteration of the whole table. -/
def iterate (T : HashMap K V) (fuel : Nat) : Option (List (K × V)) :=
  toList T fuel T.m_begin

end HashMap

namespace HashMap

variable {K V : Type} [DecidableEq K] [DecidableEq V]

/-- The stored `next` link of the node at `i` (`m_end` when the slot holds no
node). -/
def nextD (data : List (Element K V)) (i : Nat) : Nat :=
  match slotAt data i with
  | .node _ _ n _ => n
  | _ => m_end

/-- The stored `prev` link of the node at `i` (`m_end` when the slot holds no
node). -/
def prevD (data : List (Element K V)) (i : Nat) : Nat :=
  match slotAt data i with
  | .node _ _ _ p => p
  | _ => m_end

/-- Adjacency on the intrusive doubly-linked list: `a`'s `next` is `b` and
`b`'s `prev` is `a`. -/
def NodeLink (data : List (Element K V)) (a b : Nat) : Prop :=
  nextD data a = b ∧ prevD data b = a

/-- Array lengths the default `Power2RehashPolicy` can produce: powers of two
from the floor 64 up to `2^63` (beyond which the doubling would wrap). -/
def GoodLen (n : Nat) : Prop := ∃ c, 6 ≤ c ∧ c ≤ 63 ∧ n = 2 ^ c

/-- The key/value pairs stored at the given slot indices. -/
def entriesOf (data : List (Element K V)) (order : List Nat) : List (K × V) :=
  order.filterMap fun j => (slotAt data j).entry?

/-- The keys stored at the given slot indices. -/
def keysOf (data : List (Element K V)) (order : List Nat) : List K :=
  order.filterMap fun j => (slotAt data j).key?

/-- The table invariant.  `order` is the traversal order: the list of slot
indices visited when iterating from `begin()` to `end()`.  Besides the
documented invariant (array length a power of two ≥ 64, the linked list
visits exactly the Occupied slots once each, `m_size` counts them, no key is
stored twice), it carries the open-addressing reachability property every
occupied slot enjoys: its key's probe sequence reaches the slot without
passing an Empty slot first. -/
structure Inv (hash : K → Nat) (T : HashMap K V) (order : List Nat) : Prop where
  good : GoodLen T.m_data.length
  begin_eq : T.m_begin = order.headD m_end
  chain : List.Chain' (NodeLink T.m_data) order
  head_prev : ∀ a, order.head? = some a → prevD T.m_data a = m_end
  last_next : ∀ a, order.getLast? = some a → nextD T.m_data a = m_end
  mem_iff : ∀ j, j ∈ order ↔ (slotAt T.m_data j).is_used = true
  nodup : order.Nodup
  size_eq : T.m_size = order.length
  half : 2 * T.m_size ≤ T.m_data.length
  keys_nodup : (keysOf T.m_data order).Nodup
  reach : ∀ j ∈ order, ∀ k, (slotAt T.m_data j).key? = some k →
    ∃ s, probeAt hash T.m_data k s = j ∧
      ∀ t, t < s → (slotAt T.m_data (probeAt hash T.m_data k t)).is_empty = false

/-- Well-formed table: some traversal order witnesses the invariant. -/
def WF (hash : K → Nat) (T : HashMap K V) : Prop := ∃ order, Inv hash T order

/-- States reachable from a freshly constructed table by successful
`insert`, `erase(key)`, `clear` and `rehash` operations. -/
inductive Reached (hash : K → Nat) : HashMap K V → Prop
  | base : ∀ n fuel T, mkTable n fuel = some T → Reached hash T
  | ins : ∀ T k v fuel T1 pos ok, Reached hash T →
      insert hash T k v fuel = some (T1, pos, ok) → Reached hash T1
  | ers : ∀ T k fuel T1 n, Reached hash T →
      erase_key hash T k fuel = some (T1, n) → Reached hash T1
  | clr : ∀ T fuel T1, Reached hash T → clear T fuel = some T1 → Reached hash T1
  | reh : ∀ T c fuel T1, Reached hash T →
      rehash hash T c fuel = some T1 → Reached hash T1

/-- The `search` probe loop never terminates for this key, at any fuel. -/
def SearchDiverges (hash : K → Nat) (T : HashMap K V) (k : K) : Prop :=
  ∀ fuel, search hash T k fuel = none

/-- `find` never returns for this key, at any fuel. -/
def FindDiverges (hash : K → Nat) (T : HashMap K V) (k : K) : Prop :=
  ∀ fuel, find hash T k fuel = none

/-- `erase(key)` never returns for this key, at any fuel. -/
def EraseDiverges (hash : K → Nat) (T : HashMap K V) (k : K) : Prop :=
  ∀ fuel, erase_key hash T k fuel = none

/-- `insert` never returns for this key, at any fuel. -/
def InsertDiverges (hash : K → Nat) (T : HashMap K V) (k : K) (v : V) : Prop :=
  ∀ fuel, insert hash T k v fuel = none

/-- `find` succeeds and yields an occupied slot holding exactly `(k, v)`. -/
def FindsValue (hash : K → Nat) (T : HashMap K V) (k : K) (v : V) : Prop :=
  ∃ fuel p, find hash T k fuel = some p ∧ (slotAt T.m_data p).key? = some k ∧
    (slotAt T.m_data p).val? = some v

/-- `operator==` terminates and returns `true`. -/
def TableEqHolds (hash : K → Nat) (T1 T2 : HashMap K V) : Prop :=
  ∃ fuel, tableEq hash T1 T2 fuel = some true

/-- Boolean adjacency check for the intrusive list. -/
def adjOK (data : List (Element K V)) : List Nat → Bool
  | [] => true
  | [_] => true
  | a :: b :: rest => (nextD data a == b) && (prevD data b == a) && adjOK data (b :: rest)

/-- Executable check of the invariant on a concrete table (used to validate
witness states; `Inv_of_check` below proves it implies `Inv`). -/
def InvCheck (hash : K → Nat) (T : HashMap K V) (order : List Nat) : Bool :=
  ((List.range 64).any fun c =>
      decide (6 ≤ c) && decide (T.m_data.length = 2 ^ c)) &&
  (T.m_begin == order.headD m_end) &&
  adjOK T.m_data order &&
  (match order.head? with
   | some a => prevD T.m_data a == m_end
   | none => true) &&
  (match order.getLast? with
   | some a => nextD T.m_data a == m_end
   | none => true) &&
  ((List.range T.m_data.length).all fun j =>
      (slotAt T.m_data j).is_used == order.contains j) &&
  (order.all fun j => j < T.m_data.length) &&
  decide order.Nodup &&
  (T.m_size == order.length) &&
  decide (2 * T.m_size ≤ T.m_data.length) &&
  decide (keysOf T.m_data order).Nodup &&
  (order.all fun j =>
    match (slotAt T.m_data j).key? with
    | some k =>
      (List.range T.m_data.length).any fun s =>
        (probeAt hash T.m_data k s == j) &&
        ((List.range s).all fun t =>
          !(slotAt T.m_data (probeAt hash T.m_data k t)).is_empty)
    | none => false)

end HashMap

/-- The identity hash, i.e. `std::hash<std::size_t>` as used by the concrete
test scenarios. -/
def natHash : Nat → Nat := id

/-- A freshly default-constructed table: 64 Empty slots, no entries. -/
def fresh64 : HashMap Nat Nat := ⟨List.replicate 64 .empty, 0, m_end⟩

/-- One round of the tombstone-exhaustion scenario: insert key `i` (value 0),
then erase it. -/
def insertEraseRound (T : HashMap Nat Nat) (i : Nat) : Option (HashMap Nat Nat) := do
  let (T1, _, _) ← HashMap.insert natHash T i 0 70
  let (T2, _) ← HashMap.erase_key natHash T1 i 70
  pure T2

/-- 64 insert/erase rounds on a fresh table: every slot ends up a
Tombstone. -/
def c1Build : Option (HashMap Nat Nat) :=
  (List.range 64).foldlM insertEraseRound fresh64

/-- The resulting state: all 64 slots are Tombstones, the table is empty. -/
def c1BadTable : HashMap Nat Nat := ⟨List.replicate 64 .erased, 0, m_end⟩

/-- Insert key 0, erase it, then `clear()`. -/
def c2Run : Option (HashMap Nat Nat) := do
  let (T1, _, _) ← HashMap.insert natHash fresh64 0 0 70
  let (T2, _) ← HashMap.erase_key natHash T1 0 70
  HashMap.clear T2 70

/-- Insert keys 1..32 (values 101..132) into a fresh table. -/
def c3After32 : Option (HashMap Nat Nat) :=
  (List.range 32).foldlM
    (fun T i => (HashMap.insert natHash T (i + 1) (i + 101) 70).map fun r => r.1)
    fresh64

/-- …then insert key 33 (value 133), which crosses the load threshold. -/
def c3After33 : Option (HashMap Nat Nat) := do
  let T ← c3After32
  (HashMap.insert natHash T 33 133 300).map fun r => r.1

/-- Insert entries (1,10), (2,20), (3,30) in that order into a fresh table. -/
def c4Table : Option (HashMap Nat Nat) := do
  let (T1, _, _) ← HashMap.insert natHash fresh64 1 10 70
  let (T2, _, _) ← HashMap.insert natHash T1 2 20 70
  let (T3, _, _) ← HashMap.insert natHash T2 3 30 70
  pure T3

/-- …then force a `rehash`. -/
def c4Rehashed : Option (HashMap Nat Nat) := do
  let T ← c4Table
  HashMap.rehash natHash T 64 300

/-- Entries (1,10) then (2,20), in that insertion order. -/
def c9Left : Option (HashMap Nat Nat) := do
  let (T1, _, _) ← HashMap.insert natHash fresh64 1 10 70
  let (T2, _, _) ← HashMap.insert natHash T1 2 20 70
  pure T2

/-- The same entries in the opposite insertion order. -/
def c9Right : Option (HashMap Nat Nat) := do
  let (T1, _, _) ← HashMap.insert natHash fresh64 2 20 70
  let (T2, _, _) ← HashMap.insert natHash T1 1 10 70
  pure T2


/-- The table the 32 insertions of the C3 scenario produce (slot `i` holds
key `i` with value `100 + i`; head of the traversal list is slot 32). -/
def c3Tbl : HashMap Nat Nat :=
  ⟨[.empty,
   .node 1 101 m_end 2,
   .node 2 102 1 3,
   .node 3 103 2 4,
   .node 4 104 3 5,
   .node 5 105 4 6,
   .node 6 106 5 7,
   .node 7 107 6 8,
   .node 8 108 7 9,
   .node 9 109 8 10,
   .node 10 110 9 11,
   .node 11 111 10 12,
   .node 12 112 11 13,
   .node 13 113 12 14,
   .node 14 114 13 15,
   .node 15 115 14 16,
   .node 16 116 15 17,
   .node 17 117 16 18,
   .node 18 118 17 19,
   .node 19 119 18 20,
   .node 20 120 19 21,
   .node 21 121 20 22,
   .node 22 122 21 23,
   .node 23 123 22 24,
   .node 24 124 23 25,
   .node 25 125 24 26,
   .node 26 126 25 27,
   .node 27 127 26 28,
   .node 28 128 27 29,
   .node 29 129 28 30,
   .node 30 130 29 31,
   .node 31 131 30 32,
   .node 32 132 31 m_end] ++ List.replicate 31 Element.empty,
   32, 32⟩

/-- Its traversal order: reverse insertion order 32, 31, …, 1. -/
def c3Order : List Nat := [32, 31, 30, 29, 28, 27, 26, 25, 24, 23, 22, 21,
  20, 19, 18, 17, 16, 15, 14, 13, 12, 11, 10, 9, 8, 7, 6, 5, 4, 3, 2, 1]

/-- Inserting key 33 into `c3Tbl` (the insertion that crosses the load
threshold). -/
def c3Res : Option (HashMap Nat Nat × Nat × Bool) :=
  HashMap.insert natHash c3Tbl 33 133 300

/-- The resulting 128-bucket table. -/
def c3Tbl33 : HashMap Nat Nat :=
  ⟨[.empty,
   .node 1 101 2 33,
   .node 2 102 3 1,
   .node 3 103 4 2,
   .node 4 104 5 3,
   .node 5 105 6 4,
   .node 6 106 7 5,
   .node 7 107 8 6,
   .node 8 108 9 7,
   .node 9 109 10 8,
   .node 10 110 11 9,
   .node 11 111 12 10,
   .node 12 112 13 11,
   .node 13 113 14 12,
   .node 14 114 15 13,
   .node 15 115 16 14,
   .node 16 116 17 15,
   .node 17 117 18 16,
   .node 18 118 19 17,
   .node 19 119 20 18,
   .node 20 120 21 19,
   .node 21 121 22 20,
   .node 22 122 23 21,
   .node 23 123 24 22,
   .node 24 124 25 23,
   .node 25 125 26 24,
   .node 26 126 27 25,
   .node 27 127 28 26,
   .node 28 128 29 27,
   .node 29 129 30 28,
   .node 30 130 31 29,
   .node 31 131 32 30,
   .node 32 132 m_end 31,
   .node 33 133 1 m_end] ++ List.replicate 94 Element.empty,
   33, 33⟩

/-- The C4 scenario's table after inserting (1,10), (2,20), (3,30). -/
def c4Tbl : HashMap Nat Nat :=
  ⟨[.empty, .node 1 10 m_end 2, .node 2 20 1 3, .node 3 30 2 m_end] ++
    List.replicate 60 Element.empty, 3, 3⟩

/-- …and after the forced rehash: the traversal order is reversed. -/
def c4RTbl : HashMap Nat Nat :=
  ⟨[.empty, .node 1 10 2 m_end, .node 2 20 3 1, .node 3 30 m_end 2] ++
    List.replicate 60 Element.empty, 3, 1⟩

/-- The C9 table built by inserting (1,10) then (2,20). -/
def c9A : HashMap Nat Nat :=
  ⟨[.empty, .node 1 10 m_end 2, .node 2 20 1 m_end] ++
    List.replicate 61 Element.empty, 2, 2⟩

/-- The C9 table built in the opposite order. -/
def c9B : HashMap Nat Nat :=
  ⟨[.empty, .node 1 10 2 m_end, .node 2 20 m_end 1] ++
    List.replicate 61 Element.empty, 2, 1⟩

/-- A one-entry table (key 7 ↦ 70 at slot 7), used to instantiate the
general theorems. -/
def c10Tbl : HashMap Nat Nat :=
  ⟨List.replicate 7 Element.empty ++ .node 7 70 m_end m_end ::
    List.replicate 56 Element.empty, 1, 7⟩

/-- `erase(end(), end())` reads `m_data[m_end].prev` — out of bounds — so
the model returns `none` at every fuel. -/
def EraseRangeEndUndef : Prop :=
  ∀ fuel, HashMap.erase_range fresh64 m_end m_end fuel = none


/-! ### Basic facts about slot access and update -/

section SlotLemmas

variable {K V : Type}

theorem length_setSlot (data : List (Element K V)) (i : Nat) (e : Element K V) :
    (setSlot data i e).length = data.length := by
  induction data generalizing i with
  | nil => rfl
  | cons x rest ih => cases i <;> simp [setSlot, ih]

theorem slotAt_oob (data : List (Element K V)) (i : Nat) (h : data.length ≤ i) :
    slotAt data i = .empty := by
  induction data generalizing i with
  | nil => rfl
  | cons x rest ih =>
    cases i with
    | zero => simp at h
    | succ n => exact ih n (by simpa using h)

theorem slotAt_setSlot_self (data : List (Element K V)) (i : Nat) (e : Element K V)
    (h : i < data.length) : slotAt (setSlot data i e) i = e := by
  induction data generalizing i with
  | nil => simp at h
  | cons x rest ih =>
    cases i with
    | zero => rfl
    | succ n => exact ih n (by simpa using h)

theorem slotAt_setSlot_ne (data : List (Element K V)) (i j : Nat) (e : Element K V)
    (h : j ≠ i) : slotAt (setSlot data i e) j = slotAt data j := by
  induction data generalizing i j with
  | nil => rfl
  | cons x rest ih =>
    cases i with
    | zero => cases j with
      | zero => exact absurd rfl h
      | succ m => rfl
    | succ n => cases j with
      | zero => rfl
      | succ m => exact ih n m (by omega)

theorem slotAt_replicate (n j : Nat) :
    slotAt (List.replicate n (Element.empty : Element K V)) j = .empty := by
  induction n generalizing j with
  | zero => rfl
  | succ m ih =>
    cases j with
    | zero => rfl
    | succ l => simpa [List.replicate, slotAt] using ih l

theorem setSlot_eta (data : List (Element K V)) (i : Nat) :
    setSlot data i (slotAt data i) = data := by
  induction data generalizing i with
  | nil => rfl
  | cons x rest ih => cases i <;> simp [setSlot, slotAt, ih]

end SlotLemmas
section ProbePermutation

theorem two_dvd_sq_add_self (s : Nat) : 2 ∣ s * s + s := by
  have h1 : Even (s * (s + 1)) := Nat.even_mul_succ_self s
  have h2 : s * (s + 1) = s * s + s := by ring
  exact even_iff_two_dvd.mp (h2 ▸ h1)

theorem two_mul_tri (s : Nat) : 2 * tri s = s * s + s :=
  Nat.mul_div_cancel' (two_dvd_sq_add_self s)

theorem mod_W_mod_pow {k : Nat} (hk : k ≤ 64) (x : Nat) :
    (x % W) % 2 ^ k = x % 2 ^ k := by
  exact Nat.mod_mod_of_dvd x (Nat.pow_dvd_pow 2 hk)

theorem pow_two_and_pred (k : Nat) : (2 ^ k) &&& (2 ^ k - 1) = 0 := by
  rw [Nat.and_pow_two_sub_one_eq_mod]
  exact Nat.mod_self _

/-- The linear probe at a power-of-two size is plain addition mod the size. -/
theorem linear_next_eq (k start s : Nat) (hk : k ≤ 64) :
    LinearProbing.next start s (2 ^ k) = (start + s) % 2 ^ k := by
  unfold LinearProbing.next
  rw [Nat.and_pow_two_sub_one_eq_mod, mod_W_mod_pow hk]

theorem half_mod_W {x : Nat} (hx : 2 ∣ x) : (x % W) >>> 1 = (x / 2) % 2 ^ 63 := by
  obtain ⟨y, rfl⟩ := hx
  have hW : W = 2 * 2 ^ 63 := by norm_num [W]
  rw [Nat.shiftRight_eq_div_pow, hW, Nat.mul_mod_mul_left]
  simp [Nat.mul_div_cancel_left]

/-- The quadratic probe at a power-of-two size `2^k` (`k ≤ 63`) computes
`(start + tri s) % 2^k`, despite the intermediate wrap-around. -/
theorem quadratic_next_eq (k start s : Nat) (hk : k ≤ 63) :
    QuadraticProbing.next start s (2 ^ k) = (start + tri s) % 2 ^ k := by
  unfold QuadraticProbing.next
  rw [if_pos (by simpa using pow_two_and_pred k)]
  rw [half_mod_W (two_dvd_sq_add_self s)]
  have htri : (s * s + s) / 2 = tri s := rfl
  rw [htri, Nat.and_pow_two_sub_one_eq_mod, mod_W_mod_pow (by omega)]
  conv_lhs => rw [Nat.add_mod, Nat.mod_mod_of_dvd (tri s) (Nat.pow_dvd_pow 2 hk), ← Nat.add_mod]

/-- Key injectivity fact: triangular numbers are injective mod `2^k` on
`[0, 2^k)`. -/
theorem tri_inj_mod (k i j : Nat) (hi : i < 2 ^ k) (hj : j < 2 ^ k)
    (h : tri i % 2 ^ k = tri j % 2 ^ k) : i = j := by
  -- reduce to divisibility of (i - j) * (i + j + 1) by 2^(k+1), w.l.o.g. j ≤ i
  have main : ∀ i j : Nat, i < 2 ^ k → j < 2 ^ k → j ≤ i →
      tri i % 2 ^ k = tri j % 2 ^ k → i = j := by
    intro i j hi hj hle h
    have hmod : tri j ≡ tri i [MOD 2 ^ k] := h.symm
    have hmul : 2 * tri j ≡ 2 * tri i [MOD 2 * 2 ^ k] := Nat.ModEq.mul_left' 2 hmod
    rw [two_mul_tri, two_mul_tri] at hmul
    have hle2 : j * j + j ≤ i * i + i := by
      have := Nat.mul_le_mul hle hle
      omega
    have hdvd : 2 * 2 ^ k ∣ (i * i + i) - (j * j + j) :=
      (Nat.modEq_iff_dvd' hle2).mp hmul
    obtain ⟨d, rfl⟩ := Nat.exists_eq_add_of_le hle
    -- i = j + d
    have hfact : (j + d) * (j + d) + (j + d) - (j * j + j) = d * (j + (j + d) + 1) := by
      have : (j + d) * (j + d) + (j + d) = d * (j + (j + d) + 1) + (j * j + j) := by ring
      omega
    rw [hfact] at hdvd
    by_cases hd0 : d = 0
    · omega
    rcases Nat.even_or_odd d with hdeven | hdodd
    · -- d even and positive: the second factor is odd, so 2^(k+1) ∣ d, too big
      have hodd : Odd (j + (j + d) + 1) := by
        obtain ⟨c, rfl⟩ := hdeven
        exact ⟨j + c, by ring⟩
      have hcop : Nat.Coprime (2 * 2 ^ k) (j + (j + d) + 1) := by
        have h2 : Nat.Coprime 2 (j + (j + d) + 1) :=
          Nat.coprime_two_left.mpr hodd
        have hk2 : Nat.Coprime (2 ^ (k + 1)) (j + (j + d) + 1) := h2.pow_left _
        simpa [Nat.pow_succ, Nat.mul_comm] using hk2
      have hdvd' : 2 * 2 ^ k ∣ d := (Nat.Coprime.dvd_of_dvd_mul_right hcop) hdvd
      have : 2 * 2 ^ k ≤ d := Nat.le_of_dvd (by omega) hdvd'
      omega
    · -- d odd: coprime to the power of two, so 2^(k+1) ∣ (odd second factor)… too big
      have hcop : Nat.Coprime (2 * 2 ^ k) d := by
        have h2 : Nat.Coprime 2 d := Nat.coprime_two_left.mpr hdodd
        have hk2 : Nat.Coprime (2 ^ (k + 1)) d := h2.pow_left _
        simpa [Nat.pow_succ, Nat.mul_comm] using hk2
      have hdvd' : 2 * 2 ^ k ∣ j + (j + d) + 1 :=
        (Nat.Coprime.dvd_of_dvd_mul_left hcop) hdvd
      have : 2 * 2 ^ k ≤ j + (j + d) + 1 := Nat.le_of_dvd (by omega) hdvd'
      omega
  rcases Nat.le_total j i with hle | hle
  · exact main i j hi hj hle h
  · exact (main j i hj hi hle h.symm).symm

theorem linear_probe_inj (k start : Nat) (hk : k ≤ 64) :
    ∀ i j, i < 2 ^ k → j < 2 ^ k →
      LinearProbing.next start i (2 ^ k) = LinearProbing.next start j (2 ^ k) →
      i = j := by
  intro i j hi hj h
  rw [linear_next_eq k start i hk, linear_next_eq k start j hk] at h
  have h' : i % 2 ^ k = j % 2 ^ k :=
    Nat.ModEq.add_left_cancel' start h
  rwa [Nat.mod_eq_of_lt hi, Nat.mod_eq_of_lt hj] at h'

theorem quadratic_probe_inj (k start : Nat) (hk : k ≤ 63) :
    ∀ i j, i < 2 ^ k → j < 2 ^ k →
      QuadraticProbing.next start i (2 ^ k) = QuadraticProbing.next start j (2 ^ k) →
      i = j := by
  intro i j hi hj h
  rw [quadratic_next_eq k start i hk, quadratic_next_eq k start j hk] at h
  have h' : tri i % 2 ^ k = tri j % 2 ^ k :=
    Nat.ModEq.add_left_cancel' start h
  exact tri_inj_mod k i j hi hj h'

theorem probe_surj_of_inj (f : Nat → Nat) (n : Nat) (hn : 0 < n)
    (hlt : ∀ s, s < n → f s < n)
    (hinj : ∀ i j, i < n → j < n → f i = f j → i = j) :
    ∀ t, t < n → ∃ s, s < n ∧ f s = t := by
  intro t ht
  have : Function.Injective (fun s : Fin n => (⟨f s.1, hlt s.1 s.2⟩ : Fin n)) := by
    intro a b hab
    exact Fin.ext (hinj a.1 b.1 a.2 b.2 (congrArg Fin.val hab))
  have hsurj := Finite.surjective_of_injective this
  obtain ⟨s, hs⟩ := hsurj ⟨t, ht⟩
  exact ⟨s.1, s.2, congrArg Fin.val hs⟩

theorem linear_next_lt (k start s : Nat) (hk : k ≤ 64) :
    LinearProbing.next start s (2 ^ k) < 2 ^ k := by
  rw [linear_next_eq k start s hk]
  exact Nat.mod_lt _ (Nat.pos_pow_of_pos k (by omega))

theorem quadratic_next_lt (k start s : Nat) (hk : k ≤ 63) :
    QuadraticProbing.next start s (2 ^ k) < 2 ^ k := by
  rw [quadratic_next_eq k start s hk]
  exact Nat.mod_lt _ (Nat.pos_pow_of_pos k (by omega))

end ProbePermutation
/-! ### The `find_pos` probe walk -/

namespace HashMap

variable {K V : Type} [DecidableEq K] [DecidableEq V]

theorem find_posGo_mono (data : List (Element K V)) (k : K) (se : Bool) (start : Nat) :
    ∀ fuel a i fe r, find_posGo data k se start fuel a i fe = some r →
      find_posGo data k se start (fuel + 1) a i fe = some r := by
  intro fuel
  induction fuel with
  | zero => intro a i fe r h; exact absurd h (by simp [find_posGo])
  | succ n ih =>
    intro a i fe r h
    cases hslot : slotAt data i with
    | empty => simpa [find_posGo, hslot] using (by simpa [find_posGo, hslot] using h)
    | erased =>
      simp only [find_posGo, hslot] at h ⊢
      exact ih _ _ _ _ h
    | node k0 v0 n0 p0 =>
      simp only [find_posGo, hslot] at h ⊢
      by_cases hk : k0 = k
      · simpa [hk] using h
      · simp only [hk, if_false] at h ⊢
        exact ih _ _ _ _ h

theorem find_posGo_mono_le (data : List (Element K V)) (k : K) (se : Bool) (start : Nat)
    {fuel fuel' : Nat} (hle : fuel ≤ fuel') {a i fe r : Nat}
    (h : find_posGo data k se start fuel a i fe = some r) :
    find_posGo data k se start fuel' a i fe = some r := by
  obtain ⟨d, rfl⟩ := Nat.exists_eq_add_of_le hle
  induction d with
  | zero => exact h
  | succ n ih =>
    exact find_posGo_mono data k se start (fuel + n) a i fe r (ih (by omega))

theorem find_posGo_sound (data : List (Element K V)) (k : K) (se : Bool) (start : Nat) :
    ∀ fuel a i fe r,
      i = pathOf start data.length a →
      NoHitBefore data k start a →
      (fe = data.length ∨ (slotAt data fe = .erased ∧ se = true ∧
        ∃ t0, t0 < a ∧ pathOf start data.length t0 = fe)) →
      find_posGo data k se start fuel a i fe = some r →
      FoundSpec data k start r ∨ MissSpec data k se start r := by
  intro fuel
  induction fuel with
  | zero => intro a i fe r _ _ _ h; exact absurd h (by simp [find_posGo])
  | succ n ih =>
    intro a i fe r hi hpre hfe h
    cases hslot : slotAt data i with
    | empty =>
      simp only [find_posGo, hslot] at h
      right
      have hr : (if fe = data.length then i else fe) = r := Option.some.inj h
      by_cases hfeq : fe = data.length
      · rw [if_pos hfeq] at hr
        subst hr
        refine ⟨by rw [hi] at hslot ⊢; simp [hslot, Element.is_used],
          a, by rw [← hi]; simp [hslot, Element.is_empty], hpre, fun _ => hi,
          a, le_rfl, hi.symm, fun t ht => (hpre t ht).1⟩
      · rw [if_neg hfeq] at hr
        subst hr
        rcases hfe with h1 | ⟨herased, hse, t0, ht0, hpath0⟩
        · exact absurd h1 hfeq
        refine ⟨by simp [herased, Element.is_used],
          a, by rw [← hi]; simp [hslot, Element.is_empty], hpre,
          fun hc => absurd hse (by simp [hc]),
          t0, by omega, hpath0,
          fun t ht => (hpre t (by omega)).1⟩
    | node k0 v0 n0 p0 =>
      simp only [find_posGo, hslot] at h
      by_cases hk : k0 = k
      · left
        rw [if_pos hk] at h
        have hr : i = r := Option.some.inj h
        subst hr
        exact ⟨by simp [hslot, Element.key?, hk], a, hi.symm, hpre⟩
      · rw [if_neg hk] at h
        refine ih (a + 1) _ fe r rfl ?_ ?_ h
        · intro t ht
          rcases Nat.lt_or_ge t a with h1 | h1
          · exact hpre t h1
          · have hta : t = a := by omega
            subst hta
            rw [← hi]
            exact ⟨by simp [hslot, Element.is_empty],
              by simp [hslot, Element.key?, hk]⟩
        · rcases hfe with h1 | ⟨h1, h2, t0, ht0, hp⟩
          · exact Or.inl h1
          · exact Or.inr ⟨h1, h2, t0, by omega, hp⟩
    | erased =>
      simp only [find_posGo, hslot] at h
      refine ih (a + 1) _ _ r rfl ?_ ?_ h
      · intro t ht
        rcases Nat.lt_or_ge t a with h1 | h1
        · exact hpre t h1
        · have hta : t = a := by omega
          subst hta
          rw [← hi]
          exact ⟨by simp [hslot, Element.is_empty], by simp [hslot, Element.key?]⟩
      · by_cases hcond : (se && decide (fe = data.length)) = true
        · simp only [hcond, if_true]
          refine Or.inr ⟨hslot, ?_, a, by omega, hi.symm⟩
          rcases Bool.and_eq_true_iff.mp hcond with ⟨h1, _⟩
          exact h1
        · simp only [hcond, if_false]
          rcases hfe with h1 | ⟨h1, h2, t0, ht0, hp⟩
          · exact Or.inl h1
          · exact Or.inr ⟨h1, h2, t0, by omega, hp⟩

end HashMap

namespace HashMap

variable {K V : Type} [DecidableEq K] [DecidableEq V]

theorem pathOf_lt_of_goodLen {len : Nat} (h : GoodLen len) (start s : Nat) :
    pathOf start len s < len := by
  obtain ⟨c, _, hc63, rfl⟩ := h
  exact linear_next_lt c start s (by omega)

theorem pathOf_zero {len : Nat} (h : GoodLen len) (start : Nat) (hs : start < len) :
    pathOf start len 0 = start := by
  obtain ⟨c, _, hc63, rfl⟩ := h
  rw [pathOf, linear_next_eq c start 0 (by omega), Nat.add_zero]
  exact Nat.mod_eq_of_lt hs

theorem pathOf_surj {len : Nat} (h : GoodLen len) (start : Nat) :
    ∀ x, x < len → ∃ s, s < len ∧ pathOf start len s = x := by
  obtain ⟨c, _, hc63, rfl⟩ := h
  exact probe_surj_of_inj (fun s => LinearProbing.next start s (2 ^ c)) (2 ^ c)
    (Nat.pos_pow_of_pos c (by omega))
    (fun s _ => linear_next_lt c start s (by omega))
    (linear_probe_inj c start (by omega))

theorem index_lt (hash : K → Nat) (T : HashMap K V) (k : K)
    (h : GoodLen T.m_data.length) : index hash T k < T.m_data.length := by
  obtain ⟨c, _, _, hlen⟩ := h
  unfold index MaskRangeHashing.hash
  rw [hlen, Nat.and_pow_two_sub_one_eq_mod]
  exact Nat.mod_lt _ (Nat.pos_pow_of_pos c (by omega))

theorem probeAt_eq_pathOf (hash : K → Nat) (data : List (Element K V)) (k : K) (s : Nat) :
    probeAt hash data k s =
      pathOf (MaskRangeHashing.hash (hash k) data.length) data.length s := rfl

theorem find_posGo_present (data : List (Element K V)) (k : K) (se : Bool) (start : Nat)
    (j s : Nat)
    (hkey : (slotAt data j).key? = some k)
    (hs : pathOf start data.length s = j)
    (hmin : ∀ t, t < s → pathOf start data.length t ≠ j)
    (hpre : ∀ t, t < s → (slotAt data (pathOf start data.length t)).is_empty = false)
    (huniq : ∀ t, t < s → (slotAt data (pathOf start data.length t)).key? = some k →
      pathOf start data.length t = j) :
    ∀ fuel a i fe, a ≤ s → i = pathOf start data.length a → s + 1 - a ≤ fuel →
      find_posGo data k se start fuel a i fe = some j := by
  intro fuel
  induction fuel with
  | zero => intro a i fe ha _ hfuel; omega
  | succ n ih =>
    intro a i fe ha hi hfuel
    by_cases has : a = s
    · subst has
      obtain ⟨v, n0, p0, hnode⟩ : ∃ v n0 p0, slotAt data j = .node k v n0 p0 := by
        cases h : slotAt data j <;> simp [Element.key?, h] at hkey
        exact ⟨_, _, _, by rw [hkey]⟩
      rw [hi, hs]
      simp [find_posGo, hnode, hs]
    · have halt : a < s := by omega
      cases hslot : slotAt data i with
      | empty =>
        rw [hi] at hslot
        have := hpre a halt
        simp [hslot, Element.is_empty] at this
      | node k0 v0 n0 p0 =>
        have hk0 : k0 ≠ k := by
          intro hc
          subst hc
          have := huniq a halt (by rw [← hi, hslot]; rfl)
          exact hmin a halt this
        simp only [find_posGo, hslot, if_neg hk0]
        exact ih (a + 1) _ fe (by omega) rfl (by omega)
      | erased =>
        simp only [find_posGo, hslot]
        exact ih (a + 1) _ _ (by omega) rfl (by omega)

theorem find_posGo_absent (data : List (Element K V)) (k : K) (se : Bool) (start : Nat)
    (habs : ∀ t, (slotAt data (pathOf start data.length t)).key? ≠ some k)
    (e : Nat) (he : (slotAt data (pathOf start data.length e)).is_empty = true)
    (hmin : ∀ t, t < e → (slotAt data (pathOf start data.length t)).is_empty = false) :
    ∀ fuel a i fe, a ≤ e → i = pathOf start data.length a →
      (fe = data.length ∨ (slotAt data fe).is_used = false) → e + 1 - a ≤ fuel →
      ∃ r, find_posGo data k se start fuel a i fe = some r ∧
        (slotAt data r).is_used = false := by
  intro fuel
  induction fuel with
  | zero => intro a i fe ha _ _ hfuel; omega
  | succ n ih =>
    intro a i fe ha hi hfe hfuel
    by_cases hae : a = e
    · subst hae
      obtain hempty : slotAt data i = .empty := by
        rw [hi]
        cases h : slotAt data (pathOf start data.length a) <;>
          simp [Element.is_empty, h] at he ⊢
      simp only [find_posGo, hempty]
      by_cases hfeq : fe = data.length
      · exact ⟨i, by simp [hfeq], by rw [hempty]; rfl⟩
      · rcases hfe with h1 | h1
        · exact absurd h1 hfeq
        · exact ⟨fe, by simp [hfeq], h1⟩
    · have halt : a < e := by omega
      cases hslot : slotAt data i with
      | empty =>
        rw [hi] at hslot
        have := hmin a halt
        simp [hslot, Element.is_empty] at this
      | node k0 v0 n0 p0 =>
        have hk0 : k0 ≠ k := by
          intro hc
          subst hc
          exact habs a (by rw [← hi, hslot]; rfl)
        simp only [find_posGo, hslot, if_neg hk0]
        exact ih (a + 1) _ fe (by omega) rfl hfe (by omega)
      | erased =>
        simp only [find_posGo, hslot]
        refine ih (a + 1) _ _ (by omega) rfl ?_ (by omega)
        by_cases hcond : (se && decide (fe = data.length)) = true
        · simp only [hcond, if_true]
          right
          rw [hslot]
          rfl
        · simp only [hcond, if_false]
          exact hfe
      
theorem find_posGo_diverges (data : List (Element K V)) (k : K) (se : Bool) (start : Nat)
    (h : ∀ t, (slotAt data (pathOf start data.length t)).is_empty = false ∧
      (slotAt data (pathOf start data.length t)).key? ≠ some k) :
    ∀ fuel a i fe, i = pathOf start data.length a →
      find_posGo data k se start fuel a i fe = none := by
  intro fuel
  induction fuel with
  | zero => intro a i fe _; rfl
  | succ n ih =>
    intro a i fe hi
    cases hslot : slotAt data i with
    | empty =>
      rw [hi] at hslot
      have := (h a).1
      simp [hslot, Element.is_empty] at this
    | node k0 v0 n0 p0 =>
      have hk0 : k0 ≠ k := by
        intro hc
        subst hc
        exact (h a).2 (by rw [← hi, hslot]; rfl)
      simp only [find_posGo, hslot, if_neg hk0]
      exact ih (a + 1) _ fe rfl
    | erased =>
      simp only [find_posGo, hslot]
      exact ih (a + 1) _ _ rfl

theorem find_pos_sound (hash : K → Nat) (T : HashMap K V) (k : K) (se : Bool)
    (fuel r : Nat) (hg : GoodLen T.m_data.length)
    (h : find_pos hash T k se fuel = some r) :
    FoundSpec T.m_data k (index hash T k) r ∨ MissSpec T.m_data k se (index hash T k) r := by
  refine find_posGo_sound T.m_data k se (index hash T k) fuel 0 _ _ r
    (pathOf_zero hg _ (index_lt hash T k hg)).symm (fun t ht => by omega) (Or.inl rfl) h

end HashMap

namespace HashMap

variable {K V : Type} [DecidableEq K] [DecidableEq V]

theorem used_lt (data : List (Element K V)) (j : Nat)
    (h : (slotAt data j).is_used = true) : j < data.length := by
  by_contra hc
  rw [slotAt_oob data j (by omega)] at h
  simp [Element.is_used] at h

theorem key_some_used (e : Element K V) (k : K) (h : e.key? = some k) :
    e.is_used = true := by
  cases e <;> simp [Element.key?, Element.is_used] at h ⊢

theorem len_le_of_goodLen {n : Nat} (h : GoodLen n) : n ≤ 2 ^ 63 := by
  obtain ⟨c, _, hc63, rfl⟩ := h
  exact Nat.pow_le_pow_right (by omega) hc63

theorem len_lt_m_end_of_goodLen {n : Nat} (h : GoodLen n) : n < m_end := by
  have := len_le_of_goodLen h
  unfold m_end
  omega

theorem filterMap_some_inj {α β : Type} (l : List α) (f : α → Option β)
    (h : (l.filterMap f).Nodup) :
    ∀ a ∈ l, ∀ b ∈ l, ∀ x, f a = some x → f b = some x → a = b := by
  induction l with
  | nil => intro a ha; simp at ha
  | cons c rest ih =>
    intro a ha b hb x hfa hfb
    have hnodup_rest : (rest.filterMap f).Nodup := by
      cases hc : f c with
      | none => rwa [List.filterMap_cons_none hc] at h
      | some y => rw [List.filterMap_cons_some hc] at h; exact h.of_cons
    rcases List.mem_cons.mp ha with rfl | ha1
    · rcases List.mem_cons.mp hb with rfl | hb1
      · rfl
      · exfalso
        rw [List.filterMap_cons_some hfa] at h
        exact (List.nodup_cons.mp h).1 (List.mem_filterMap.mpr ⟨b, hb1, hfb⟩)
    · rcases List.mem_cons.mp hb with rfl | hb1
      · exfalso
        rw [List.filterMap_cons_some hfb] at h
        exact (List.nodup_cons.mp h).1 (List.mem_filterMap.mpr ⟨a, ha1, hfa⟩)
      · exact ih hnodup_rest a ha1 b hb1 x hfa hfb

theorem Inv.mem_lt {hash : K → Nat} {T : HashMap K V} {order : List Nat}
    (hinv : Inv hash T order) {j : Nat} (hj : j ∈ order) : j < T.m_data.length :=
  used_lt T.m_data j ((hinv.mem_iff j).mp hj)

theorem Inv.key_unique {hash : K → Nat} {T : HashMap K V} {order : List Nat}
    (hinv : Inv hash T order) {j1 j2 : Nat} {k : K}
    (h1 : (slotAt T.m_data j1).key? = some k) (h2 : (slotAt T.m_data j2).key? = some k) :
    j1 = j2 := by
  have hm1 : j1 ∈ order := (hinv.mem_iff j1).mpr (key_some_used _ k h1)
  have hm2 : j2 ∈ order := (hinv.mem_iff j2).mpr (key_some_used _ k h2)
  exact filterMap_some_inj order (fun j => (slotAt T.m_data j).key?) hinv.keys_nodup
    j1 hm1 j2 hm2 k h1 h2

/-- When the key is stored at slot `j` of a well-formed table, `find_pos`
returns `j` for every sufficient fuel. -/
theorem find_pos_present {hash : K → Nat} {T : HashMap K V} {order : List Nat}
    (hinv : Inv hash T order) (k : K) (se : Bool) {j : Nat}
    (hkey : (slotAt T.m_data j).key? = some k) :
    ∃ F, ∀ fuel, F ≤ fuel → find_pos hash T k se fuel = some j := by
  have hj : j ∈ order := (hinv.mem_iff j).mpr (key_some_used _ k hkey)
  obtain ⟨s0, hs0, hpre0⟩ := hinv.reach j hj k hkey
  have hP : ∃ s, probeAt hash T.m_data k s = j ∧
      ∀ t, t < s → (slotAt T.m_data (probeAt hash T.m_data k t)).is_empty = false :=
    ⟨s0, hs0, hpre0⟩
  classical
  obtain ⟨s, ⟨hs, hpre⟩, hsmin⟩ := Nat.findX hP
  refine ⟨s + 1, fun fuel hfuel => ?_⟩
  have hidx : index hash T k = MaskRangeHashing.hash (hash k) T.m_data.length := rfl
  refine find_posGo_present T.m_data k se (index hash T k) j s hkey hs ?_ hpre ?_
    fuel 0 _ _ (by omega) ?_ (by omega)
  · intro t ht hc
    exact absurd ⟨hc, fun u hu => hpre u (by omega)⟩ (hsmin t ht)
  · intro t _ hkt
    exact hinv.key_unique hkt hkey ▸ rfl
  · exact (pathOf_zero hinv.good _ (index_lt hash T k hinv.good)).symm

/-- When the key is absent and some Empty slot exists, `find_pos` terminates
with a non-occupied slot, for every sufficient fuel. -/
theorem find_pos_absent {hash : K → Nat} (T : HashMap K V) (hg : GoodLen T.m_data.length)
    (k : K) (se : Bool)
    (habs : ∀ j, (slotAt T.m_data j).key? ≠ some k)
    (x : Nat) (hx : x < T.m_data.length) (hxe : (slotAt T.m_data x).is_empty = true) :
    ∃ F r, (slotAt T.m_data r).is_used = false ∧
      ∀ fuel, F ≤ fuel → find_pos hash T k se fuel = some r := by
  classical
  obtain ⟨sx, _, hsx⟩ := pathOf_surj hg (index hash T k) x hx
  have hQ : ∃ e, (slotAt T.m_data (pathOf (index hash T k) T.m_data.length e)).is_empty
      = true := ⟨sx, by rw [hsx]; exact hxe⟩
  obtain ⟨e, he, hemin⟩ := Nat.findX hQ
  obtain ⟨r, hr, hru⟩ := find_posGo_absent T.m_data k se (index hash T k)
    (fun t => habs _) e he
    (fun t ht => by
      have := hemin t ht
      cases hb : (slotAt T.m_data (pathOf (index hash T k) T.m_data.length t)).is_empty
      · rfl
      · exact absurd hb this)
    (e + 1) 0 _ _ (by omega)
    (pathOf_zero hg _ (index_lt hash T k hg)).symm (Or.inl rfl) (by omega)
  exact ⟨e + 1, r, hru, fun fuel hfuel =>
    find_posGo_mono_le T.m_data k se (index hash T k) hfuel hr⟩

end HashMap

namespace HashMap

variable {K V : Type} [DecidableEq K] [DecidableEq V]

theorem length_setNextSlot (data : List (Element K V)) (i r : Nat) :
    (setNextSlot data i r).length = data.length := by
  unfold setNextSlot
  cases slotAt data i <;> simp [length_setSlot]

theorem length_setPrevSlot (data : List (Element K V)) (i r : Nat) :
    (setPrevSlot data i r).length = data.length := by
  unfold setPrevSlot
  cases slotAt data i <;> simp [length_setSlot]

theorem length_setValSlot (data : List (Element K V)) (i : Nat) (v : V) :
    (setValSlot data i v).length = data.length := by
  unfold setValSlot
  cases slotAt data i <;> simp [length_setSlot]

theorem slotAt_setNextSlot_ne (data : List (Element K V)) (i r j : Nat) (h : j ≠ i) :
    slotAt (setNextSlot data i r) j = slotAt data j := by
  unfold setNextSlot
  cases slotAt data i <;> simp [slotAt_setSlot_ne data i j _ h]

theorem slotAt_setPrevSlot_ne (data : List (Element K V)) (i r j : Nat) (h : j ≠ i) :
    slotAt (setPrevSlot data i r) j = slotAt data j := by
  unfold setPrevSlot
  cases slotAt data i <;> simp [slotAt_setSlot_ne data i j _ h]

theorem slotAt_setValSlot_ne (data : List (Element K V)) (i : Nat) (v : V) (j : Nat)
    (h : j ≠ i) : slotAt (setValSlot data i v) j = slotAt data j := by
  unfold setValSlot
  cases slotAt data i <;> simp [slotAt_setSlot_ne data i j _ h]

theorem slotAt_setNextSlot_self (data : List (Element K V)) (i r : Nat)
    {k : K} {v : V} {n p : Nat} (h : slotAt data i = .node k v n p)
    (hlt : i < data.length) :
    slotAt (setNextSlot data i r) i = .node k v r p := by
  unfold setNextSlot
  rw [h]
  exact slotAt_setSlot_self data i _ hlt

theorem slotAt_setPrevSlot_self (data : List (Element K V)) (i r : Nat)
    {k : K} {v : V} {n p : Nat} (h : slotAt data i = .node k v n p)
    (hlt : i < data.length) :
    slotAt (setPrevSlot data i r) i = .node k v n r := by
  unfold setPrevSlot
  rw [h]
  exact slotAt_setSlot_self data i _ hlt

theorem slotAt_setValSlot_self (data : List (Element K V)) (i : Nat) (v2 : V)
    {k : K} {v : V} {n p : Nat} (h : slotAt data i = .node k v n p)
    (hlt : i < data.length) :
    slotAt (setValSlot data i v2) i = .node k v2 n p := by
  unfold setValSlot
  rw [h]
  exact slotAt_setSlot_self data i _ hlt

theorem setNextSlot_of_unused (data : List (Element K V)) (i r : Nat)
    (h : (slotAt data i).is_used = false) : setNextSlot data i r = data := by
  unfold setNextSlot
  cases hs : slotAt data i <;> simp_all [Element.is_used]

theorem setPrevSlot_of_unused (data : List (Element K V)) (i r : Nat)
    (h : (slotAt data i).is_used = false) : setPrevSlot data i r = data := by
  unfold setPrevSlot
  cases hs : slotAt data i <;> simp_all [Element.is_used]

theorem slotAt_setNextSlot_used (data : List (Element K V)) (i r j : Nat) :
    (slotAt (setNextSlot data i r) j).is_used = (slotAt data j).is_used := by
  by_cases hji : j = i
  · subst hji
    cases hs : slotAt data j with
    | empty => simp [setNextSlot, hs]
    | erased => simp [setNextSlot, hs]
    | node k v n p =>
      by_cases hlt : j < data.length
      · simp [setNextSlot, hs, slotAt_setSlot_self data j _ hlt, Element.is_used,
          Element.key?, Element.val?, Element.is_empty]
      · rw [slotAt_oob data j (by omega)] at hs
        exact absurd hs (by simp)
  · rw [slotAt_setNextSlot_ne data i r j hji]

theorem slotAt_setNextSlot_key (data : List (Element K V)) (i r j : Nat) :
    (slotAt (setNextSlot data i r) j).key? = (slotAt data j).key? := by
  by_cases hji : j = i
  · subst hji
    cases hs : slotAt data j with
    | empty => simp [setNextSlot, hs]
    | erased => simp [setNextSlot, hs]
    | node k v n p =>
      by_cases hlt : j < data.length
      · simp [setNextSlot, hs, slotAt_setSlot_self data j _ hlt, Element.is_used,
          Element.key?, Element.val?, Element.is_empty]
      · rw [slotAt_oob data j (by omega)] at hs
        exact absurd hs (by simp)
  · rw [slotAt_setNextSlot_ne data i r j hji]

theorem slotAt_setNextSlot_val (data : List (Element K V)) (i r j : Nat) :
    (slotAt (setNextSlot data i r) j).val? = (slotAt data j).val? := by
  by_cases hji : j = i
  · subst hji
    cases hs : slotAt data j with
    | empty => simp [setNextSlot, hs]
    | erased => simp [setNextSlot, hs]
    | node k v n p =>
      by_cases hlt : j < data.length
      · simp [setNextSlot, hs, slotAt_setSlot_self data j _ hlt, Element.is_used,
          Element.key?, Element.val?, Element.is_empty]
      · rw [slotAt_oob data j (by omega)] at hs
        exact absurd hs (by simp)
  · rw [slotAt_setNextSlot_ne data i r j hji]

theorem slotAt_setNextSlot_is_empty (data : List (Element K V)) (i r j : Nat) :
    (slotAt (setNextSlot data i r) j).is_empty = (slotAt data j).is_empty := by
  by_cases hji : j = i
  · subst hji
    cases hs : slotAt data j with
    | empty => simp [setNextSlot, hs]
    | erased => simp [setNextSlot, hs]
    | node k v n p =>
      by_cases hlt : j < data.length
      · simp [setNextSlot, hs, slotAt_setSlot_self data j _ hlt, Element.is_used,
          Element.key?, Element.val?, Element.is_empty]
      · rw [slotAt_oob data j (by omega)] at hs
        exact absurd hs (by simp)
  · rw [slotAt_setNextSlot_ne data i r j hji]

theorem slotAt_setPrevSlot_used (data : List (Element K V)) (i r j : Nat) :
    (slotAt (setPrevSlot data i r) j).is_used = (slotAt data j).is_used := by
  by_cases hji : j = i
  · subst hji
    cases hs : slotAt data j with
    | empty => simp [setPrevSlot, hs]
    | erased => simp [setPrevSlot, hs]
    | node k v n p =>
      by_cases hlt : j < data.length
      · simp [setPrevSlot, hs, slotAt_setSlot_self data j _ hlt, Element.is_used,
          Element.key?, Element.val?, Element.is_empty]
      · rw [slotAt_oob data j (by omega)] at hs
        exact absurd hs (by simp)
  · rw [slotAt_setPrevSlot_ne data i r j hji]

theorem slotAt_setPrevSlot_key (data : List (Element K V)) (i r j : Nat) :
    (slotAt (setPrevSlot data i r) j).key? = (slotAt data j).key? := by
  by_cases hji : j = i
  · subst hji
    cases hs : slotAt data j with
    | empty => simp [setPrevSlot, hs]
    | erased => simp [setPrevSlot, hs]
    | node k v n p =>
      by_cases hlt : j < data.length
      · simp [setPrevSlot, hs, slotAt_setSlot_self data j _ hlt, Element.is_used,
          Element.key?, Element.val?, Element.is_empty]
      · rw [slotAt_oob data j (by omega)] at hs
        exact absurd hs (by simp)
  · rw [slotAt_setPrevSlot_ne data i r j hji]

theorem slotAt_setPrevSlot_val (data : List (Element K V)) (i r j : Nat) :
    (slotAt (setPrevSlot data i r) j).val? = (slotAt data j).val? := by
  by_cases hji : j = i
  · subst hji
    cases hs : slotAt data j with
    | empty => simp [setPrevSlot, hs]
    | erased => simp [setPrevSlot, hs]
    | node k v n p =>
      by_cases hlt : j < data.length
      · simp [setPrevSlot, hs, slotAt_setSlot_self data j _ hlt, Element.is_used,
          Element.key?, Element.val?, Element.is_empty]
      · rw [slotAt_oob data j (by omega)] at hs
        exact absurd hs (by simp)
  · rw [slotAt_setPrevSlot_ne data i r j hji]

theorem slotAt_setPrevSlot_is_empty (data : List (Element K V)) (i r j : Nat) :
    (slotAt (setPrevSlot data i r) j).is_empty = (slotAt data j).is_empty := by
  by_cases hji : j = i
  · subst hji
    cases hs : slotAt data j with
    | empty => simp [setPrevSlot, hs]
    | erased => simp [setPrevSlot, hs]
    | node k v n p =>
      by_cases hlt : j < data.length
      · simp [setPrevSlot, hs, slotAt_setSlot_self data j _ hlt, Element.is_used,
          Element.key?, Element.val?, Element.is_empty]
      · rw [slotAt_oob data j (by omega)] at hs
        exact absurd hs (by simp)
  · rw [slotAt_setPrevSlot_ne data i r j hji]

theorem nextD_setPrevSlot (data : List (Element K V)) (i r j : Nat) :
    nextD (setPrevSlot data i r) j = nextD data j := by
  by_cases hji : j = i
  · subst hji
    cases hs : slotAt data j with
    | node k v n p =>
      by_cases hlt : j < data.length
      · unfold nextD
        rw [slotAt_setPrevSlot_self data j r hs hlt, hs]
      · rw [slotAt_oob data j (by omega)] at hs
        exact absurd hs (by simp)
    | empty => simp [nextD, setPrevSlot, hs]
    | erased => simp [nextD, setPrevSlot, hs]
  · unfold nextD
    rw [slotAt_setPrevSlot_ne data i r j hji]

theorem prevD_setNextSlot (data : List (Element K V)) (i r j : Nat) :
    prevD (setNextSlot data i r) j = prevD data j := by
  by_cases hji : j = i
  · subst hji
    cases hs : slotAt data j with
    | node k v n p =>
      by_cases hlt : j < data.length
      · unfold prevD
        rw [slotAt_setNextSlot_self data j r hs hlt, hs]
      · rw [slotAt_oob data j (by omega)] at hs
        exact absurd hs (by simp)
    | empty => simp [prevD, setNextSlot, hs]
    | erased => simp [prevD, setNextSlot, hs]
  · unfold prevD
    rw [slotAt_setNextSlot_ne data i r j hji]

/-- Chains transfer along any relation implication valid on the actual
adjacent pairs. -/
theorem chain_transfer {R S : Nat → Nat → Prop} :
    ∀ (t : List Nat) (a : Nat), List.Chain R a t →
      (∀ x y, R x y → (x = a ∨ x ∈ t) → y ∈ t → S x y) →
      List.Chain S a t := by
  intro t
  induction t with
  | nil => intro a _ _; exact List.Chain.nil
  | cons b rest ih =>
    intro a h himp
    rcases List.chain_cons.mp h with ⟨hab, hrest⟩
    refine List.Chain.cons (himp a b hab (Or.inl rfl) (by simp)) ?_
    refine ih b hrest ?_
    intro x y hxy hx hy
    refine himp x y hxy ?_ (by simp [hy])
    rcases hx with rfl | hx
    · exact Or.inr (by simp)
    · exact Or.inr (by simp [hx])

end HashMap

namespace HashMap

variable {K V : Type} [DecidableEq K] [DecidableEq V]

theorem probeAt_congr (hash : K → Nat) (data data2 : List (Element K V)) (k : K)
    (h : data2.length = data.length) : probeAt hash data2 k = probeAt hash data k := by
  funext s
  unfold probeAt
  rw [h]

theorem entry_congr (e e2 : Element K V) (hk : e2.key? = e.key?) (hv : e2.val? = e.val?) :
    e2.entry? = e.entry? := by
  cases e <;> cases e2 <;>
    simp_all [Element.key?, Element.val?, Element.entry?]

theorem entriesOf_congr (data data2 : List (Element K V)) (order : List Nat)
    (h : ∀ j ∈ order, (slotAt data2 j).key? = (slotAt data j).key? ∧
      (slotAt data2 j).val? = (slotAt data j).val?) :
    entriesOf data2 order = entriesOf data order := by
  induction order with
  | nil => rfl
  | cons a rest ih =>
    unfold entriesOf
    rw [List.filterMap_cons, List.filterMap_cons]
    have ha := h a (by simp)
    rw [entry_congr _ _ ha.1 ha.2]
    have hrest : entriesOf data2 rest = entriesOf data rest :=
      ih fun j hj => h j (by simp [hj])
    unfold entriesOf at hrest
    rw [hrest]

theorem keysOf_congr (data data2 : List (Element K V)) (order : List Nat)
    (h : ∀ j ∈ order, (slotAt data2 j).key? = (slotAt data j).key?) :
    keysOf data2 order = keysOf data order := by
  induction order with
  | nil => rfl
  | cons a rest ih =>
    unfold keysOf
    rw [List.filterMap_cons, List.filterMap_cons, h a (by simp)]
    have : keysOf data2 rest = keysOf data rest := ih fun j hj => h j (by simp [hj])
    unfold keysOf at this
    rw [this]

theorem mem_keysOf (data : List (Element K V)) (order : List Nat) (k : K) :
    k ∈ keysOf data order ↔ ∃ j ∈ order, (slotAt data j).key? = some k := by
  unfold keysOf
  rw [List.mem_filterMap]

theorem entriesOf_cons_node (data : List (Element K V)) (j : Nat) (order : List Nat)
    {k : K} {v : V} {n p : Nat} (h : slotAt data j = .node k v n p) :
    entriesOf data (j :: order) = (k, v) :: entriesOf data order := by
  unfold entriesOf
  rw [List.filterMap_cons, h]
  rfl

theorem keysOf_cons_node (data : List (Element K V)) (j : Nat) (order : List Nat)
    {k : K} (h : (slotAt data j).key? = some k) :
    keysOf data (j :: order) = k :: keysOf data order := by
  unfold keysOf
  rw [List.filterMap_cons, h]

theorem Inv.size_succ_lt_W {hash : K → Nat} {T : HashMap K V} {order : List Nat}
    (hinv : Inv hash T order) : T.m_size + 1 < W := by
  have h1 := hinv.half
  have h2 := len_le_of_goodLen hinv.good
  unfold W
  omega

/-- Inserting a fresh key at a non-occupied slot reached by its probe
sequence preserves the invariant, prepending the slot to the traversal
order. -/
theorem insert_at_inv {hash : K → Nat} {T : HashMap K V} {order : List Nat}
    (hinv : Inv hash T order) (pos : Nat) (k : K) (v : V)
    (hlt : pos < T.m_data.length)
    (hnotused : (slotAt T.m_data pos).is_used = false)
    (hreach : ∃ s, probeAt hash T.m_data k s = pos ∧
      ∀ t, t < s → (slotAt T.m_data (probeAt hash T.m_data k t)).is_empty = false)
    (habs : ∀ j, (slotAt T.m_data j).key? ≠ some k)
    (hhalf2 : 2 * (order.length + 1) ≤ T.m_data.length) :
    Inv hash (insert_at T pos k v) (pos :: order) ∧
    slotAt (insert_at T pos k v).m_data pos = .node k v T.m_begin m_end ∧
    (∀ j, j ≠ pos →
      (slotAt (insert_at T pos k v).m_data j).key? = (slotAt T.m_data j).key? ∧
      (slotAt (insert_at T pos k v).m_data j).val? = (slotAt T.m_data j).val? ∧
      (slotAt (insert_at T pos k v).m_data j).is_used = (slotAt T.m_data j).is_used ∧
      (slotAt (insert_at T pos k v).m_data j).is_empty = (slotAt T.m_data j).is_empty) ∧
    entriesOf (insert_at T pos k v).m_data (pos :: order) =
      (k, v) :: entriesOf T.m_data order := by
  have hposmem : pos ∉ order := fun hmem => by
    rw [(hinv.mem_iff pos).mp hmem] at hnotused
    simp at hnotused
  have hlen1 : (setSlot T.m_data pos (Element.node k v T.m_begin m_end)).length
      = T.m_data.length := length_setSlot _ _ _
  have hd1pos : slotAt (setSlot T.m_data pos (Element.node k v T.m_begin m_end)) pos
      = .node k v T.m_begin m_end := slotAt_setSlot_self _ _ _ hlt
  have hd1ne : ∀ j, j ≠ pos →
      slotAt (setSlot T.m_data pos (Element.node k v T.m_begin m_end)) j
      = slotAt T.m_data j := fun j hj => slotAt_setSlot_ne _ _ _ _ hj
  -- the two shapes of the data after the optional head-prev update
  by_cases hb : T.m_begin ≠ m_end
  case neg =>
    -- old table empty: order = []
    push_neg at hb
    have horder : order = [] := by
      cases horder : order with
      | nil => rfl
      | cons h0 t0 =>
        exfalso
        have : h0 ∈ order := by rw [horder]; simp
        have hlt0 := hinv.mem_lt this
        have := hinv.begin_eq
        rw [horder] at this
        simp [List.headD] at this
        rw [this] at hb
        have := len_lt_m_end_of_goodLen hinv.good
        omega
    subst horder
    have hT' : insert_at T pos k v =
        ⟨setSlot T.m_data pos (Element.node k v T.m_begin m_end),
          (T.m_size + 1) % W, pos⟩ := by
      unfold insert_at
      simp [hb]
    rw [hT']
    have hbm : T.m_begin = m_end := hb
    have hsize0 : T.m_size = 0 := by simpa using hinv.size_eq
    refine ⟨?_, hd1pos, ?_, ?_⟩
    · refine ⟨?_, ?_, ?_, ?_, ?_, ?_, ?_, ?_, ?_, ?_, ?_⟩
      · show GoodLen (setSlot T.m_data pos _).length
        rw [hlen1]; exact hinv.good
      · simp [List.headD]
      · simp [List.chain'_singleton]
      · intro a ha
        simp at ha
        subst a
        simp [prevD, hd1pos]
      · intro a ha
        simp at ha
        subst a
        simp only [nextD, hd1pos]
        exact hbm
      · intro j
        by_cases hj : j = pos
        · subst hj
          simp [hd1pos, Element.is_used]
        · rw [hd1ne j hj]
          simp only [List.mem_singleton]
          constructor
          · intro hc
            exact absurd hc hj
          · intro hused
            exfalso
            have := (hinv.mem_iff j).mpr hused
            simp at this
      · simp
      · show (T.m_size + 1) % W = 1
        rw [hsize0]
        norm_num [W]
      · show 2 * ((T.m_size + 1) % W) ≤
          (setSlot T.m_data pos (Element.node k v T.m_begin m_end)).length
        rw [hlen1, hsize0]
        have h64 : (64 : Nat) ≤ T.m_data.length := by
          obtain ⟨c, hc6, _, hlenc⟩ := hinv.good
          rw [hlenc]
          calc (64 : Nat) = 2 ^ 6 := by norm_num
          _ ≤ 2 ^ c := Nat.pow_le_pow_right (by omega) hc6
        have : (0 + 1) % W = 1 := by norm_num [W]
        rw [this]
        omega
      · have hk1 : (slotAt (setSlot T.m_data pos (Element.node k v T.m_begin m_end))
            pos).key? = some k := by
          rw [hd1pos]
          rfl
        rw [keysOf_cons_node _ pos [] hk1]
        simp [keysOf]
      · intro j hj k0 hk0
        simp only [List.mem_singleton] at hj
        subst j
        rw [hd1pos] at hk0
        simp [Element.key?] at hk0
        subst hk0
        obtain ⟨s, hs, hpre⟩ := hreach
        have hpc : probeAt hash (setSlot T.m_data pos (Element.node k v T.m_begin m_end)) k
            = probeAt hash T.m_data k := probeAt_congr hash _ _ k hlen1
        refine ⟨s, by rw [hpc]; exact hs, fun t ht => ?_⟩
        rw [hpc]
        by_cases hpt : probeAt hash T.m_data k t = pos
        · rw [hpt, hd1pos]; rfl
        · rw [hd1ne _ hpt]; exact hpre t ht
    · intro j hj
      rw [hd1ne j hj]
      exact ⟨rfl, rfl, rfl, rfl⟩
    · rw [entriesOf_cons_node _ pos [] hd1pos]
      simp [entriesOf]
  case pos =>
    -- old table nonempty: order = h0 :: t0, m_begin = h0
    obtain ⟨h0, t0, horder⟩ : ∃ h0 t0, order = h0 :: t0 := by
      cases horder : order with
      | nil =>
        exfalso
        have := hinv.begin_eq
        rw [horder] at this
        simp [List.headD] at this
        exact hb this
      | cons h0 t0 => exact ⟨h0, t0, rfl⟩
    have hbegin : T.m_begin = h0 := by
      have := hinv.begin_eq
      rw [horder] at this
      simpa [List.headD] using this
    have hh0mem : h0 ∈ order := by rw [horder]; simp
    have hh0ne : h0 ≠ pos := fun hc => hposmem (hc ▸ hh0mem)
    have hh0lt := hinv.mem_lt hh0mem
    obtain ⟨kh, vh, nh, ph, hh0slot⟩ : ∃ kh vh nh ph,
        slotAt T.m_data h0 = .node kh vh nh ph := by
      have := (hinv.mem_iff h0).mp hh0mem
      cases hs : slotAt T.m_data h0 <;> simp [hs, Element.is_used] at this ⊢
    have hph : ph = m_end := by
      have := hinv.head_prev h0 (by rw [horder]; rfl)
      rw [prevD, hh0slot] at this
      exact this
    have hT' : insert_at T pos k v =
        ⟨setPrevSlot (setSlot T.m_data pos (Element.node k v T.m_begin m_end))
            T.m_begin pos,
          (T.m_size + 1) % W, pos⟩ := by
      unfold insert_at
      simp [hb]
    set d1 := setSlot T.m_data pos (Element.node k v T.m_begin m_end) with hd1def
    set d2 := setPrevSlot d1 T.m_begin pos with hd2def
    have hlen2 : d2.length = T.m_data.length := by
      rw [hd2def, length_setPrevSlot, hlen1]
    have hd1h0 : slotAt d1 h0 = .node kh vh nh ph := by
      rw [hd1ne h0 hh0ne, hh0slot]
    have hd2pos : slotAt d2 pos = .node k v T.m_begin m_end := by
      rw [hd2def,
        slotAt_setPrevSlot_ne d1 T.m_begin pos pos (by rw [hbegin]; exact Ne.symm hh0ne)]
      exact hd1pos
    have hd2h0 : slotAt d2 h0 = .node kh vh nh pos := by
      rw [hd2def, hbegin]
      exact slotAt_setPrevSlot_self d1 h0 pos hd1h0 (by rw [hlen1]; exact hh0lt)
    have hd2ne : ∀ j, j ≠ pos → j ≠ h0 → slotAt d2 j = slotAt T.m_data j := by
      intro j hjp hjh
      rw [hd2def, slotAt_setPrevSlot_ne d1 T.m_begin pos j (by rw [hbegin]; exact hjh),
        hd1ne j hjp]
    have hpoint : ∀ j, j ≠ pos →
        (slotAt d2 j).key? = (slotAt T.m_data j).key? ∧
        (slotAt d2 j).val? = (slotAt T.m_data j).val? ∧
        (slotAt d2 j).is_used = (slotAt T.m_data j).is_used ∧
        (slotAt d2 j).is_empty = (slotAt T.m_data j).is_empty := by
      intro j hjp
      by_cases hjh : j = h0
      · subst hjh
        rw [hd2h0, hh0slot]
        exact ⟨rfl, rfl, rfl, rfl⟩
      · rw [hd2ne j hjp hjh]
        exact ⟨rfl, rfl, rfl, rfl⟩
    have hnodup0 : h0 ∉ t0 := by
      have := hinv.nodup
      rw [horder] at this
      exact (List.nodup_cons.mp this).1
    rw [hT']
    refine ⟨?_, hd2pos, fun j hj => hpoint j hj, ?_⟩
    · refine ⟨?_, ?_, ?_, ?_, ?_, ?_, ?_, ?_, ?_, ?_, ?_⟩
      · show GoodLen d2.length
        rw [hlen2]
        exact hinv.good
      · simp [List.headD]
      · rw [horder]
        show List.Chain (NodeLink d2) pos (h0 :: t0)
        refine List.Chain.cons ⟨?_, ?_⟩ ?_
        · show nextD d2 pos = h0
          simp [nextD, hd2pos, hbegin]
        · show prevD d2 h0 = pos
          simp [prevD, hd2h0]
        · have hold : List.Chain (NodeLink T.m_data) h0 t0 := by
            have hch := hinv.chain
            rw [horder] at hch
            exact hch
          refine chain_transfer t0 h0 hold ?_
          intro x y hxy hx hy
          have hymem : y ∈ order := by rw [horder]; simp [hy]
          have hxmem : x ∈ order := by
            rw [horder]
            rcases hx with rfl | hx
            · simp
            · simp [hx]
          have hynp : y ≠ pos := fun hc => hposmem (hc ▸ hymem)
          have hxnp : x ≠ pos := fun hc => hposmem (hc ▸ hxmem)
          have hynh : y ≠ h0 := fun hc => hnodup0 (hc ▸ hy)
          refine ⟨?_, ?_⟩
          · have h1 : nextD d2 x = nextD d1 x := by
              rw [hd2def]
              exact nextD_setPrevSlot d1 T.m_begin pos x
            have h2 : nextD d1 x = nextD T.m_data x := by
              unfold nextD
              rw [hd1ne x hxnp]
            rw [h1, h2]
            exact hxy.1
          · have h1 : prevD d2 y = prevD T.m_data y := by
              unfold prevD
              rw [hd2ne y hynp hynh]
            rw [h1]
            exact hxy.2
      · intro a ha
        simp at ha
        subst ha
        simp [prevD, hd2pos]
      · intro a ha
        rw [horder, List.getLast?_cons_cons] at ha
        have hamem : a ∈ order := by
          rw [horder]
          obtain ⟨hne, hax⟩ := List.mem_getLast?_eq_getLast
            (show a ∈ (h0 :: t0).getLast? from ha)
          rw [hax]
          exact List.getLast_mem hne
        have hanp : a ≠ pos := fun hc => hposmem (hc ▸ hamem)
        have h1 : nextD d2 a = nextD d1 a := by
          rw [hd2def]
          exact nextD_setPrevSlot d1 T.m_begin pos a
        have h2 : nextD d1 a = nextD T.m_data a := by
          unfold nextD
          rw [hd1ne a hanp]
        rw [h1, h2]
        exact hinv.last_next a (by rw [horder]; exact ha)
      · intro j
        by_cases hj : j = pos
        · subst hj
          simp [hd2pos, Element.is_used]
        · rw [List.mem_cons]
          constructor
          · intro hmem
            rcases hmem with hc | hmem
            · exact absurd hc hj
            · rw [(hpoint j hj).2.2.1]
              exact (hinv.mem_iff j).mp hmem
          · intro hused
            rw [(hpoint j hj).2.2.1] at hused
            exact Or.inr ((hinv.mem_iff j).mpr hused)
      · exact List.nodup_cons.mpr ⟨hposmem, hinv.nodup⟩
      · show (T.m_size + 1) % W = (pos :: order).length
        rw [Nat.mod_eq_of_lt hinv.size_succ_lt_W, hinv.size_eq]
        simp
      · show 2 * ((T.m_size + 1) % W) ≤ d2.length
        rw [hlen2, Nat.mod_eq_of_lt hinv.size_succ_lt_W, hinv.size_eq]
        omega
      · rw [keysOf_cons_node d2 pos order (by rw [hd2pos]; rfl),
          keysOf_congr T.m_data d2 order
            (fun j hj => (hpoint j (fun hc => hposmem (hc ▸ hj))).1)]
        refine List.nodup_cons.mpr ⟨?_, hinv.keys_nodup⟩
        intro hk
        obtain ⟨j, _, hjkey⟩ := (mem_keysOf _ _ _).mp hk
        exact habs j hjkey
      · intro j hj k0 hk0
        rcases List.mem_cons.mp hj with rfl | hjmem
        · rw [hd2pos] at hk0
          simp [Element.key?] at hk0
          subst hk0
          obtain ⟨s, hs, hpre⟩ := hreach
          have hpc : probeAt hash d2 k = probeAt hash T.m_data k :=
            probeAt_congr hash _ _ k hlen2
          refine ⟨s, by rw [hpc]; exact hs, fun t ht => ?_⟩
          rw [hpc]
          by_cases hpt : probeAt hash T.m_data k t = j
          · rw [hpt, hd2pos]
            rfl
          · rw [(hpoint _ hpt).2.2.2]
            exact hpre t ht
        · have hjnp : j ≠ pos := fun hc => hposmem (hc ▸ hjmem)
          rw [(hpoint j hjnp).1] at hk0
          obtain ⟨s, hs, hpre⟩ := hinv.reach j hjmem k0 hk0
          have hpc : probeAt hash d2 k0 = probeAt hash T.m_data k0 :=
            probeAt_congr hash _ _ k0 hlen2
          refine ⟨s, by rw [hpc]; exact hs, fun t ht => ?_⟩
          rw [hpc]
          by_cases hpt : probeAt hash T.m_data k0 t = pos
          · rw [hpt, hd2pos]
            rfl
          · rw [(hpoint _ hpt).2.2.2]
            exact hpre t ht
    · rw [entriesOf_cons_node d2 pos order hd2pos,
        entriesOf_congr T.m_data d2 order
          (fun j hj => ⟨(hpoint j (fun hc => hposmem (hc ▸ hj))).1,
            (hpoint j (fun hc => hposmem (hc ▸ hj))).2.1⟩)]

end HashMap

namespace HashMap

variable {K V : Type} [DecidableEq K] [DecidableEq V]

theorem nextD_setNextSlot_ne (data : List (Element K V)) (i r j : Nat) (h : j ≠ i) :
    nextD (setNextSlot data i r) j = nextD data j := by
  unfold nextD
  rw [slotAt_setNextSlot_ne data i r j h]

theorem prevD_setPrevSlot_ne (data : List (Element K V)) (i r j : Nat) (h : j ≠ i) :
    prevD (setPrevSlot data i r) j = prevD data j := by
  unfold prevD
  rw [slotAt_setPrevSlot_ne data i r j h]

theorem nextD_setNextSlot_self (data : List (Element K V)) (i r : Nat)
    {k : K} {v : V} {n p : Nat} (h : slotAt data i = .node k v n p)
    (hlt : i < data.length) : nextD (setNextSlot data i r) i = r := by
  unfold nextD
  rw [slotAt_setNextSlot_self data i r h hlt]

theorem prevD_setPrevSlot_self (data : List (Element K V)) (i r : Nat)
    {k : K} {v : V} {n p : Nat} (h : slotAt data i = .node k v n p)
    (hlt : i < data.length) : prevD (setPrevSlot data i r) i = r := by
  unfold prevD
  rw [slotAt_setPrevSlot_self data i r h hlt]

theorem sub_one_mod_W (x : Nat) (h1 : 1 ≤ x) (h2 : x < W) : (x + (W - 1)) % W = x - 1 := by
  have hW : 0 < W := by norm_num [W]
  have hx : x + (W - 1) = (x - 1) + W := by omega
  rw [hx, Nat.add_mod_right]
  exact Nat.mod_eq_of_lt (by omega)

theorem link_nodes_m_size (T : HashMap K V) (l r : Nat) :
    (link_nodes T l r).m_size = T.m_size := by
  unfold link_nodes
  by_cases hl : l ≠ m_end <;> by_cases hr : r ≠ m_end <;> simp [hl, hr]

theorem link_nodes_length (T : HashMap K V) (l r : Nat) :
    (link_nodes T l r).m_data.length = T.m_data.length := by
  unfold link_nodes
  by_cases hl : l ≠ m_end <;> by_cases hr : r ≠ m_end <;>
    simp [hl, hr, length_setPrevSlot, length_setNextSlot]

theorem link_nodes_m_begin (T : HashMap K V) (l r : Nat) :
    (link_nodes T l r).m_begin = if l = m_end then r else T.m_begin := by
  unfold link_nodes
  by_cases hl : l = m_end <;> by_cases hr : r = m_end <;> simp [hl, hr]

theorem link_nodes_point (T : HashMap K V) (l r j : Nat) :
    (slotAt (link_nodes T l r).m_data j).key? = (slotAt T.m_data j).key? ∧
    (slotAt (link_nodes T l r).m_data j).val? = (slotAt T.m_data j).val? ∧
    (slotAt (link_nodes T l r).m_data j).is_used = (slotAt T.m_data j).is_used ∧
    (slotAt (link_nodes T l r).m_data j).is_empty = (slotAt T.m_data j).is_empty := by
  unfold link_nodes
  by_cases hl : l ≠ m_end <;> by_cases hr : r ≠ m_end <;>
    simp [hl, hr, slotAt_setPrevSlot_key, slotAt_setPrevSlot_val,
      slotAt_setPrevSlot_used, slotAt_setPrevSlot_is_empty,
      slotAt_setNextSlot_key, slotAt_setNextSlot_val,
      slotAt_setNextSlot_used, slotAt_setNextSlot_is_empty]

theorem link_nodes_slot_ne (T : HashMap K V) (l r j : Nat) (hjl : j ≠ l) (hjr : j ≠ r) :
    slotAt (link_nodes T l r).m_data j = slotAt T.m_data j := by
  unfold link_nodes
  by_cases hl : l ≠ m_end <;> by_cases hr : r ≠ m_end <;>
    simp [hl, hr, slotAt_setPrevSlot_ne _ _ _ _ hjr, slotAt_setNextSlot_ne _ _ _ _ hjl]

theorem link_nodes_nextD_ne (T : HashMap K V) (l r j : Nat) (hjl : j ≠ l) :
    nextD (link_nodes T l r).m_data j = nextD T.m_data j := by
  unfold link_nodes
  by_cases hl : l ≠ m_end <;> by_cases hr : r ≠ m_end <;>
    simp [hl, hr, nextD_setPrevSlot, nextD_setNextSlot_ne _ _ _ _ hjl]

theorem link_nodes_prevD_ne (T : HashMap K V) (l r j : Nat) (hjr : j ≠ r) :
    prevD (link_nodes T l r).m_data j = prevD T.m_data j := by
  unfold link_nodes
  by_cases hl : l ≠ m_end <;> by_cases hr : r ≠ m_end <;>
    simp [hl, hr, prevD_setNextSlot, prevD_setPrevSlot_ne _ _ _ _ hjr]

theorem link_nodes_nextD_self (T : HashMap K V) (l r : Nat) (hl : l ≠ m_end)
    {k : K} {v : V} {n p : Nat} (hslot : slotAt T.m_data l = .node k v n p)
    (hlt : l < T.m_data.length) :
    nextD (link_nodes T l r).m_data l = r := by
  have hbranch : link_nodes T l r =
      (if r ≠ m_end then
        (⟨setPrevSlot (setNextSlot T.m_data l r) r l, T.m_size, T.m_begin⟩ : HashMap K V)
      else ⟨setNextSlot T.m_data l r, T.m_size, T.m_begin⟩) := by
    unfold link_nodes
    simp [hl]
  rw [hbranch]
  by_cases hr : r ≠ m_end
  · rw [if_pos hr]
    show nextD (setPrevSlot (setNextSlot T.m_data l r) r l) l = r
    rw [nextD_setPrevSlot]
    exact nextD_setNextSlot_self T.m_data l r hslot hlt
  · rw [if_neg hr]
    show nextD (setNextSlot T.m_data l r) l = r
    exact nextD_setNextSlot_self T.m_data l r hslot hlt

theorem link_nodes_prevD_self (T : HashMap K V) (l r : Nat) (hr : r ≠ m_end)
    (hused : (slotAt T.m_data r).is_used = true) (hlt : r < T.m_data.length) :
    prevD (link_nodes T l r).m_data r = l := by
  by_cases hl : l ≠ m_end
  · have hbranch : link_nodes T l r =
        (⟨setPrevSlot (setNextSlot T.m_data l r) r l, T.m_size, T.m_begin⟩ :
          HashMap K V) := by
      unfold link_nodes
      simp [hl, hr]
    rw [hbranch]
    obtain ⟨k, v, n, p, hnode⟩ : ∃ k v n p,
        slotAt (setNextSlot T.m_data l r) r = .node k v n p := by
      have h1 : (slotAt (setNextSlot T.m_data l r) r).is_used = true := by
        rw [slotAt_setNextSlot_used]
        exact hused
      cases hs : slotAt (setNextSlot T.m_data l r) r <;>
        simp [hs, Element.is_used] at h1 ⊢
    exact prevD_setPrevSlot_self _ r l hnode (by rw [length_setNextSlot]; exact hlt)
  · have hbranch : link_nodes T l r =
        (⟨setPrevSlot T.m_data r l, T.m_size, r⟩ : HashMap K V) := by
      unfold link_nodes
      simp [hl, hr]
    rw [hbranch]
    obtain ⟨k, v, n, p, hnode⟩ : ∃ k v n p, slotAt T.m_data r = .node k v n p := by
      cases hs : slotAt T.m_data r <;> simp [hs, Element.is_used] at hused ⊢
    exact prevD_setPrevSlot_self _ r l hnode hlt

end HashMap

namespace HashMap

variable {K V : Type} [DecidableEq K] [DecidableEq V]

theorem mem_of_head?_eq {α : Type} {l : List α} {a : α} (h : l.head? = some a) :
    a ∈ l := by
  cases l with
  | nil => simp at h
  | cons x t =>
    simp at h
    simp [h]

theorem mem_of_getLast?_eq {α : Type} {l : List α} {a : α} (h : l.getLast? = some a) :
    a ∈ l := by
  obtain ⟨hne, hax⟩ := List.mem_getLast?_eq_getLast (show a ∈ l.getLast? from h)
  rw [hax]
  exact List.getLast_mem hne

theorem headD_of_head? {α : Type} {l : List α} {a : α} (d : α) (h : l.head? = some a) :
    l.headD d = a := by
  cases l with
  | nil => simp at h
  | cons x t =>
    simp at h
    simp [h]

/-- Removing an occupied slot splices it out of the traversal order and
marks it a Tombstone, preserving all other entries and the invariant. -/
theorem remove_node_inv {hash : K → Nat} {T : HashMap K V} {l1 l2 : List Nat} (pos : Nat)
    (hinv : Inv hash T (l1 ++ pos :: l2)) :
    Inv hash (remove_node T pos) (l1 ++ l2) ∧
    slotAt (remove_node T pos).m_data pos = .erased ∧
    (∀ j, j ≠ pos →
      (slotAt (remove_node T pos).m_data j).key? = (slotAt T.m_data j).key? ∧
      (slotAt (remove_node T pos).m_data j).val? = (slotAt T.m_data j).val? ∧
      (slotAt (remove_node T pos).m_data j).is_used = (slotAt T.m_data j).is_used ∧
      (slotAt (remove_node T pos).m_data j).is_empty = (slotAt T.m_data j).is_empty) ∧
    (remove_node T pos).m_data.length = T.m_data.length := by
  have hposmem : pos ∈ l1 ++ pos :: l2 := by simp
  have hpos_lt := hinv.mem_lt hposmem
  have hmendgt := len_lt_m_end_of_goodLen hinv.good
  have hnd := hinv.nodup
  rw [List.nodup_append] at hnd
  obtain ⟨hnd1, hnd2, hdisj⟩ := hnd
  have hpos_l1 : pos ∉ l1 := fun hc => hdisj hc (List.mem_cons_self pos l2)
  have hpos_l2 : pos ∉ l2 := (List.nodup_cons.mp hnd2).1
  have hnd2' : l2.Nodup := (List.nodup_cons.mp hnd2).2
  have hmem_lt : ∀ j, j ∈ l1 ++ pos :: l2 → j < T.m_data.length := fun j hj =>
    hinv.mem_lt hj
  obtain ⟨k, v, nx, pv, hslot⟩ : ∃ k v nx pv, slotAt T.m_data pos = .node k v nx pv := by
    have hused := (hinv.mem_iff pos).mp hposmem
    cases hs : slotAt T.m_data pos <;> simp [hs, Element.is_used] at hused ⊢
  have hnextpos : nextD T.m_data pos = nx := by simp [nextD, hslot]
  have hprevpos : prevD T.m_data pos = pv := by simp [prevD, hslot]
  have hch := hinv.chain
  rw [List.chain'_append] at hch
  obtain ⟨hch1, hch2, hbound⟩ := hch
  have hch2' : List.Chain' (NodeLink T.m_data) l2 := by
    have := hch2
    exact this.tail
  have hpos_link : ∀ y ∈ l2.head?, NodeLink T.m_data pos y :=
    (List.chain'_cons'.mp hch2).1
  have hnx_spec : l2.head? = some nx ∨ (l2 = [] ∧ nx = m_end) := by
    cases hh : l2.head? with
    | some y =>
      left
      have := (hpos_link y (by rw [hh]; rfl)).1
      rw [hnextpos] at this
      rw [this]
    | none =>
      right
      have hl2 : l2 = [] := by
        cases l2
        · rfl
        · simp at hh
      refine ⟨hl2, ?_⟩
      have hlast : (l1 ++ pos :: l2).getLast? = some pos := by
        rw [hl2]
        exact List.getLast?_concat l1
      have := hinv.last_next pos hlast
      rw [hnextpos] at this
      exact this
  have hpv_spec : l1.getLast? = some pv ∨ (l1 = [] ∧ pv = m_end) := by
    cases hg : l1.getLast? with
    | some x =>
      left
      have := (hbound x (by rw [hg]; rfl) pos (by rfl)).2
      rw [hprevpos] at this
      rw [this]
    | none =>
      right
      have hl1 : l1 = [] := List.getLast?_eq_none_iff.mp hg
      refine ⟨hl1, ?_⟩
      have hhead : (l1 ++ pos :: l2).head? = some pos := by rw [hl1]; rfl
      have := hinv.head_prev pos hhead
      rw [hprevpos] at this
      exact this
  have hnx_ne_pos : nx ≠ pos := by
    rcases hnx_spec with h | ⟨_, h⟩
    · intro hc
      exact hpos_l2 (hc ▸ mem_of_head?_eq h)
    · intro hc
      rw [h] at hc
      omega
  have hpv_ne_pos : pv ≠ pos := by
    rcases hpv_spec with h | ⟨_, h⟩
    · intro hc
      exact hpos_l1 (hc ▸ mem_of_getLast?_eq h)
    · intro hc
      rw [h] at hc
      omega
  have hpv_facts : pv ≠ m_end → pv ∈ l1 := by
    intro hpvne
    rcases hpv_spec with h | ⟨_, h⟩
    · exact mem_of_getLast?_eq h
    · exact absurd h hpvne
  have hnx_facts : nx ≠ m_end → nx ∈ l2 := by
    intro hnxne
    rcases hnx_spec with h | ⟨_, h⟩
    · exact mem_of_head?_eq h
    · exact absurd h hnxne
  have hpv_node : pv ≠ m_end → (slotAt T.m_data pv).is_used = true ∧
      pv < T.m_data.length := by
    intro hpvne
    have hm : pv ∈ l1 ++ pos :: l2 := List.mem_append_left _ (hpv_facts hpvne)
    exact ⟨(hinv.mem_iff pv).mp hm, hinv.mem_lt hm⟩
  have hnx_node : nx ≠ m_end → (slotAt T.m_data nx).is_used = true ∧
      nx < T.m_data.length := by
    intro hnxne
    have hm : nx ∈ l1 ++ pos :: l2 :=
      List.mem_append_right _ (List.mem_cons_of_mem pos (hnx_facts hnxne))
    exact ⟨(hinv.mem_iff nx).mp hm, hinv.mem_lt hm⟩
  have hT' : remove_node T pos =
      ⟨setSlot (link_nodes T pv nx).m_data pos .erased,
        ((link_nodes T pv nx).m_size + (W - 1)) % W,
        (link_nodes T pv nx).m_begin⟩ := by
    unfold remove_node
    rw [hslot]
  have hlenTL : (link_nodes T pv nx).m_data.length = T.m_data.length :=
    link_nodes_length T pv nx
  have hlen2 : (setSlot (link_nodes T pv nx).m_data pos Element.erased).length
      = T.m_data.length := by
    rw [length_setSlot]
    exact hlenTL
  have hd2pos : slotAt (setSlot (link_nodes T pv nx).m_data pos Element.erased) pos
      = .erased :=
    slotAt_setSlot_self _ _ _ (by rw [hlenTL]; exact hpos_lt)
  have hpoint : ∀ j, j ≠ pos →
      (slotAt (setSlot (link_nodes T pv nx).m_data pos Element.erased) j).key?
        = (slotAt T.m_data j).key? ∧
      (slotAt (setSlot (link_nodes T pv nx).m_data pos Element.erased) j).val?
        = (slotAt T.m_data j).val? ∧
      (slotAt (setSlot (link_nodes T pv nx).m_data pos Element.erased) j).is_used
        = (slotAt T.m_data j).is_used ∧
      (slotAt (setSlot (link_nodes T pv nx).m_data pos Element.erased) j).is_empty
        = (slotAt T.m_data j).is_empty := by
    intro j hj
    rw [slotAt_setSlot_ne _ _ _ _ hj]
    exact link_nodes_point T pv nx j
  have hnextD_ne : ∀ j, j ≠ pos → j ≠ pv →
      nextD (setSlot (link_nodes T pv nx).m_data pos Element.erased) j
        = nextD T.m_data j := by
    intro j hj hjpv
    have h1 : nextD (setSlot (link_nodes T pv nx).m_data pos Element.erased) j
        = nextD (link_nodes T pv nx).m_data j := by
      unfold nextD
      rw [slotAt_setSlot_ne _ _ _ _ hj]
    rw [h1]
    exact link_nodes_nextD_ne T pv nx j hjpv
  have hprevD_ne : ∀ j, j ≠ pos → j ≠ nx →
      prevD (setSlot (link_nodes T pv nx).m_data pos Element.erased) j
        = prevD T.m_data j := by
    intro j hj hjnx
    have h1 : prevD (setSlot (link_nodes T pv nx).m_data pos Element.erased) j
        = prevD (link_nodes T pv nx).m_data j := by
      unfold prevD
      rw [slotAt_setSlot_ne _ _ _ _ hj]
    rw [h1]
    exact link_nodes_prevD_ne T pv nx j hjnx
  have hnextD_pv : pv ≠ m_end →
      nextD (setSlot (link_nodes T pv nx).m_data pos Element.erased) pv = nx := by
    intro hpvne
    have h1 : nextD (setSlot (link_nodes T pv nx).m_data pos Element.erased) pv
        = nextD (link_nodes T pv nx).m_data pv := by
      unfold nextD
      rw [slotAt_setSlot_ne _ _ _ _ hpv_ne_pos]
    rw [h1]
    obtain ⟨hused, hlt⟩ := hpv_node hpvne
    obtain ⟨k2, v2, n2, p2, hnode⟩ : ∃ k2 v2 n2 p2,
        slotAt T.m_data pv = .node k2 v2 n2 p2 := by
      cases hs : slotAt T.m_data pv <;> simp [hs, Element.is_used] at hused ⊢
    exact link_nodes_nextD_self T pv nx hpvne hnode hlt
  have hprevD_nx : nx ≠ m_end →
      prevD (setSlot (link_nodes T pv nx).m_data pos Element.erased) nx = pv := by
    intro hnxne
    have h1 : prevD (setSlot (link_nodes T pv nx).m_data pos Element.erased) nx
        = prevD (link_nodes T pv nx).m_data nx := by
      unfold prevD
      rw [slotAt_setSlot_ne _ _ _ _ hnx_ne_pos]
    rw [h1]
    obtain ⟨hused, hlt⟩ := hnx_node hnxne
    exact link_nodes_prevD_self T pv nx hnxne hused hlt
  have hne12 : ∀ j, j ∈ l1 ++ l2 → j ≠ pos := by
    intro j hj
    rcases List.mem_append.mp hj with h | h
    · exact fun hc => hpos_l1 (hc ▸ h)
    · exact fun hc => hpos_l2 (hc ▸ h)
  have hmem12 : ∀ j, j ∈ l1 ++ l2 → j ∈ l1 ++ pos :: l2 := by
    intro j hj
    rcases List.mem_append.mp hj with h | h
    · exact List.mem_append_left _ h
    · exact List.mem_append_right _ (List.mem_cons_of_mem pos h)
  rw [hT']
  refine ⟨?_, hd2pos, hpoint, hlen2⟩
  refine ⟨?_, ?_, ?_, ?_, ?_, ?_, ?_, ?_, ?_, ?_, ?_⟩
  · show GoodLen (setSlot (link_nodes T pv nx).m_data pos Element.erased).length
    rw [hlen2]
    exact hinv.good
  · -- begin_eq
    show (link_nodes T pv nx).m_begin = (l1 ++ l2).headD m_end
    rw [link_nodes_m_begin]
    rcases hpv_spec with hpv1 | ⟨hl1nil, hpvm⟩
    · have hpvmem := mem_of_getLast?_eq hpv1
      have hpvne : pv ≠ m_end := by
        have := hinv.mem_lt (List.mem_append_left _ hpvmem)
        omega
      rw [if_neg hpvne]
      obtain ⟨h1, t1, rfl⟩ : ∃ h1 t1, l1 = h1 :: t1 := by
        cases l1 with
        | nil => simp at hpv1
        | cons a b => exact ⟨a, b, rfl⟩
      have hb := hinv.begin_eq
      simpa using hb
    · subst hl1nil
      rw [if_pos hpvm]
      rcases hnx_spec with hh | ⟨hl2nil, hnxm⟩
      · simp only [List.nil_append]
        exact (headD_of_head? m_end hh).symm
      · subst hl2nil
        rw [hnxm]
        rfl
  · -- chain
    rw [List.chain'_append]
    refine ⟨?_, ?_, ?_⟩
    · -- within l1
      cases hl1c : l1 with
      | nil => exact List.chain'_nil
      | cons h1 t1 =>
        rw [hl1c] at hch1
        show List.Chain _ h1 t1
        have hch1' : List.Chain (NodeLink T.m_data) h1 t1 := hch1
        refine chain_transfer t1 h1 hch1' ?_
        intro x y hxy hx hy
        have hxl1 : x ∈ l1 := by
          rw [hl1c]
          rcases hx with rfl | hx
          · simp
          · simp [hx]
        have hyl1 : y ∈ l1 := by
          rw [hl1c]
          simp [hy]
        have hxnp : x ≠ pos := fun hc => hpos_l1 (hc ▸ hxl1)
        have hynp : y ≠ pos := fun hc => hpos_l1 (hc ▸ hyl1)
        have hxpv : x ≠ pv := by
          intro hc
          subst hc
          have hpv1 : l1.getLast? = some x := by
            rcases hpv_spec with h | ⟨hnil, _⟩
            · exact h
            · rw [hnil] at hxl1
              simp at hxl1
          have := (hbound x (by rw [hpv1]; rfl) pos (by rfl)).1
          rw [hxy.1] at this
          exact hynp this
        have hynx : y ≠ nx := by
          intro hc
          subst hc
          rcases hnx_spec with h | ⟨_, h⟩
          · exact hdisj hyl1 (List.mem_cons_of_mem pos (mem_of_head?_eq h))
          · have := hinv.mem_lt (List.mem_append_left _ hyl1)
            rw [h] at this
            omega
        exact ⟨by rw [hnextD_ne x hxnp hxpv]; exact hxy.1,
          by rw [hprevD_ne y hynp hynx]; exact hxy.2⟩
    · -- within l2
      rcases hnx_spec with hh | ⟨hl2nil, _⟩
      · obtain ⟨l2t, rfl⟩ : ∃ l2t, l2 = nx :: l2t := by
          cases l2 with
          | nil => simp at hh
          | cons a b =>
            simp at hh
            exact ⟨b, by rw [hh]⟩
        show List.Chain _ nx l2t
        have hchl2 : List.Chain (NodeLink T.m_data) nx l2t := hch2'
        refine chain_transfer l2t nx hchl2 ?_
        intro x y hxy hx hy
        have hxl2 : x ∈ nx :: l2t := by
          rcases hx with rfl | hx
          · simp
          · simp [hx]
        have hyl2 : y ∈ nx :: l2t := by simp [hy]
        have hxnp : x ≠ pos := fun hc => hpos_l2 (hc ▸ hxl2)
        have hynp : y ≠ pos := fun hc => hpos_l2 (hc ▸ hyl2)
        have hxpv : x ≠ pv := by
          intro hc
          subst hc
          rcases hpv_spec with h | ⟨_, h⟩
          · exact hdisj (mem_of_getLast?_eq h) (List.mem_cons_of_mem pos hxl2)
          · have := hinv.mem_lt (hmem12 x (List.mem_append_right _ hxl2))
            rw [h] at this
            omega
        have hynx : y ≠ nx := by
          intro hc
          subst hc
          exact (List.nodup_cons.mp hnd2').1 hy
        exact ⟨by rw [hnextD_ne x hxnp hxpv]; exact hxy.1,
          by rw [hprevD_ne y hynp hynx]; exact hxy.2⟩
      · subst hl2nil
        exact List.chain'_nil
    · -- boundary between l1 and l2
      intro x hx y hy
      have hgx : l1.getLast? = some x := hx
      have hhy : l2.head? = some y := hy
      have hxpv : x = pv := by
        rcases hpv_spec with h | ⟨hnil, _⟩
        · rw [h] at hgx
          exact (Option.some.inj hgx).symm
        · rw [hnil] at hgx
          simp at hgx
      have hynx : y = nx := by
        rcases hnx_spec with h | ⟨hnil, _⟩
        · rw [h] at hhy
          exact (Option.some.inj hhy).symm
        · rw [hnil] at hhy
          simp at hhy
      have hpvne : pv ≠ m_end := by
        have hm := mem_of_getLast?_eq hgx
        rw [hxpv] at hm
        have := hinv.mem_lt (List.mem_append_left _ hm)
        omega
      have hnxne : nx ≠ m_end := by
        have hm := mem_of_head?_eq hhy
        rw [hynx] at hm
        have := hinv.mem_lt (List.mem_append_right _ (List.mem_cons_of_mem pos hm))
        omega
      rw [hxpv, hynx]
      exact ⟨hnextD_pv hpvne, hprevD_nx hnxne⟩
  · -- head_prev
    intro a ha
    cases hl1c : l1 with
    | cons h1 t1 =>
      rw [hl1c] at ha
      simp at ha
      subst ha
      have h1mem : h1 ∈ l1 := by rw [hl1c]; simp
      have hanp : h1 ≠ pos := fun hc => hpos_l1 (hc ▸ h1mem)
      have hanx : h1 ≠ nx := by
        intro hc
        subst hc
        rcases hnx_spec with h | ⟨_, h⟩
        · exact hdisj h1mem (List.mem_cons_of_mem pos (mem_of_head?_eq h))
        · have := hinv.mem_lt (List.mem_append_left _ h1mem)
          rw [h] at this
          omega
      rw [hprevD_ne h1 hanp hanx]
      exact hinv.head_prev h1 (by rw [hl1c]; rfl)
    | nil =>
      rw [hl1c] at ha
      simp only [List.nil_append] at ha
      have hpvm : pv = m_end := by
        rcases hpv_spec with h | ⟨_, h⟩
        · rw [hl1c] at h
          simp at h
        · exact h
      rcases hnx_spec with h | ⟨hnil, _⟩
      · have hanx : a = nx := by
          rw [h] at ha
          exact (Option.some.inj ha).symm
        have hnxne : nx ≠ m_end := by
          have := hinv.mem_lt
            (List.mem_append_right _ (List.mem_cons_of_mem pos (mem_of_head?_eq h)))
          omega
        rw [hanx, hprevD_nx hnxne, hpvm]
      · rw [hnil] at ha
        simp at ha
  · -- last_next
    intro a ha
    cases hl2c : l2 with
    | cons h2 t2 =>
      have hal2 : l2.getLast? = some a := by
        rw [List.getLast?_append] at ha
        rw [hl2c] at ha ⊢
        cases hg : (h2 :: t2).getLast? with
        | some b =>
          rw [hg] at ha
          rw [Option.or_some] at ha
          exact ha
        | none =>
          rw [List.getLast?_eq_none_iff] at hg
          simp at hg
      have hamem : a ∈ l2 := mem_of_getLast?_eq hal2
      have hanp : a ≠ pos := fun hc => hpos_l2 (hc ▸ hamem)
      have hapv : a ≠ pv := by
        intro hc
        subst hc
        rcases hpv_spec with h | ⟨_, h⟩
        · exact hdisj (mem_of_getLast?_eq h) (List.mem_cons_of_mem pos hamem)
        · have := hinv.mem_lt
            (List.mem_append_right _ (List.mem_cons_of_mem pos hamem))
          rw [h] at this
          omega
      rw [hnextD_ne a hanp hapv]
      refine hinv.last_next a ?_
      rw [List.getLast?_append]
      have hpl2 : (pos :: l2).getLast? = some a := by
        rw [hl2c, List.getLast?_cons_cons, ← hl2c]
        exact hal2
      rw [hpl2, Option.or_some]
    | nil =>
      subst hl2c
      rw [List.append_nil] at ha
      have hapv : a = pv := by
        rcases hpv_spec with h | ⟨hnil, _⟩
        · rw [h] at ha
          exact Option.some.inj ha.symm
        · rw [hnil] at ha
          simp at ha
      subst hapv
      have hpvne : a ≠ m_end := by
        have := hinv.mem_lt (List.mem_append_left _ (mem_of_getLast?_eq ha))
        omega
      have hnxm : nx = m_end := by
        rcases hnx_spec with h | ⟨_, h⟩
        · simp at h
        · exact h
      rw [hnextD_pv hpvne]
      exact hnxm
  · -- mem_iff
    intro j
    by_cases hj : j = pos
    · subst j
      rw [hd2pos]
      have hnm : pos ∉ l1 ++ l2 := by
        intro hc
        rcases List.mem_append.mp hc with h | h
        · exact hpos_l1 h
        · exact hpos_l2 h
      simp [hnm, Element.is_used]
    · rw [(hpoint j hj).2.2.1]
      constructor
      · intro hmem
        exact (hinv.mem_iff j).mp (hmem12 j hmem)
      · intro hused
        have := (hinv.mem_iff j).mpr hused
        rcases List.mem_append.mp this with h | h
        · exact List.mem_append_left _ h
        · rcases List.mem_cons.mp h with hc | h
          · exact absurd hc hj
          · exact List.mem_append_right _ h
  · -- nodup
    exact ((List.sublist_cons_self pos l2).append_left l1).nodup hinv.nodup
  · -- size_eq
    show ((link_nodes T pv nx).m_size + (W - 1)) % W = (l1 ++ l2).length
    rw [link_nodes_m_size]
    have hsz := hinv.size_eq
    have hlenord : (l1 ++ pos :: l2).length = l1.length + l2.length + 1 := by
      simp
      omega
    have hszW : T.m_size < W := by
      have := hinv.half
      have := len_le_of_goodLen hinv.good
      unfold W
      omega
    rw [sub_one_mod_W T.m_size (by rw [hsz, hlenord]; omega) hszW, hsz, hlenord]
    simp
  · -- half
    show 2 * (((link_nodes T pv nx).m_size + (W - 1)) % W)
      ≤ (setSlot (link_nodes T pv nx).m_data pos Element.erased).length
    rw [hlen2, link_nodes_m_size]
    have hsz := hinv.size_eq
    have hszW : T.m_size < W := by
      have := hinv.half
      have := len_le_of_goodLen hinv.good
      unfold W
      omega
    have hpos1 : 1 ≤ T.m_size := by
      rw [hsz]
      simp
      omega
    rw [sub_one_mod_W T.m_size hpos1 hszW]
    have := hinv.half
    omega
  · -- keys_nodup
    rw [keysOf_congr T.m_data _ (l1 ++ l2)
      (fun j hj => (hpoint j (hne12 j hj)).1)]
    have hsub : List.Sublist (keysOf T.m_data (l1 ++ l2))
        (keysOf T.m_data (l1 ++ pos :: l2)) :=
      List.Sublist.filterMap _ ((List.sublist_cons_self pos l2).append_left l1)
    exact hsub.nodup hinv.keys_nodup
  · -- reach
    intro j hj k0 hk0
    have hjnp : j ≠ pos := hne12 j hj
    rw [(hpoint j hjnp).1] at hk0
    obtain ⟨s, hs, hpre⟩ := hinv.reach j (hmem12 j hj) k0 hk0
    have hpc : probeAt hash (setSlot (link_nodes T pv nx).m_data pos Element.erased) k0
        = probeAt hash T.m_data k0 := probeAt_congr hash _ _ k0 hlen2
    refine ⟨s, by rw [hpc]; exact hs, fun t ht => ?_⟩
    rw [hpc]
    by_cases hpt : probeAt hash T.m_data k0 t = pos
    · rw [hpt, hd2pos]
      rfl
    · rw [(hpoint _ hpt).2.2.2]
      exact hpre t ht

end HashMap

namespace HashMap

variable {K V : Type} [DecidableEq K] [DecidableEq V]

theorem nextD_node {data : List (Element K V)} {i : Nat} {k : K} {v : V} {nx p : Nat}
    (h : slotAt data i = .node k v nx p) : nextD data i = nx := by
  simp [nextD, h]

theorem prevD_node {data : List (Element K V)} {i : Nat} {k : K} {v : V} {nx p : Nat}
    (h : slotAt data i = .node k v nx p) : prevD data i = p := by
  simp [prevD, h]

theorem toList_succ (T : HashMap K V) (fuel i : Nat) :
    toList T (fuel + 1) i =
      if i = m_end then some []
      else
        match slotAt T.m_data i with
        | .node k v nx _ =>
          match toList T fuel nx with
          | none => none
          | some rest => some ((k, v) :: rest)
        | _ => none := rfl

theorem toList_node (T : HashMap K V) (fuel i : Nat) (hne : i ≠ m_end)
    {k : K} {v : V} {nx p : Nat} (hs : slotAt T.m_data i = .node k v nx p) :
    toList T (fuel + 1) i =
      match toList T fuel nx with
      | none => none
      | some rest => some ((k, v) :: rest) := by
  rw [toList_succ, if_neg hne, hs]

theorem toList_mono (T : HashMap K V) :
    ∀ fuel i l, toList T fuel i = some l → toList T (fuel + 1) i = some l := by
  intro fuel
  induction fuel with
  | zero => intro i l h; exact absurd h (by simp [toList])
  | succ n ih =>
    intro i l h
    by_cases hi : i = m_end
    · subst hi
      rw [toList_succ, if_pos rfl] at h ⊢
      exact h
    · cases hs : slotAt T.m_data i with
      | empty => rw [toList_succ, if_neg hi, hs] at h; exact absurd h (by simp)
      | erased => rw [toList_succ, if_neg hi, hs] at h; exact absurd h (by simp)
      | node k v nx p =>
        rw [toList_node T n i hi hs] at h
        rw [toList_node T (n + 1) i hi hs]
        cases hrec : toList T n nx with
        | none => rw [hrec] at h; exact absurd h (by simp)
        | some rest =>
          rw [hrec] at h
          rw [ih nx rest hrec]
          exact h

theorem toList_mono_le (T : HashMap K V) {fuel fuel' : Nat} (hle : fuel ≤ fuel')
    {i : Nat} {l : List (K × V)} (h : toList T fuel i = some l) :
    toList T fuel' i = some l := by
  obtain ⟨d, rfl⟩ := Nat.exists_eq_add_of_le hle
  induction d with
  | zero => exact h
  | succ n ih => exact toList_mono T (fuel + n) i l (ih (by omega))

theorem toList_go (T : HashMap K V) (hlenm : T.m_data.length < m_end) :
    ∀ (ord : List Nat) (i : Nat),
    List.Chain' (NodeLink T.m_data) ord →
    i = ord.headD m_end →
    (∀ j ∈ ord, (slotAt T.m_data j).is_used = true) →
    (∀ a, ord.getLast? = some a → nextD T.m_data a = m_end) →
    (∀ j ∈ ord, j < T.m_data.length) →
    ∀ fuel, ord.length + 1 ≤ fuel → toList T fuel i = some (entriesOf T.m_data ord) := by
  intro ord
  induction ord with
  | nil =>
    intro i _ hi _ _ _ fuel hfuel
    obtain ⟨f, rfl⟩ : ∃ f, fuel = f + 1 := ⟨fuel - 1, by omega⟩
    simp at hi
    subst i
    rw [toList_succ, if_pos rfl]
    rfl
  | cons j rest ih =>
    intro i hch hi hused hlast hlt fuel hfuel
    obtain ⟨f, rfl⟩ : ∃ f, fuel = f + 1 := ⟨fuel - 1, by omega⟩
    simp at hi
    subst i
    have hjlt : j < T.m_data.length := hlt j (by simp)
    have hjne : j ≠ m_end := by omega
    obtain ⟨k, v, nx, p, hnode⟩ : ∃ k v nx p, slotAt T.m_data j = .node k v nx p := by
      have := hused j (by simp)
      cases hs : slotAt T.m_data j <;> simp [hs, Element.is_used] at this ⊢
    have hnx : nx = rest.headD m_end := by
      cases hr : rest with
      | nil =>
        have hj2 := hlast j (by rw [hr]; rfl)
        rw [nextD_node hnode] at hj2
        exact hj2
      | cons y rest2 =>
        have hly : NodeLink T.m_data j y :=
          (List.chain'_cons'.mp hch).1 y (by rw [hr]; rfl)
        have hn := hly.1
        rw [nextD_node hnode] at hn
        exact hn
    have hrest : toList T f nx = some (entriesOf T.m_data rest) := by
      refine ih nx (List.chain'_cons'.mp hch).2 hnx
        (fun x hx => hused x (by simp [hx]))
        (fun a ha => ?_)
        (fun x hx => hlt x (by simp [hx]))
        f (by simp at hfuel ⊢; omega)
      refine hlast a ?_
      cases hr : rest with
      | nil => rw [hr] at ha; simp at ha
      | cons y rest2 =>
        rw [hr] at ha
        rw [List.getLast?_cons_cons]
        rw [← hr]
        exact hr ▸ ha
    rw [toList_node T f j hjne hnode, hrest,
      entriesOf_cons_node T.m_data j rest hnode]

/-- Iterating a well-formed table yields exactly the entries along the
traversal order. -/
theorem iterate_of_inv {hash : K → Nat} {T : HashMap K V} {order : List Nat}
    (hinv : Inv hash T order) :
    ∀ fuel, order.length + 1 ≤ fuel →
      iterate T fuel = some (entriesOf T.m_data order) := by
  intro fuel hfuel
  unfold iterate
  rw [hinv.begin_eq]
  exact toList_go T (len_lt_m_end_of_goodLen hinv.good) order _ hinv.chain rfl
    (fun j hj => (hinv.mem_iff j).mp hj) hinv.last_next
    (fun j hj => hinv.mem_lt hj) fuel hfuel

theorem iterate_unique {hash : K → Nat} {T : HashMap K V} {order : List Nat}
    (hinv : Inv hash T order) {fuel : Nat} {l : List (K × V)}
    (h : iterate T fuel = some l) : l = entriesOf T.m_data order := by
  have h1 : iterate T (fuel + (order.length + 1)) = some l :=
    toList_mono_le T (by omega) h
  have h2 : iterate T (fuel + (order.length + 1)) = some (entriesOf T.m_data order) :=
    iterate_of_inv hinv _ (by omega)
  rw [h1] at h2
  exact Option.some.inj h2

theorem clearGo_succ (data : List (Element K V)) (fuel i : Nat) :
    clearGo fuel.succ data i =
      if i = m_end then some data
      else
        match slotAt data i with
        | .node _ _ nx _ => clearGo fuel (setSlot data i .empty) nx
        | _ => none := rfl

theorem clearGo_node (data : List (Element K V)) (fuel i : Nat) (hne : i ≠ m_end)
    {k : K} {v : V} {nx p : Nat} (hs : slotAt data i = .node k v nx p) :
    clearGo (fuel + 1) data i = clearGo fuel (setSlot data i .empty) nx := by
  rw [clearGo_succ, if_neg hne, hs]

theorem clearGo_mono :
    ∀ fuel (data : List (Element K V)) i d2, clearGo fuel data i = some d2 →
      clearGo (fuel + 1) data i = some d2 := by
  intro fuel
  induction fuel with
  | zero => intro data i d2 h; exact absurd h (by simp [clearGo])
  | succ n ih =>
    intro data i d2 h
    by_cases hi : i = m_end
    · subst hi
      rw [clearGo_succ, if_pos rfl] at h ⊢
      exact h
    · cases hs : slotAt data i with
      | empty => rw [clearGo_succ, if_neg hi, hs] at h; exact absurd h (by simp)
      | erased => rw [clearGo_succ, if_neg hi, hs] at h; exact absurd h (by simp)
      | node k v nx p =>
        rw [clearGo_node data n i hi hs] at h
        rw [clearGo_node data (n + 1) i hi hs]
        exact ih _ nx d2 h

theorem clearGo_mono_le {fuel fuel' : Nat} (hle : fuel ≤ fuel')
    {data : List (Element K V)} {i : Nat} {d2 : List (Element K V)}
    (h : clearGo fuel data i = some d2) : clearGo fuel' data i = some d2 := by
  obtain ⟨d, rfl⟩ := Nat.exists_eq_add_of_le hle
  induction d with
  | zero => exact h
  | succ n ih => exact clearGo_mono (fuel + n) data i d2 (ih (by omega))

theorem clearGo_spec :
    ∀ (ord : List Nat) (data : List (Element K V)) (i : Nat),
    data.length < m_end →
    List.Chain' (NodeLink data) ord →
    i = ord.headD m_end →
    (∀ j ∈ ord, (slotAt data j).is_used = true) →
    (∀ a, ord.getLast? = some a → nextD data a = m_end) →
    (∀ j ∈ ord, j < data.length) →
    ord.Nodup →
    ∀ fuel, ord.length + 1 ≤ fuel →
      ∃ d2, clearGo fuel data i = some d2 ∧ d2.length = data.length ∧
        (∀ j, j ∈ ord → slotAt d2 j = .empty) ∧
        (∀ j, j ∉ ord → slotAt d2 j = slotAt data j) := by
  intro ord
  induction ord with
  | nil =>
    intro data i _ _ hi _ _ _ _ fuel hfuel
    obtain ⟨f, rfl⟩ : ∃ f, fuel = f + 1 := ⟨fuel - 1, by omega⟩
    simp at hi
    subst i
    refine ⟨data, ?_, rfl, by simp, fun j _ => rfl⟩
    rw [clearGo_succ, if_pos rfl]
  | cons j rest ih =>
    intro data i hlenm hch hi hused hlast hlt hnodup fuel hfuel
    obtain ⟨f, rfl⟩ : ∃ f, fuel = f + 1 := ⟨fuel - 1, by omega⟩
    simp at hi
    subst i
    have hjlt : j < data.length := hlt j (by simp)
    have hjne : j ≠ m_end := by omega
    have hjrest : j ∉ rest := (List.nodup_cons.mp hnodup).1
    obtain ⟨k, v, nx, p, hnode⟩ : ∃ k v nx p, slotAt data j = .node k v nx p := by
      have := hused j (by simp)
      cases hs : slotAt data j <;> simp [hs, Element.is_used] at this ⊢
    have hnx : nx = rest.headD m_end := by
      cases hr : rest with
      | nil =>
        have hj2 := hlast j (by rw [hr]; rfl)
        rw [nextD_node hnode] at hj2
        exact hj2
      | cons y rest2 =>
        have hly : NodeLink data j y :=
          (List.chain'_cons'.mp hch).1 y (by rw [hr]; rfl)
        have hn := hly.1
        rw [nextD_node hnode] at hn
        exact hn
    have hslot_ne : ∀ x, x ≠ j → slotAt (setSlot data j .empty) x = slotAt data x :=
      fun x hx => slotAt_setSlot_ne data j x _ hx
    have hrec := ih (setSlot data j .empty) nx
      (by rw [length_setSlot]; exact hlenm)
      (by
        cases hr : rest with
        | nil => exact List.chain'_nil
        | cons y rest2 =>
          show List.Chain _ y rest2
          have hold : List.Chain (NodeLink data) y rest2 := by
            have hc2 := (List.chain'_cons'.mp hch).2
            rw [hr] at hc2
            exact hc2
          refine chain_transfer rest2 y hold ?_
          intro x z hxz hx hz
          have hxr : x ∈ rest := by
            rw [hr]
            rcases hx with rfl | hx
            · simp
            · simp [hx]
          have hzr : z ∈ rest := by rw [hr]; simp [hz]
          have hxj : x ≠ j := fun hc => hjrest (hc ▸ hxr)
          have hzj : z ≠ j := fun hc => hjrest (hc ▸ hzr)
          refine ⟨?_, ?_⟩
          · rw [show nextD (setSlot data j .empty) x = nextD data x by
              unfold nextD; rw [hslot_ne x hxj]]
            exact hxz.1
          · rw [show prevD (setSlot data j .empty) z = prevD data z by
              unfold prevD; rw [hslot_ne z hzj]]
            exact hxz.2)
      hnx
      (fun x hx => by
        rw [hslot_ne x (fun hc => hjrest (hc ▸ hx))]
        exact hused x (by simp [hx]))
      (fun a ha => by
        have har : a ∈ rest := mem_of_getLast?_eq ha
        rw [show nextD (setSlot data j .empty) a = nextD data a by
          unfold nextD; rw [hslot_ne a (fun hc => hjrest (hc ▸ har))]]
        refine hlast a ?_
        cases hr : rest with
        | nil => rw [hr] at ha; simp at ha
        | cons y rest2 =>
          rw [hr] at ha
          rw [List.getLast?_cons_cons]
          rw [← hr]
          exact hr ▸ ha)
      (fun x hx => by rw [length_setSlot]; exact hlt x (by simp [hx]))
      (List.nodup_cons.mp hnodup).2
      f (by simp at hfuel ⊢; omega)
    obtain ⟨d2, hd2, hd2len, hd2in, hd2out⟩ := hrec
    refine ⟨d2, ?_, by rw [hd2len, length_setSlot], ?_, ?_⟩
    · rw [clearGo_node data f j hjne hnode]
      exact hd2
    · intro x hx
      rcases List.mem_cons.mp hx with rfl | hx
      · rw [hd2out x hjrest, slotAt_setSlot_self data x _ hjlt]
      · exact hd2in x hx
    · intro x hx
      have hxj : x ≠ j := fun hc => hx (by simp [hc])
      have hxr : x ∉ rest := fun hc => hx (by simp [hc])
      rw [hd2out x hxr, hslot_ne x hxj]

/-- `clear()` on a well-formed table succeeds (for sufficient fuel), empties
every slot on the traversal list, leaves every other slot — Tombstones
included — untouched, and resets size and head. -/
theorem clear_inv {hash : K → Nat} {T : HashMap K V} {order : List Nat}
    (hinv : Inv hash T order) :
    (∀ fuel, order.length + 1 ≤ fuel → ∃ T2, clear T fuel = some T2) ∧
    (∀ fuel T2, clear T fuel = some T2 →
      Inv hash T2 ([] : List Nat) ∧
      T2.m_size = 0 ∧ T2.m_begin = m_end ∧
      T2.m_data.length = T.m_data.length ∧
      (∀ j, j ∈ order → slotAt T2.m_data j = .empty) ∧
      (∀ j, j ∉ order → slotAt T2.m_data j = slotAt T.m_data j)) := by
  have hspec := clearGo_spec order T.m_data T.m_begin
    (len_lt_m_end_of_goodLen hinv.good) hinv.chain hinv.begin_eq
    (fun j hj => (hinv.mem_iff j).mp hj) hinv.last_next
    (fun j hj => hinv.mem_lt hj) hinv.nodup
  constructor
  · intro fuel hfuel
    obtain ⟨d2, hd2, _⟩ := hspec fuel hfuel
    exact ⟨⟨d2, 0, m_end⟩, by unfold clear; rw [hd2]⟩
  · intro fuel T2 hT2
    obtain ⟨d0, hd0, hd0len, hd0in, hd0out⟩ :=
      hspec (order.length + 1) (by omega)
    have hcg : ∃ d, clearGo fuel T.m_data T.m_begin = some d ∧
        T2 = ⟨d, 0, m_end⟩ := by
      unfold clear at hT2
      cases hc : clearGo fuel T.m_data T.m_begin with
      | none => rw [hc] at hT2; simp at hT2
      | some d =>
        rw [hc] at hT2
        exact ⟨d, rfl, by simpa using hT2.symm⟩
    obtain ⟨d, hd, rfl⟩ := hcg
    have hdd0 : d = d0 := by
      have h1 : clearGo (fuel + (order.length + 1)) T.m_data T.m_begin = some d :=
        clearGo_mono_le (by omega) hd
      have h2 : clearGo (fuel + (order.length + 1)) T.m_data T.m_begin = some d0 :=
        clearGo_mono_le (by omega) hd0
      rw [h1] at h2
      exact Option.some.inj h2
    subst hdd0
    refine ⟨?_, rfl, rfl, by simpa using hd0len, hd0in, hd0out⟩
    refine ⟨?_, rfl, List.chain'_nil, by simp, by simp, ?_, List.nodup_nil, rfl,
      by simp, by simp [keysOf], by simp⟩
    · show GoodLen d.length
      rw [hd0len]
      exact hinv.good
    · intro j
      simp only [List.not_mem_nil, false_iff]
      by_cases hj : j ∈ order
      · rw [hd0in j hj]
        simp [Element.is_used]
      · rw [hd0out j hj]
        intro hc
        exact hj ((hinv.mem_iff j).mpr hc)

end HashMap

/-! ### The rehash policy's size computation -/

namespace Power2RehashPolicy

theorem new_sizeF_zero (d : Nat) (hd : 0 < d) : ∀ fuel, new_sizeF fuel d 0 = none := by
  intro fuel
  induction fuel with
  | zero => rfl
  | succ n ih =>
    simp only [new_sizeF, if_pos hd]
    simpa using ih

theorem new_sizeF_sound :
    ∀ (fuel d cur r : Nat), HashMap.GoodLen cur → new_sizeF fuel d cur = some r →
      HashMap.GoodLen r ∧ d ≤ r ∧ cur ≤ r := by
  intro fuel
  induction fuel with
  | zero => intro d cur r _ h; exact absurd h (by simp [new_sizeF])
  | succ n ih =>
    intro d cur r hg h
    simp only [new_sizeF] at h
    by_cases hlt : cur < d
    · rw [if_pos hlt] at h
      obtain ⟨c, hc6, hc63, rfl⟩ := hg
      by_cases hc : c = 63
      · subst hc
        have h0 : ((2 ^ 63 <<< 1) % W) = 0 := by
          rw [Nat.shiftLeft_eq, pow_one, ← pow_succ]
          simp [W]
        rw [h0, new_sizeF_zero d (by omega) n] at h
        exact absurd h (by simp)
      · have hW : (2 : Nat) ^ (c + 1) < W := by
          unfold W
          exact Nat.pow_lt_pow_right (by omega) (by omega)
        have h1 : ((2 ^ c <<< 1) % W) = 2 ^ (c + 1) := by
          rw [Nat.shiftLeft_eq, pow_one, ← pow_succ]
          exact Nat.mod_eq_of_lt hW
        rw [h1] at h
        obtain ⟨hg2, hd2, hcur2⟩ := ih d (2 ^ (c + 1)) r ⟨c + 1, by omega, by omega, rfl⟩ h
        exact ⟨hg2, hd2, le_trans (Nat.pow_le_pow_right (by omega) (by omega)) hcur2⟩
    · rw [if_neg hlt] at h
      obtain rfl := Option.some.inj h
      exact ⟨hg, by omega, le_refl _⟩

end Power2RehashPolicy

namespace HashMap

variable {K V : Type} [DecidableEq K] [DecidableEq V]

theorem is_empty_false_of_used (e : Element K V) (h : e.is_used = true) :
    e.is_empty = false := by
  cases e <;> simp_all [Element.is_used, Element.is_empty]

/-- A freshly allocated array of Empty slots satisfies the invariant with the
empty traversal order. -/
theorem Inv_fresh (hash : K → Nat) (len : Nat) (hg : GoodLen len) :
    Inv hash (⟨List.replicate len Element.empty, 0, m_end⟩ : HashMap K V) [] := by
  refine ⟨by simpa using hg, rfl, List.chain'_nil, by simp, by simp, ?_, List.nodup_nil,
    rfl, by simp, by simp [keysOf], by simp⟩
  intro j
  simp [slotAt_replicate, Element.is_used]

theorem Inv.key_absent {hash : K → Nat} {T : HashMap K V} {order : List Nat}
    (hinv : Inv hash T order) {k : K} (hk : k ∉ keysOf T.m_data order) :
    ∀ j, (slotAt T.m_data j).key? ≠ some k := by
  intro j hj
  exact hk ((mem_keysOf T.m_data order k).mpr
    ⟨j, (hinv.mem_iff j).mpr (key_some_used _ _ hj), hj⟩)

/-- A successfully constructed table is well-formed and respects the 64-slot
floor. -/
theorem mkTable_inv (hash : K → Nat) {expected fuel : Nat} {T : HashMap K V}
    (h : mkTable expected fuel = some T) :
    Inv hash T [] ∧ 64 ≤ T.m_data.length := by
  unfold mkTable at h
  cases hn : Power2RehashPolicy.new_sizeF fuel
      (Power2RehashPolicy.buckets_number expected) 64 with
  | none => rw [hn] at h; exact absurd h (by simp)
  | some len =>
    rw [hn] at h
    obtain ⟨hg, _, h64⟩ := Power2RehashPolicy.new_sizeF_sound fuel _ 64 len
      ⟨6, by omega, by omega, by norm_num⟩ hn
    obtain rfl := Option.some.inj h
    exact ⟨Inv_fresh hash len hg, by simpa using h64⟩

theorem probeFreeGo_mono (data : List (Element K V)) (start : Nat) :
    ∀ fuel st p r, probeFreeGo data start fuel st p = some r →
      probeFreeGo data start (fuel + 1) st p = some r := by
  intro fuel
  induction fuel with
  | zero => intro st p r h; exact absurd h (by simp [probeFreeGo])
  | succ n ih =>
    intro st p r h
    simp only [probeFreeGo] at h ⊢
    by_cases hu : (slotAt data p).is_used = true
    · rw [if_pos hu] at h ⊢
      exact ih _ _ _ h
    · rw [if_neg hu] at h ⊢
      exact h

theorem probeFreeGo_mono_le (data : List (Element K V)) (start : Nat)
    {fuel fuel' : Nat} (hle : fuel ≤ fuel') {st p r : Nat}
    (h : probeFreeGo data start fuel st p = some r) :
    probeFreeGo data start fuel' st p = some r := by
  obtain ⟨d, rfl⟩ := Nat.exists_eq_add_of_le hle
  induction d with
  | zero => exact h
  | succ m ih => exact probeFreeGo_mono data start (fuel + m) _ _ _ (ih (by omega))

/-- When step `s` is the first free slot on the probe path, `probeFreeGo`
returns it for every sufficient fuel. -/
theorem probeFreeGo_found (data : List (Element K V)) (start s : Nat)
    (hmin : ∀ t, t < s → (slotAt data (pathOf start data.length t)).is_used = true)
    (hfree : (slotAt data (pathOf start data.length s)).is_used = false) :
    ∀ fuel st, st ≤ s → s - st + 1 ≤ fuel →
      probeFreeGo data start fuel st (pathOf start data.length st) =
        some (pathOf start data.length s) := by
  intro fuel
  induction fuel with
  | zero => intro st h1 h2; omega
  | succ n ih =>
    intro st hst hfuel
    by_cases he : st = s
    · subst he
      simp only [probeFreeGo]
      rw [if_neg (by rw [hfree]; simp)]
    · have hu := hmin st (by omega)
      simp only [probeFreeGo]
      rw [if_pos hu]
      exact ih (st + 1) (by omega) (by omega)

/-- When fewer slots are occupied than the array holds, some in-range slot is
free. -/
theorem exists_unused (data : List (Element K V)) (ord : List Nat)
    (hnd : ord.Nodup) (hmem : ∀ j, (slotAt data j).is_used = true → j ∈ ord)
    (hlt : ord.length < data.length) :
    ∃ x, x < data.length ∧ (slotAt data x).is_used = false := by
  by_contra hc
  push_neg at hc
  have hsub : (List.range data.length) ⊆ ord := by
    intro x hx
    rw [List.mem_range] at hx
    have hne := hc x hx
    refine hmem x ?_
    cases h : (slotAt data x).is_used
    · exact absurd h hne
    · rfl
  have hle := List.Subperm.length_le (List.subperm_of_subset (List.nodup_range _) hsub)
  rw [List.length_range] at hle
  omega

theorem insert_at_length (T : HashMap K V) (pos : Nat) (k : K) (v : V) :
    (insert_at T pos k v).m_data.length = T.m_data.length := by
  unfold insert_at
  by_cases hb : T.m_begin ≠ m_end
  · simp [hb, length_setPrevSlot, length_setSlot]
  · simp [hb, length_setSlot]

theorem insert_at_size (T : HashMap K V) (pos : Nat) (k : K) (v : V) :
    (insert_at T pos k v).m_size = (T.m_size + 1) % W := rfl

end HashMap

namespace HashMap

variable {K V : Type} [DecidableEq K] [DecidableEq V]

theorem rehashGo_mono (hash : K → Nat) :
    ∀ fuel (old : List (Element K V)) (i : Nat) (acc T2 : HashMap K V),
      rehashGo hash fuel old i acc = some T2 →
      rehashGo hash (fuel + 1) old i acc = some T2 := by
  intro fuel
  induction fuel with
  | zero => intro old i acc T2 h; exact absurd h (by simp [rehashGo])
  | succ n ih =>
    intro old i acc T2 h
    by_cases hi : i = m_end
    · simp only [rehashGo, if_pos hi] at h ⊢
      exact h
    · simp only [rehashGo, if_neg hi] at h
      cases hslot : slotAt old i with
      | empty => simp [hslot] at h
      | erased => simp [hslot] at h
      | node k v nx p =>
        simp only [hslot] at h
        cases hpf : probeFreeGo acc.m_data
            (MaskRangeHashing.hash (hash k) acc.m_data.length) (n + 1) 0
            (MaskRangeHashing.hash (hash k) acc.m_data.length) with
        | none => simp [hpf] at h
        | some pos =>
          simp only [hpf] at h
          simp only [rehashGo, if_neg hi, hslot]
          rw [probeFreeGo_mono acc.m_data _ (n + 1) 0 _ pos hpf]
          show rehashGo hash (n + 1) old nx (insert_at acc pos k v) = some T2
          exact ih old nx (insert_at acc pos k v) T2 h

theorem rehashGo_mono_le (hash : K → Nat) {fuel fuel' : Nat} (hle : fuel ≤ fuel')
    {old : List (Element K V)} {i : Nat} {acc T2 : HashMap K V}
    (h : rehashGo hash fuel old i acc = some T2) :
    rehashGo hash fuel' old i acc = some T2 := by
  obtain ⟨d, rfl⟩ := Nat.exists_eq_add_of_le hle
  induction d with
  | zero => exact h
  | succ m ih => exact rehashGo_mono hash (fuel + m) old i acc T2 (ih (by omega))

end HashMap

namespace HashMap

variable {K V : Type} [DecidableEq K] [DecidableEq V]

/-- The re-insertion loop of `rehash`: starting from a well-formed
accumulator whose keys are disjoint from the (duplicate-free) keys on the
old traversal chain, it terminates for every sufficient fuel, and the
resulting table is well-formed with the old chain's entries reversed in
front of the accumulator's entries. -/
theorem rehashGo_spec (hash : K → Nat) :
    ∀ (ord : List Nat) (old : List (Element K V)) (i : Nat) (acc : HashMap K V)
      (accOrd : List Nat),
      old.length < m_end →
      List.Chain' (NodeLink old) ord →
      i = ord.headD m_end →
      (∀ j ∈ ord, (slotAt old j).is_used = true) →
      (∀ a, ord.getLast? = some a → nextD old a = m_end) →
      Inv hash acc accOrd →
      (keysOf old ord ++ keysOf acc.m_data accOrd).Nodup →
      2 * (accOrd.length + ord.length) ≤ acc.m_data.length →
      ∀ fuel, ord.length + acc.m_data.length + 1 ≤ fuel →
        ∃ T2 ord2, rehashGo hash fuel old i acc = some T2 ∧ Inv hash T2 ord2 ∧
          entriesOf T2.m_data ord2 =
            (entriesOf old ord).reverse ++ entriesOf acc.m_data accOrd ∧
          T2.m_data.length = acc.m_data.length ∧
          T2.m_size = acc.m_size + ord.length := by
  intro ord
  induction ord with
  | nil =>
    intro old i acc accOrd _ _ hhead _ _ hacc _ _ fuel hfuel
    obtain ⟨f, rfl⟩ : ∃ f, fuel = f + 1 := ⟨fuel - 1, by omega⟩
    refine ⟨acc, accOrd, ?_, hacc, by simp [entriesOf], rfl, by simp⟩
    simp only [rehashGo]
    rw [if_pos (by simpa using hhead)]
  | cons j rest ih =>
    intro old i acc accOrd hom hchain hhead hused hlast hacc hkeys hbudget fuel hfuel
    obtain ⟨f, rfl⟩ : ∃ f, fuel = f + 1 := ⟨fuel - 1, by omega⟩
    simp only [List.length_cons] at hbudget hfuel
    simp at hhead
    subst i
    have hjused := hused j (by simp)
    have hjlt : j < old.length := used_lt old j hjused
    have hjne : j ≠ m_end := by omega
    obtain ⟨k, v, nx, pv, hnode⟩ : ∃ k v nx pv, slotAt old j = .node k v nx pv := by
      cases hs : slotAt old j <;> simp [hs, Element.is_used] at hjused ⊢
    have hstlt : MaskRangeHashing.hash (hash k) acc.m_data.length <
        acc.m_data.length := index_lt hash acc k hacc.good
    have hacclt : accOrd.length < acc.m_data.length := by omega
    obtain ⟨x, hxlt, hxfree⟩ := exists_unused acc.m_data accOrd hacc.nodup
      (fun y hy => (hacc.mem_iff y).mpr hy) hacclt
    obtain ⟨sx, hsxlt, hsx⟩ := pathOf_surj hacc.good
      (MaskRangeHashing.hash (hash k) acc.m_data.length) x hxlt
    have hQ : ∃ s, (slotAt acc.m_data
        (pathOf (MaskRangeHashing.hash (hash k) acc.m_data.length)
          acc.m_data.length s)).is_used = false := ⟨sx, by rw [hsx]; exact hxfree⟩
    classical
    obtain ⟨s, hsfree, hsmin⟩ := Nat.findX hQ
    have hsle : s ≤ sx := by
      by_contra hcon
      exact hsmin sx (by omega) (by rw [hsx]; exact hxfree)
    have hmin : ∀ t, t < s →
        (slotAt acc.m_data (pathOf (MaskRangeHashing.hash (hash k)
          acc.m_data.length) acc.m_data.length t)).is_used = true := by
      intro t ht
      have hnm := hsmin t ht
      cases hb : (slotAt acc.m_data (pathOf (MaskRangeHashing.hash (hash k)
          acc.m_data.length) acc.m_data.length t)).is_used
      · exact absurd hb hnm
      · rfl
    have hpf : probeFreeGo acc.m_data
        (MaskRangeHashing.hash (hash k) acc.m_data.length) (f + 1) 0
        (MaskRangeHashing.hash (hash k) acc.m_data.length) =
        some (pathOf (MaskRangeHashing.hash (hash k) acc.m_data.length)
          acc.m_data.length s) := by
      have h0 := probeFreeGo_found acc.m_data
        (MaskRangeHashing.hash (hash k) acc.m_data.length) s hmin hsfree
        (f + 1) 0 (by omega) (by omega)
      rwa [pathOf_zero hacc.good _ hstlt] at h0
    set pos := pathOf (MaskRangeHashing.hash (hash k) acc.m_data.length)
      acc.m_data.length s with hposdef
    have hposlt : pos < acc.m_data.length := by
      rw [hposdef]
      exact pathOf_lt_of_goodLen hacc.good _ _
    have hreach : ∃ t, probeAt hash acc.m_data k t = pos ∧
        ∀ u, u < t →
          (slotAt acc.m_data (probeAt hash acc.m_data k u)).is_empty = false := by
      refine ⟨s, by rw [hposdef]; rfl, ?_⟩
      intro u hu
      exact is_empty_false_of_used _ (hmin u hu)
    have hkj : (slotAt old j).key? = some k := by rw [hnode]; rfl
    have hkeys' : ((k :: keysOf old rest) ++ keysOf acc.m_data accOrd).Nodup := by
      rwa [keysOf_cons_node old j rest hkj] at hkeys
    have hkacc : k ∉ keysOf acc.m_data accOrd := by
      have hthis := hkeys'
      simp only [List.cons_append, List.nodup_cons] at hthis
      intro hc
      exact hthis.1 (List.mem_append.mpr (Or.inr hc))
    have habs : ∀ y, (slotAt acc.m_data y).key? ≠ some k := hacc.key_absent hkacc
    have hhalf2 : 2 * (accOrd.length + 1) ≤ acc.m_data.length := by omega
    obtain ⟨hinv', hslotpos, hpoint, hentries'⟩ :=
      insert_at_inv hacc pos k v hposlt hsfree hreach habs hhalf2
    have hnx : nx = rest.headD m_end := by
      cases hr : rest with
      | nil =>
        have hj2 := hlast j (by rw [hr]; rfl)
        rw [nextD_node hnode] at hj2
        exact hj2
      | cons y rest2 =>
        have hly : NodeLink old j y :=
          (List.chain'_cons'.mp hchain).1 y (by rw [hr]; rfl)
        have hn := hly.1
        rw [nextD_node hnode] at hn
        exact hn
    have hused' : ∀ y ∈ rest, (slotAt old y).is_used = true :=
      fun y hy => hused y (by simp [hy])
    have hlast' : ∀ a, rest.getLast? = some a → nextD old a = m_end := by
      intro a ha
      refine hlast a ?_
      cases hr : rest with
      | nil => rw [hr] at ha; simp at ha
      | cons y rest2 =>
        rw [hr] at ha
        rw [List.getLast?_cons_cons]
        rw [← hr]
        exact hr ▸ ha
    have hkeyeq : keysOf (insert_at acc pos k v).m_data accOrd =
        keysOf acc.m_data accOrd := by
      refine keysOf_congr _ _ accOrd fun y hy => ?_
      have hyne : y ≠ pos := by
        intro hc
        rw [hc] at hy
        have hyused := (hacc.mem_iff pos).mp hy
        rw [hyused] at hsfree
        exact absurd hsfree (by simp)
      exact (hpoint y hyne).1
    have hkpos : (slotAt (insert_at acc pos k v).m_data pos).key? = some k := by
      rw [hslotpos]; rfl
    have hkeys2 : (keysOf old rest ++ keysOf (insert_at acc pos k v).m_data
        (pos :: accOrd)).Nodup := by
      rw [keysOf_cons_node _ pos accOrd hkpos, hkeyeq]
      exact (List.perm_middle.symm).nodup (by simpa using hkeys')
    have hbudget2 : 2 * ((pos :: accOrd).length + rest.length) ≤
        (insert_at acc pos k v).m_data.length := by
      rw [insert_at_length]
      simp only [List.length_cons]
      omega
    have hfuel2 : rest.length + (insert_at acc pos k v).m_data.length + 1 ≤ f := by
      rw [insert_at_length]
      omega
    obtain ⟨T2, ord2, hrun, hinv2, hent2, hlen2, hsize2⟩ :=
      ih old nx (insert_at acc pos k v) (pos :: accOrd) hom
        (List.chain'_cons'.mp hchain).2 hnx hused' hlast'
        hinv' hkeys2 hbudget2 f hfuel2
    refine ⟨T2, ord2, ?_, hinv2, ?_, by rw [hlen2, insert_at_length], ?_⟩
    · simp only [rehashGo]
      rw [if_neg hjne]
      simp only [hnode]
      rw [hpf]
      show rehashGo hash f old nx (insert_at acc pos k v) = some T2
      exact hrun
    · rw [hent2, hentries', entriesOf_cons_node old j rest hnode]
      simp [List.append_assoc]
    · rw [hsize2, insert_at_size, Nat.mod_eq_of_lt hacc.size_succ_lt_W]
      simp only [List.length_cons]
      omega

end HashMap

namespace HashMap

variable {K V : Type} [DecidableEq K] [DecidableEq V]

/-- A successful `rehash` of a well-formed table is well-formed, reverses
the stored entry sequence, keeps the entry count, and never shrinks the
array; the array also reaches at least the requested bucket count. -/
theorem rehash_inv {hash : K → Nat} {T : HashMap K V} {order : List Nat}
    (hinv : Inv hash T order) {count fuel : Nat} {T2 : HashMap K V}
    (h : rehash hash T count fuel = some T2) :
    ∃ ord2, Inv hash T2 ord2 ∧
      entriesOf T2.m_data ord2 = (entriesOf T.m_data order).reverse ∧
      T.m_data.length ≤ T2.m_data.length ∧
      count ≤ T2.m_data.length ∧
      T2.m_size = T.m_size := by
  unfold rehash at h
  cases hn : Power2RehashPolicy.new_sizeF fuel count T.m_data.length with
  | none => rw [hn] at h; exact absurd h (by simp)
  | some newLen =>
    rw [hn] at h
    obtain ⟨hgnew, hcle, holdle⟩ :=
      Power2RehashPolicy.new_sizeF_sound fuel count _ newLen hinv.good hn
    have hfresh : Inv hash
        (⟨List.replicate newLen Element.empty, 0, m_end⟩ : HashMap K V) [] :=
      Inv_fresh hash newLen hgnew
    have hkeys : (keysOf T.m_data order ++
        keysOf (List.replicate newLen (Element.empty : Element K V)) []).Nodup := by
      simpa [keysOf] using hinv.keys_nodup
    have hbudget : 2 * (([] : List Nat).length + order.length) ≤
        (List.replicate newLen (Element.empty : Element K V)).length := by
      have h1 := hinv.half
      have h2 := hinv.size_eq
      simp only [List.length_nil, List.length_replicate]
      omega
    obtain ⟨T2', ord2, hrun, hinv2, hent2, hlen2, hsize2⟩ :=
      rehashGo_spec hash order T.m_data T.m_begin
        ⟨List.replicate newLen Element.empty, 0, m_end⟩ []
        (len_lt_m_end_of_goodLen hinv.good) hinv.chain hinv.begin_eq
        (fun j hj => (hinv.mem_iff j).mp hj) hinv.last_next hfresh hkeys hbudget
        (order.length + newLen + 1) (by simp)
    have hT2 : T2 = T2' := by
      have h1 := rehashGo_mono_le hash
        (Nat.le_add_right fuel (order.length + newLen + 1)) h
      have h2 := rehashGo_mono_le hash
        (Nat.le_add_left (order.length + newLen + 1) fuel) hrun
      rw [h1] at h2
      exact Option.some.inj h2
    subst hT2
    refine ⟨ord2, hinv2, ?_, ?_, ?_, ?_⟩
    · rw [hent2]
      simp [entriesOf]
    · rw [hlen2]
      simpa using holdle
    · rw [hlen2]
      simpa using hcle
    · rw [hsize2, hinv.size_eq]
      simp

end HashMap

namespace HashMap

variable {K V : Type} [DecidableEq K] [DecidableEq V]

theorem find_pos_mono_le {hash : K → Nat} {T : HashMap K V} {k : K} {se : Bool}
    {fuel fuel' : Nat} (hle : fuel ≤ fuel') {r : Nat}
    (h : find_pos hash T k se fuel = some r) :
    find_pos hash T k se fuel' = some r :=
  find_posGo_mono_le T.m_data k se (index hash T k) hle h

/-- `search` is deterministic across fuels: on a well-formed table holding
`k` at slot `j`, any successful `search` returns `j`. -/
theorem search_present_eq {hash : K → Nat} {T : HashMap K V} {order : List Nat}
    (hinv : Inv hash T order) {k : K} {j fuel pos : Nat}
    (hkey : (slotAt T.m_data j).key? = some k)
    (h : search hash T k fuel = some pos) : pos = j := by
  obtain ⟨F, hF⟩ := find_pos_present hinv k false hkey
  have h1 : find_pos hash T k false (fuel + F) = some pos :=
    find_pos_mono_le (Nat.le_add_right _ _) h
  have h2 := hF (fuel + F) (by omega)
  rw [h1] at h2
  exact Option.some.inj h2

/-- A `find` that returns a non-end iterator really found the key. -/
theorem find_found_key {hash : K → Nat} {T : HashMap K V} {order : List Nat}
    (hinv : Inv hash T order) {k : K} {fuel r : Nat}
    (h : find hash T k fuel = some r) (hne : r ≠ m_end) :
    (slotAt T.m_data r).key? = some k ∧ (slotAt T.m_data r).is_used = true := by
  unfold find at h
  cases hs : search hash T k fuel with
  | none => rw [hs] at h; exact absurd h (by simp)
  | some pos =>
    rw [hs] at h
    have hr := Option.some.inj h
    by_cases hu : (slotAt T.m_data pos).is_used = true
    · rw [if_pos hu] at hr
      subst hr
      cases find_pos_sound hash T k false fuel pos hinv.good hs with
      | inl hf => exact ⟨hf.1, hu⟩
      | inr hm => rw [hm.1] at hu; exact absurd hu (by simp)
    · rw [if_neg hu] at hr
      exact absurd hr.symm hne

/-- A `find` that returns the end iterator proves the key absent. -/
theorem find_end_absent {hash : K → Nat} {T : HashMap K V} {order : List Nat}
    (hinv : Inv hash T order) {k : K} {fuel : Nat}
    (h : find hash T k fuel = some m_end) :
    ∀ j, (slotAt T.m_data j).key? ≠ some k := by
  intro j hj
  unfold find at h
  cases hs : search hash T k fuel with
  | none => rw [hs] at h; exact absurd h (by simp)
  | some pos =>
    obtain rfl : pos = j := search_present_eq hinv hj hs
    have hused := key_some_used _ _ hj
    simp only [hs, if_pos hused] at h
    have hr := Option.some.inj h
    have hjlt := used_lt T.m_data _ hused
    have hlen := len_lt_m_end_of_goodLen hinv.good
    omega

/-- When the key is present, `find` terminates and returns its slot for all
sufficient fuel. -/
theorem find_present_total {hash : K → Nat} {T : HashMap K V} {order : List Nat}
    (hinv : Inv hash T order) {k : K} {j : Nat}
    (hkey : (slotAt T.m_data j).key? = some k) :
    ∃ F, ∀ fuel, F ≤ fuel → find hash T k fuel = some j := by
  obtain ⟨F, hF⟩ := find_pos_present hinv k false hkey
  refine ⟨F, fun fuel hf => ?_⟩
  unfold find
  have hs : search hash T k fuel = some j := hF fuel hf
  simp only [hs, if_pos (key_some_used _ _ hkey)]

/-- When the key is absent and an Empty slot exists, `find` terminates and
returns the end iterator for all sufficient fuel. -/
theorem find_absent_total {hash : K → Nat} {T : HashMap K V} {order : List Nat}
    (hinv : Inv hash T order) {k : K}
    (habs : ∀ j, (slotAt T.m_data j).key? ≠ some k)
    {x : Nat} (hx : x < T.m_data.length) (hxe : (slotAt T.m_data x).is_empty = true) :
    ∃ F, ∀ fuel, F ≤ fuel → find hash T k fuel = some m_end := by
  obtain ⟨F, r, hru, hF⟩ := find_pos_absent T hinv.good k false habs x hx hxe
  refine ⟨F, fun fuel hf => ?_⟩
  unfold find
  have hs : search hash T k fuel = some r := hF fuel hf
  simp [hs, hru]

theorem mem_entriesOf (data : List (Element K V)) (order : List Nat) (k : K) (v : V) :
    (k, v) ∈ entriesOf data order ↔
      ∃ j ∈ order, (slotAt data j).key? = some k ∧ (slotAt data j).val? = some v := by
  unfold entriesOf
  rw [List.mem_filterMap]
  constructor
  · rintro ⟨j, hj, he⟩
    cases hs : slotAt data j with
    | empty => rw [hs] at he; simp [Element.entry?] at he
    | erased => rw [hs] at he; simp [Element.entry?] at he
    | node a b c d =>
      rw [hs] at he
      simp [Element.entry?] at he
      obtain ⟨rfl, rfl⟩ := he
      exact ⟨j, hj, by rw [hs]; rfl, by rw [hs]; rfl⟩
  · rintro ⟨j, hj, hk, hv⟩
    refine ⟨j, hj, ?_⟩
    cases hs : slotAt data j with
    | empty => rw [hs] at hk; simp [Element.key?] at hk
    | erased => rw [hs] at hk; simp [Element.key?] at hk
    | node a b c d =>
      rw [hs] at hk hv
      simp [Element.key?] at hk
      simp [Element.val?] at hv
      simp [Element.entry?, hk, hv]

/-- Every stored entry of a well-formed table is found by `find` with its
stored value. -/
theorem findsValue_of_mem {hash : K → Nat} {T : HashMap K V} {order : List Nat}
    (hinv : Inv hash T order) {k : K} {v : V}
    (hm : (k, v) ∈ entriesOf T.m_data order) : FindsValue hash T k v := by
  obtain ⟨j, _, hk, hv⟩ := (mem_entriesOf T.m_data order k v).mp hm
  obtain ⟨F, hF⟩ := find_present_total hinv hk
  exact ⟨F, j, hF F (le_refl F), hk, hv⟩

end HashMap

namespace HashMap

variable {K V : Type} [DecidableEq K] [DecidableEq V]

/-- The post-growth phase of `try_emplace_impl` — probe for the insertion
slot, then occupy it unless the key is already present — related back to the
original table `T` through the entry-preserving growth step `T ↝ Tr`. -/
theorem step2_spec {hash : K → Nat} {T Tr : HashMap K V} {order ordr : List Nat}
    (hinv : Inv hash T order) (hinvr : Inv hash Tr ordr)
    (hmem : ∀ e : K × V, e ∈ entriesOf Tr.m_data ordr ↔ e ∈ entriesOf T.m_data order)
    (hsz : Tr.m_size = T.m_size)
    (hlen : T.m_data.length ≤ Tr.m_data.length)
    (hroom : 2 * (ordr.length + 1) ≤ Tr.m_data.length)
    {k : K} {v : V} {fuel : Nat} {T1 : HashMap K V} {pos : Nat}
    (h : (match find_insertion_pos hash Tr k fuel with
          | none => none
          | some p =>
            if (slotAt Tr.m_data p).is_used = true then some (Tr, p)
            else some (insert_at Tr p k v, p)) = some (T1, pos)) :
    ∃ ord1, Inv hash T1 ord1 ∧
      T.m_data.length ≤ T1.m_data.length ∧
      (slotAt T1.m_data pos).key? = some k ∧
      (((∀ j, (slotAt T.m_data j).key? ≠ some k) ∧
        T1.m_size = T.m_size + 1 ∧
        (slotAt T1.m_data pos).val? = some v ∧
        (∀ e : K × V, e ∈ entriesOf T1.m_data ord1 ↔
          e = (k, v) ∨ e ∈ entriesOf T.m_data order)) ∨
       ((∃ j, (slotAt T.m_data j).key? = some k ∧
          (slotAt T.m_data j).val? = (slotAt T1.m_data pos).val?) ∧
        T1.m_size = T.m_size ∧
        (∀ e : K × V, e ∈ entriesOf T1.m_data ord1 ↔
          e ∈ entriesOf T.m_data order))) := by
  cases hfp : find_insertion_pos hash Tr k fuel with
  | none => rw [hfp] at h; exact absurd h (by simp)
  | some p =>
    simp only [hfp] at h
    have hsound := find_pos_sound hash Tr k true fuel p hinvr.good hfp
    by_cases hu : (slotAt Tr.m_data p).is_used = true
    · rw [if_pos hu] at h
      have hpair := Option.some.inj h
      injection hpair with h1 h2
      subst h1
      subst h2
      have hkeyp : (slotAt Tr.m_data p).key? = some k := by
        cases hsound with
        | inl hf => exact hf.1
        | inr hm => rw [hm.1] at hu; exact absurd hu (by simp)
      obtain ⟨a, b, c, d, hnode⟩ : ∃ a b c d, slotAt Tr.m_data p = .node a b c d := by
        cases hsp : slotAt Tr.m_data p with
        | empty => rw [hsp] at hu; simp [Element.is_used] at hu
        | erased => rw [hsp] at hu; simp [Element.is_used] at hu
        | node a b c d => exact ⟨a, b, c, d, rfl⟩
      have hvalp : (slotAt Tr.m_data p).val? = some b := by rw [hnode]; rfl
      have hpmem : p ∈ ordr := (hinvr.mem_iff p).mpr hu
      have hTr : (k, b) ∈ entriesOf Tr.m_data ordr :=
        (mem_entriesOf Tr.m_data ordr k b).mpr ⟨p, hpmem, hkeyp, hvalp⟩
      obtain ⟨j, hj, hjk, hjv⟩ :=
        (mem_entriesOf T.m_data order k b).mp ((hmem (k, b)).mp hTr)
      exact ⟨ordr, hinvr, hlen, hkeyp,
        Or.inr ⟨⟨j, hjk, by rw [hjv, hvalp]⟩, hsz, fun e => hmem e⟩⟩
    · rw [if_neg hu] at h
      have hpair := Option.some.inj h
      injection hpair with h1 h2
      subst h1
      subst h2
      have hufalse : (slotAt Tr.m_data p).is_used = false := by
        cases hb : (slotAt Tr.m_data p).is_used
        · rfl
        · exact absurd hb hu
      have habsr : ∀ y, (slotAt Tr.m_data y).key? ≠ some k := by
        intro y hy
        obtain ⟨F, hF⟩ := find_pos_present hinvr k true hy
        have h1' : find_pos hash Tr k true (fuel + F) = some p :=
          find_pos_mono_le (Nat.le_add_right _ _) hfp
        have h2' := hF (fuel + F) (by omega)
        rw [h1'] at h2'
        obtain rfl : p = y := Option.some.inj h2'
        rw [key_some_used _ _ hy] at hufalse
        exact absurd hufalse (by simp)
      have habsT : ∀ j, (slotAt T.m_data j).key? ≠ some k := by
        intro j hj
        have hjused := key_some_used _ _ hj
        have hjmem := (hinv.mem_iff j).mpr hjused
        obtain ⟨a, b, c, d, hnode⟩ : ∃ a b c d, slotAt T.m_data j = .node a b c d := by
          cases hsp : slotAt T.m_data j with
          | empty => rw [hsp] at hjused; simp [Element.is_used] at hjused
          | erased => rw [hsp] at hjused; simp [Element.is_used] at hjused
          | node a b c d => exact ⟨a, b, c, d, rfl⟩
        have hjv : (slotAt T.m_data j).val? = some b := by rw [hnode]; rfl
        have hmemT : (k, b) ∈ entriesOf T.m_data order :=
          (mem_entriesOf T.m_data order k b).mpr ⟨j, hjmem, hj, hjv⟩
        obtain ⟨y, hy, hyk, _⟩ :=
          (mem_entriesOf Tr.m_data ordr k b).mp ((hmem (k, b)).mpr hmemT)
        exact habsr y hyk
      cases hsound with
      | inl hf => exact absurd (key_some_used _ _ hf.1) hu
      | inr hm =>
        obtain ⟨_, e0, hee, hnhb, hse0, s, hsle, hsp, hpre⟩ := hm
        have hplt : p < Tr.m_data.length := by
          rw [← hsp]
          exact pathOf_lt_of_goodLen hinvr.good _ _
        have hreach : ∃ t, probeAt hash Tr.m_data k t = p ∧
            ∀ u, u < t →
              (slotAt Tr.m_data (probeAt hash Tr.m_data k u)).is_empty = false :=
          ⟨s, hsp, fun u hu' => hpre u hu'⟩
        obtain ⟨hinv1, hslotp, hpoint, hent1⟩ :=
          insert_at_inv hinvr p k v hplt hufalse hreach habsr hroom
        refine ⟨p :: ordr, hinv1, by rw [insert_at_length]; exact hlen,
          by rw [hslotp]; rfl, Or.inl ⟨habsT, ?_, by rw [hslotp]; rfl, ?_⟩⟩
        · rw [insert_at_size, Nat.mod_eq_of_lt hinvr.size_succ_lt_W, hsz]
        · intro e'
          rw [hent1]
          simp only [List.mem_cons]
          constructor
          · rintro (he | he)
            · exact Or.inl he
            · exact Or.inr ((hmem e').mp he)
          · rintro (he | he)
            · exact Or.inl he
            · exact Or.inr ((hmem e').mpr he)

end HashMap

namespace HashMap

variable {K V : Type} [DecidableEq K] [DecidableEq V]

/-- `try_emplace_impl` on a well-formed table: the result is well-formed,
never shrinks the array, and ends with the key stored at the returned slot;
a fresh key is inserted (count up by one, value `v`), a present key leaves
the stored entries untouched. -/
theorem try_emplace_inv {hash : K → Nat} {T : HashMap K V} {order : List Nat}
    (hinv : Inv hash T order) {k : K} {v : V} {fuel : Nat} {T1 : HashMap K V}
    {pos : Nat} (h : try_emplace_impl hash T k v fuel = some (T1, pos)) :
    ∃ ord1, Inv hash T1 ord1 ∧
      T.m_data.length ≤ T1.m_data.length ∧
      (slotAt T1.m_data pos).key? = some k ∧
      (((∀ j, (slotAt T.m_data j).key? ≠ some k) ∧
        T1.m_size = T.m_size + 1 ∧
        (slotAt T1.m_data pos).val? = some v ∧
        (∀ e : K × V, e ∈ entriesOf T1.m_data ord1 ↔
          e = (k, v) ∨ e ∈ entriesOf T.m_data order)) ∨
       ((∃ j, (slotAt T.m_data j).key? = some k ∧
          (slotAt T.m_data j).val? = (slotAt T1.m_data pos).val?) ∧
        T1.m_size = T.m_size ∧
        (∀ e : K × V, e ∈ entriesOf T1.m_data ord1 ↔
          e ∈ entriesOf T.m_data order))) := by
  simp only [try_emplace_impl] at h
  by_cases hneed :
      Power2RehashPolicy.need_rehash ((T.m_size + 1) % W) T.m_data.length = true
  · rw [if_pos hneed] at h
    cases hres : reserve hash T ((T.m_size + 1) % W) fuel with
    | none => rw [hres] at h; exact absurd h (by simp)
    | some Tr =>
      simp only [hres] at h
      have hreh : rehash hash T
          (Power2RehashPolicy.buckets_number ((T.m_size + 1) % W)) fuel =
          some Tr := hres
      obtain ⟨ordr, hinvr, hentr, hlenle, hcountle, hsizer⟩ := rehash_inv hinv hreh
      have hW := hinv.size_succ_lt_W
      have hmod : (T.m_size + 1) % W = T.m_size + 1 := Nat.mod_eq_of_lt hW
      have hhalf := hinv.half
      have hlen63 := len_le_of_goodLen hinv.good
      have hbn : Power2RehashPolicy.buckets_number ((T.m_size + 1) % W) =
          2 * (T.m_size + 1) := by
        unfold Power2RehashPolicy.buckets_number
        rw [hmod, Nat.shiftLeft_eq, pow_one]
        rw [Nat.mod_eq_of_lt (by unfold W at hW ⊢; omega)]
        omega
      have hordr : ordr.length = T.m_size := by rw [← hinvr.size_eq, hsizer]
      have hroom : 2 * (ordr.length + 1) ≤ Tr.m_data.length := by
        rw [hbn] at hcountle
        omega
      have hmem : ∀ e : K × V,
          e ∈ entriesOf Tr.m_data ordr ↔ e ∈ entriesOf T.m_data order := by
        intro e
        rw [hentr, List.mem_reverse]
      exact step2_spec hinv hinvr hmem hsizer hlenle hroom h
  · rw [if_neg hneed] at h
    have hroom : 2 * (order.length + 1) ≤ T.m_data.length := by
      have hx : ¬ (T.m_data.length >>> 1 < (T.m_size + 1) % W) := by
        intro hc
        exact hneed (by simp [Power2RehashPolicy.need_rehash, hc])
      rw [Nat.mod_eq_of_lt hinv.size_succ_lt_W, Nat.shiftRight_eq_div_pow] at hx
      have hsz := hinv.size_eq
      omega
    exact step2_spec hinv hinv (fun e => Iff.rfl) rfl (le_refl _) hroom h

/-- `insert` on a well-formed table, with the `inserted` flag settled: `true`
exactly when the key was fresh. -/
theorem insert_inv {hash : K → Nat} {T : HashMap K V} {order : List Nat}
    (hinv : Inv hash T order) {k : K} {v : V} {fuel : Nat} {T1 : HashMap K V}
    {pos : Nat} {ok : Bool}
    (h : insert hash T k v fuel = some (T1, pos, ok)) :
    ∃ ord1, Inv hash T1 ord1 ∧
      T.m_data.length ≤ T1.m_data.length ∧
      (slotAt T1.m_data pos).key? = some k ∧
      (((∀ j, (slotAt T.m_data j).key? ≠ some k) ∧ ok = true ∧
        T1.m_size = T.m_size + 1 ∧
        (slotAt T1.m_data pos).val? = some v ∧
        (∀ e : K × V, e ∈ entriesOf T1.m_data ord1 ↔
          e = (k, v) ∨ e ∈ entriesOf T.m_data order)) ∨
       ((∃ j, (slotAt T.m_data j).key? = some k ∧
          (slotAt T.m_data j).val? = (slotAt T1.m_data pos).val?) ∧ ok = false ∧
        T1.m_size = T.m_size ∧
        (∀ e : K × V, e ∈ entriesOf T1.m_data ord1 ↔
          e ∈ entriesOf T.m_data order))) := by
  unfold insert at h
  cases hte : try_emplace_impl hash T k v fuel with
  | none => rw [hte] at h; exact absurd h (by simp)
  | some r =>
    obtain ⟨T1', pos'⟩ := r
    simp only [hte] at h
    have hpair := Option.some.inj h
    injection hpair with hT hrest
    injection hrest with hpos hok
    subst hT
    subst hpos
    subst hok
    obtain ⟨ord1, hi, hl, hk, hcase⟩ := try_emplace_inv hinv hte
    refine ⟨ord1, hi, hl, hk, ?_⟩
    cases hcase with
    | inl hA =>
      refine Or.inl ⟨hA.1, ?_, hA.2.1, hA.2.2.1, hA.2.2.2⟩
      rw [hA.2.1]
      simp
    | inr hB =>
      refine Or.inr ⟨hB.1, ?_, hB.2.1, hB.2.2⟩
      rw [hB.2.1]
      simp

/-- Erasing a key that is nowhere stored leaves the table untouched and
returns 0 (when the probe loop terminates at all). -/
theorem erase_absent_noop {hash : K → Nat} {T : HashMap K V} {order : List Nat}
    (hinv : Inv hash T order) {k : K}
    (habs : ∀ j, (slotAt T.m_data j).key? ≠ some k) {fuel : Nat}
    {T1 : HashMap K V} {n : Nat}
    (h : erase_key hash T k fuel = some (T1, n)) : T1 = T ∧ n = 0 := by
  unfold erase_key at h
  cases hs : search hash T k fuel with
  | none => rw [hs] at h; exact absurd h (by simp)
  | some pos =>
    simp only [hs] at h
    have hnm : (slotAt T.m_data pos).is_used = false := by
      rcases find_pos_sound hash T k false fuel pos hinv.good hs with hf | hm
      · exact absurd hf.1 (habs pos)
      · exact hm.1
    rw [if_neg (by rw [hnm]; simp)] at h
    have hpair := Option.some.inj h
    injection hpair with h1 h2
    exact ⟨h1.symm, h2.symm⟩

/-- Erasing a stored key removes exactly its node: the slot becomes a
Tombstone, the count drops by one, the other slots keep their contents, and
the call returns 1. -/
theorem erase_present_spec {hash : K → Nat} {T : HashMap K V} {order : List Nat}
    (hinv : Inv hash T order) {k : K} {j : Nat}
    (hkey : (slotAt T.m_data j).key? = some k) {fuel : Nat}
    {T1 : HashMap K V} {n : Nat}
    (h : erase_key hash T k fuel = some (T1, n)) :
    n = 1 ∧ T1 = remove_node T j ∧
    ∃ l1 l2, order = l1 ++ j :: l2 ∧ Inv hash T1 (l1 ++ l2) ∧
      T1.m_size = T.m_size - 1 ∧ T1.m_data.length = T.m_data.length ∧
      slotAt T1.m_data j = .erased ∧
      (∀ y, y ≠ j → (slotAt T1.m_data y).key? = (slotAt T.m_data y).key? ∧
        (slotAt T1.m_data y).val? = (slotAt T.m_data y).val?) := by
  unfold erase_key at h
  cases hs : search hash T k fuel with
  | none => rw [hs] at h; exact absurd h (by simp)
  | some pos =>
    obtain rfl : pos = j := search_present_eq hinv hkey hs
    have hused := key_some_used _ _ hkey
    simp only [hs, if_pos hused] at h
    have hpair := Option.some.inj h
    injection hpair with h1 h2
    subst h1
    subst h2
    have hjmem : pos ∈ order := (hinv.mem_iff pos).mpr hused
    obtain ⟨l1, l2, horder⟩ := List.append_of_mem hjmem
    subst horder
    obtain ⟨hinv2, hslot, hpoint, hlen⟩ := remove_node_inv pos hinv
    refine ⟨rfl, rfl, l1, l2, rfl, hinv2, ?_, hlen, hslot,
      fun y hy => ⟨(hpoint y hy).1, (hpoint y hy).2.1⟩⟩
    have hs1 := hinv2.size_eq
    have hs2 := hinv.size_eq
    simp only [List.length_append, List.length_cons] at hs1 hs2
    omega

/-- A successful `erase(key)` preserves well-formedness. -/
theorem erase_key_wf {hash : K → Nat} {T : HashMap K V} {order : List Nat}
    (hinv : Inv hash T order) {k : K} {fuel : Nat} {T1 : HashMap K V} {n : Nat}
    (h : erase_key hash T k fuel = some (T1, n)) : ∃ ord1, Inv hash T1 ord1 := by
  classical
  by_cases hk : ∃ j, (slotAt T.m_data j).key? = some k
  · obtain ⟨j, hj⟩ := hk
    obtain ⟨_, _, l1, l2, _, hinv2, _⟩ := erase_present_spec hinv hj h
    exact ⟨l1 ++ l2, hinv2⟩
  · push_neg at hk
    obtain ⟨h1, _⟩ := erase_absent_noop hinv hk h
    subst h1
    exact ⟨order, hinv⟩

end HashMap

namespace HashMap

variable {K V : Type} [DecidableEq K] [DecidableEq V]

theorem length_setValSlot_eq (data : List (Element K V)) (i : Nat) (v : V) :
    (setValSlot data i v).length = data.length := length_setValSlot data i v

theorem nextD_setValSlot (data : List (Element K V)) (i : Nat) (v : V) (j : Nat) :
    nextD (setValSlot data i v) j = nextD data j := by
  by_cases hj : j = i
  · subst hj
    cases hs : slotAt data j with
    | empty => simp [setValSlot, hs]
    | erased => simp [setValSlot, hs]
    | node a b c d =>
      have hlt : j < data.length := used_lt data j (by rw [hs]; rfl)
      unfold nextD
      rw [slotAt_setValSlot_self data j v hs hlt, hs]
  · unfold nextD
    rw [slotAt_setValSlot_ne data i v j hj]

theorem prevD_setValSlot (data : List (Element K V)) (i : Nat) (v : V) (j : Nat) :
    prevD (setValSlot data i v) j = prevD data j := by
  by_cases hj : j = i
  · subst hj
    cases hs : slotAt data j with
    | empty => simp [setValSlot, hs]
    | erased => simp [setValSlot, hs]
    | node a b c d =>
      have hlt : j < data.length := used_lt data j (by rw [hs]; rfl)
      unfold prevD
      rw [slotAt_setValSlot_self data j v hs hlt, hs]
  · unfold prevD
    rw [slotAt_setValSlot_ne data i v j hj]

theorem key_setValSlot (data : List (Element K V)) (i : Nat) (v : V) (j : Nat) :
    (slotAt (setValSlot data i v) j).key? = (slotAt data j).key? := by
  by_cases hj : j = i
  · subst hj
    cases hs : slotAt data j with
    | empty => simp [setValSlot, hs]
    | erased => simp [setValSlot, hs]
    | node a b c d =>
      have hlt : j < data.length := used_lt data j (by rw [hs]; rfl)
      rw [slotAt_setValSlot_self data j v hs hlt]
      rfl
  · rw [slotAt_setValSlot_ne data i v j hj]

theorem used_setValSlot (data : List (Element K V)) (i : Nat) (v : V) (j : Nat) :
    (slotAt (setValSlot data i v) j).is_used = (slotAt data j).is_used := by
  by_cases hj : j = i
  · subst hj
    cases hs : slotAt data j with
    | empty => simp [setValSlot, hs]
    | erased => simp [setValSlot, hs]
    | node a b c d =>
      have hlt : j < data.length := used_lt data j (by rw [hs]; rfl)
      rw [slotAt_setValSlot_self data j v hs hlt]
      rfl
  · rw [slotAt_setValSlot_ne data i v j hj]

theorem empty_setValSlot (data : List (Element K V)) (i : Nat) (v : V) (j : Nat) :
    (slotAt (setValSlot data i v) j).is_empty = (slotAt data j).is_empty := by
  by_cases hj : j = i
  · subst hj
    cases hs : slotAt data j with
    | empty => simp [setValSlot, hs]
    | erased => simp [setValSlot, hs]
    | node a b c d =>
      have hlt : j < data.length := used_lt data j (by rw [hs]; rfl)
      rw [slotAt_setValSlot_self data j v hs hlt]
      rfl
  · rw [slotAt_setValSlot_ne data i v j hj]

/-- Overwriting the mapped value of an occupied slot preserves the table
invariant with the same traversal order. -/
theorem setValSlot_inv {hash : K → Nat} {T : HashMap K V} {order : List Nat}
    (hinv : Inv hash T order) (pos : Nat) (v : V) :
    Inv hash (⟨setValSlot T.m_data pos v, T.m_size, T.m_begin⟩ : HashMap K V)
      order := by
  have hlen : (setValSlot T.m_data pos v).length = T.m_data.length :=
    length_setValSlot T.m_data pos v
  refine ⟨?_, hinv.begin_eq, ?_, ?_, ?_, ?_, hinv.nodup, hinv.size_eq, ?_, ?_, ?_⟩
  · show GoodLen (setValSlot T.m_data pos v).length
    rw [hlen]
    exact hinv.good
  · refine List.Chain'.imp ?_ hinv.chain
    intro a b hab
    exact ⟨by rw [nextD_setValSlot]; exact hab.1,
      by rw [prevD_setValSlot]; exact hab.2⟩
  · intro a ha
    rw [prevD_setValSlot]
    exact hinv.head_prev a ha
  · intro a ha
    rw [nextD_setValSlot]
    exact hinv.last_next a ha
  · intro j
    rw [used_setValSlot]
    exact hinv.mem_iff j
  · show 2 * T.m_size ≤ (setValSlot T.m_data pos v).length
    rw [hlen]
    exact hinv.half
  · show (keysOf (setValSlot T.m_data pos v) order).Nodup
    rw [keysOf_congr _ _ order fun j _ => key_setValSlot T.m_data pos v j]
    exact hinv.keys_nodup
  · intro j hj k hk
    rw [key_setValSlot] at hk
    obtain ⟨s, hs, hpre⟩ := hinv.reach j hj k hk
    have hpa : probeAt hash (setValSlot T.m_data pos v) k =
        probeAt hash T.m_data k := probeAt_congr hash _ _ k hlen
    refine ⟨s, ?_, ?_⟩
    · rw [hpa]
      exact hs
    · intro t ht
      rw [hpa, empty_setValSlot]
      exact hpre t ht

/-- `insert_or_assign` on a well-formed table: afterwards the key maps to the
new value; the flag tells whether the key was fresh. -/
theorem insert_or_assign_inv {hash : K → Nat} {T : HashMap K V} {order : List Nat}
    (hinv : Inv hash T order) {k : K} {v : V} {fuel : Nat} {T2 : HashMap K V}
    {pos : Nat} {ok : Bool}
    (h : insert_or_assign hash T k v fuel = some (T2, pos, ok)) :
    ∃ ord1, Inv hash T2 ord1 ∧
      (slotAt T2.m_data pos).key? = some k ∧
      (slotAt T2.m_data pos).val? = some v ∧
      ((ok = true ∧ (∀ j, (slotAt T.m_data j).key? ≠ some k) ∧
        T2.m_size = T.m_size + 1) ∨
       (ok = false ∧ (∃ j0, (slotAt T.m_data j0).key? = some k) ∧
        T2.m_size = T.m_size)) := by
  unfold insert_or_assign at h
  cases hins : insert hash T k v fuel with
  | none => rw [hins] at h; exact absurd h (by simp)
  | some r =>
    obtain ⟨T1, r2⟩ := r
    obtain ⟨p1, ins⟩ := r2
    simp only [hins] at h
    obtain ⟨ord1, hi, _, hk, hcase⟩ := insert_inv hinv hins
    cases ins with
    | true =>
      rw [if_pos rfl] at h
      have hpair := Option.some.inj h
      injection hpair with hT hrest
      injection hrest with hpos hok
      subst hT
      subst hpos
      subst hok
      cases hcase with
      | inl hA =>
        exact ⟨ord1, hi, hk, hA.2.2.2.1, Or.inl ⟨rfl, hA.1, hA.2.2.1⟩⟩
      | inr hB =>
        exact absurd hB.2.1 (by simp)
    | false =>
      rw [if_neg (by simp)] at h
      have hpair := Option.some.inj h
      injection hpair with hT hrest
      injection hrest with hpos hok
      subst hT
      subst hpos
      subst hok
      cases hcase with
      | inl hA => exact absurd hA.2.1 (by simp)
      | inr hB =>
        have hused : (slotAt T1.m_data p1).is_used = true := key_some_used _ _ hk
        obtain ⟨a, b, c, d, hnode⟩ :
            ∃ a b c d, slotAt T1.m_data p1 = .node a b c d := by
          cases hsp : slotAt T1.m_data p1 with
          | empty => rw [hsp] at hused; simp [Element.is_used] at hused
          | erased => rw [hsp] at hused; simp [Element.is_used] at hused
          | node a b c d => exact ⟨a, b, c, d, rfl⟩
        have hlt : p1 < T1.m_data.length := used_lt T1.m_data p1 hused
        have hself := slotAt_setValSlot_self T1.m_data p1 v hnode hlt
        refine ⟨ord1, setValSlot_inv hi p1 v, ?_, ?_,
          Or.inr ⟨rfl, ?_, hB.2.2.1⟩⟩
        · show (slotAt (setValSlot T1.m_data p1 v) p1).key? = some k
          rw [hself]
          rw [hnode] at hk
          exact hk
        · show (slotAt (setValSlot T1.m_data p1 v) p1).val? = some v
          rw [hself]
          rfl
        · obtain ⟨j0, hj0, _⟩ := hB.1
          exact ⟨j0, hj0⟩

end HashMap

namespace HashMap

variable {K V : Type} [DecidableEq K] [DecidableEq V]

/-- Every state reachable by successful constructor / insert / erase /
clear / rehash calls is well-formed. -/
theorem reached_wf {hash : K → Nat} {T : HashMap K V} (h : Reached hash T) :
    ∃ order, Inv hash T order := by
  induction h with
  | base n fuel T hmk => exact ⟨[], (mkTable_inv hash hmk).1⟩
  | ins T k v fuel T1 pos ok hR hins ih =>
    obtain ⟨order, hinv⟩ := ih
    obtain ⟨ord1, hi, _⟩ := insert_inv hinv hins
    exact ⟨ord1, hi⟩
  | ers T k fuel T1 n hR hers ih =>
    obtain ⟨order, hinv⟩ := ih
    exact erase_key_wf hinv hers
  | clr T fuel T1 hR hclr ih =>
    obtain ⟨order, hinv⟩ := ih
    exact ⟨[], ((clear_inv hinv).2 fuel T1 hclr).1⟩
  | reh T c fuel T1 hR hreh ih =>
    obtain ⟨order, hinv⟩ := ih
    obtain ⟨ord2, hi, _⟩ := rehash_inv hinv hreh
    exact ⟨ord2, hi⟩

end HashMap

namespace HashMap

variable {K V : Type} [DecidableEq K] [DecidableEq V]

/-- Completeness of the `operator==` loop: when every entry along the lhs
chain is stored in the (well-formed) rhs table, the loop terminates with
`true`. -/
theorem eqGo_total {hash : K → Nat} {T2 : HashMap K V} {ord2 : List Nat}
    (hinv2 : Inv hash T2 ord2) (data1 : List (Element K V)) :
    ∀ (ord : List Nat),
      List.Chain' (NodeLink data1) ord →
      (∀ j ∈ ord, (slotAt data1 j).is_used = true) →
      (∀ a, ord.getLast? = some a → nextD data1 a = m_end) →
      (∀ j ∈ ord, j < data1.length) →
      data1.length < m_end →
      (∀ e : K × V, e ∈ entriesOf data1 ord → e ∈ entriesOf T2.m_data ord2) →
      ∃ F, ∀ fuel, F ≤ fuel →
        eqGo hash T2 fuel data1 (ord.headD m_end) = some true := by
  intro ord
  induction ord with
  | nil =>
    intro _ _ _ _ _ _
    refine ⟨1, fun fuel hf => ?_⟩
    obtain ⟨f, rfl⟩ : ∃ f, fuel = f + 1 := ⟨fuel - 1, by omega⟩
    simp [eqGo]
  | cons j rest ih =>
    intro hch hused hlast hlt hm hmem
    have hjused := hused j (by simp)
    obtain ⟨k, v, nx, p, hnode⟩ : ∃ k v nx p, slotAt data1 j = .node k v nx p := by
      cases hs : slotAt data1 j <;> simp [hs, Element.is_used] at hjused ⊢
    have hjne : j ≠ m_end := by
      have := hlt j (by simp)
      omega
    have hkv2 : (k, v) ∈ entriesOf T2.m_data ord2 := by
      refine hmem (k, v) ?_
      rw [entriesOf_cons_node data1 j rest hnode]
      simp
    obtain ⟨r, hr2, hrk, hrv⟩ := (mem_entriesOf T2.m_data ord2 k v).mp hkv2
    obtain ⟨F2, hF2⟩ := find_present_total hinv2 hrk
    have hrne : r ≠ m_end := by
      have h1 := hinv2.mem_lt hr2
      have h2 := len_lt_m_end_of_goodLen hinv2.good
      omega
    have hnx : nx = rest.headD m_end := by
      cases hr : rest with
      | nil =>
        have hj2 := hlast j (by rw [hr]; rfl)
        rw [nextD_node hnode] at hj2
        exact hj2
      | cons y rest2 =>
        have hly : NodeLink data1 j y :=
          (List.chain'_cons'.mp hch).1 y (by rw [hr]; rfl)
        have hn := hly.1
        rw [nextD_node hnode] at hn
        exact hn
    have hlast' : ∀ a, rest.getLast? = some a → nextD data1 a = m_end := by
      intro a ha
      refine hlast a ?_
      cases hr : rest with
      | nil => rw [hr] at ha; simp at ha
      | cons y rest2 =>
        rw [hr] at ha
        rw [List.getLast?_cons_cons]
        rw [← hr]
        exact hr ▸ ha
    have hmem' : ∀ e : K × V, e ∈ entriesOf data1 rest →
        e ∈ entriesOf T2.m_data ord2 := by
      intro e hee
      refine hmem e ?_
      rw [entriesOf_cons_node data1 j rest hnode]
      simp [hee]
    obtain ⟨F1, hF1⟩ := ih (List.chain'_cons'.mp hch).2
      (fun y hy => hused y (by simp [hy]))
      hlast' (fun y hy => hlt y (by simp [hy])) hm hmem'
    refine ⟨F1 + F2 + 1, fun fuel hf => ?_⟩
    obtain ⟨f, rfl⟩ : ∃ f, fuel = f + 1 := ⟨fuel - 1, by omega⟩
    have hfind : find hash T2 k f = some r := hF2 f (by omega)
    simp only [List.headD_cons, eqGo]
    rw [if_neg hjne]
    simp only [hnode, hfind]
    rw [if_neg hrne]
    simp only [hrv, if_true]
    rw [hnx]
    exact hF1 f (by omega)

/-- Soundness of the `operator==` loop: a `true` answer means every entry
along the lhs chain is stored in the rhs table. -/
theorem eqGo_sound {hash : K → Nat} {T2 : HashMap K V} {ord2 : List Nat}
    (hinv2 : Inv hash T2 ord2) (data1 : List (Element K V)) :
    ∀ (ord : List Nat) (fuel : Nat),
      List.Chain' (NodeLink data1) ord →
      (∀ j ∈ ord, (slotAt data1 j).is_used = true) →
      (∀ j ∈ ord, j < data1.length) →
      data1.length < m_end →
      eqGo hash T2 fuel data1 (ord.headD m_end) = some true →
      ∀ e : K × V, e ∈ entriesOf data1 ord → e ∈ entriesOf T2.m_data ord2 := by
  intro ord
  induction ord with
  | nil =>
    intro fuel _ _ _ _ _ e he
    simp [entriesOf] at he
  | cons j rest ih =>
    intro fuel hch hused hlt hm h e he
    cases fuel with
    | zero => exact absurd h (by simp [eqGo])
    | succ f =>
      have hjused := hused j (by simp)
      obtain ⟨k, v, nx, p, hnode⟩ : ∃ k v nx p, slotAt data1 j = .node k v nx p := by
        cases hs : slotAt data1 j <;> simp [hs, Element.is_used] at hjused ⊢
      have hjne : j ≠ m_end := by
        have := hlt j (by simp)
        omega
      simp only [List.headD_cons, eqGo] at h
      rw [if_neg hjne] at h
      simp only [hnode] at h
      cases hfind : find hash T2 k f with
      | none => rw [hfind] at h; exact absurd h (by simp)
      | some r =>
        simp only [hfind] at h
        by_cases hrm : r = m_end
        · rw [if_pos hrm] at h; exact absurd h (by simp)
        · rw [if_neg hrm] at h
          obtain ⟨hrk, hru⟩ := find_found_key hinv2 hfind hrm
          cases hval : (slotAt T2.m_data r).val? with
          | none => rw [hval] at h; exact absurd h (by simp)
          | some v2 =>
            simp only [hval] at h
            by_cases hv2 : v2 = v
            · subst hv2
              rw [if_pos rfl] at h
              rw [entriesOf_cons_node data1 j rest hnode] at he
              rcases List.mem_cons.mp he with rfl | hrest
              · exact (mem_entriesOf T2.m_data ord2 k v2).mpr
                  ⟨r, (hinv2.mem_iff r).mpr hru, hrk, hval⟩
              · cases hr : rest with
                | nil =>
                  rw [hr] at hrest
                  simp [entriesOf] at hrest
                | cons y rest2 =>
                  have hly : NodeLink data1 j y :=
                    (List.chain'_cons'.mp hch).1 y (by rw [hr]; rfl)
                  have hn := hly.1
                  rw [nextD_node hnode] at hn
                  have hnx : nx = rest.headD m_end := by
                    rw [hr, List.headD_cons]
                    exact hn
                  refine ih f (List.chain'_cons'.mp hch).2
                    (fun y2 hy2 => hused y2 (by simp [hy2]))
                    (fun y2 hy2 => hlt y2 (by simp [hy2])) hm ?_ e hrest
                  rw [← hnx]
                  exact h
            · rw [if_neg hv2] at h
              exact absurd h (by simp)

end HashMap

namespace HashMap

variable {K V : Type} [DecidableEq K] [DecidableEq V]

/-- `operator==` on two well-formed tables holds (for some fuel) exactly
when the sizes agree and every entry of the left table is stored in the
right one — an insertion-order-independent characterization. -/
theorem tableEq_iff {hash : K → Nat} {T1 T2 : HashMap K V} {ord1 ord2 : List Nat}
    (hinv1 : Inv hash T1 ord1) (hinv2 : Inv hash T2 ord2) :
    TableEqHolds hash T1 T2 ↔
      (T1.m_size = T2.m_size ∧
       ∀ e : K × V, e ∈ entriesOf T1.m_data ord1 → e ∈ entriesOf T2.m_data ord2) := by
  constructor
  · rintro ⟨fuel, hfe⟩
    unfold tableEq at hfe
    by_cases hsz : T1.m_size ≠ T2.m_size
    · rw [if_pos hsz] at hfe
      exact absurd hfe (by simp)
    · push_neg at hsz
      rw [if_neg (by simp [hsz])] at hfe
      refine ⟨hsz, ?_⟩
      rw [hinv1.begin_eq] at hfe
      exact eqGo_sound hinv2 T1.m_data ord1 fuel hinv1.chain
        (fun j hj => (hinv1.mem_iff j).mp hj) (fun j hj => hinv1.mem_lt hj)
        (len_lt_m_end_of_goodLen hinv1.good) hfe
  · rintro ⟨hsz, hmem⟩
    obtain ⟨F, hF⟩ := eqGo_total hinv2 T1.m_data ord1 hinv1.chain
      (fun j hj => (hinv1.mem_iff j).mp hj) hinv1.last_next
      (fun j hj => hinv1.mem_lt hj) (len_lt_m_end_of_goodLen hinv1.good) hmem
    refine ⟨F, ?_⟩
    unfold tableEq
    rw [if_neg (by simp [hsz])]
    rw [hinv1.begin_eq]
    exact hF F (le_refl F)

end HashMap

namespace HashMap

variable {K V : Type} [DecidableEq K] [DecidableEq V]

theorem chain'_of_adjOK (data : List (Element K V)) :
    ∀ (l : List Nat), adjOK data l = true → List.Chain' (NodeLink data) l := by
  intro l
  induction l with
  | nil => intro _; exact List.chain'_nil
  | cons a rest ih =>
    intro h
    cases rest with
    | nil => exact List.chain'_singleton a
    | cons b rest2 =>
      simp only [adjOK, Bool.and_eq_true, beq_iff_eq] at h
      obtain ⟨⟨h1, h2⟩, h3⟩ := h
      exact List.chain'_cons.mpr ⟨⟨h1, h2⟩, ih (by simpa [adjOK] using h3)⟩

/-- The executable invariant checker is sound: a `true` verdict on a
concrete table yields the invariant. -/
theorem Inv_of_check {hash : K → Nat} {T : HashMap K V} {order : List Nat}
    (h : InvCheck hash T order = true) : Inv hash T order := by
  unfold InvCheck at h
  simp only [Bool.and_eq_true] at h
  obtain ⟨⟨⟨⟨⟨⟨⟨⟨⟨⟨⟨hA, hB⟩, hC⟩, hD⟩, hE⟩, hF⟩, hG⟩, hH⟩, hI⟩, hJ⟩, hK⟩, hL⟩ := h
  have hGm : ∀ j ∈ order, j < T.m_data.length := by
    intro j hj
    exact of_decide_eq_true (List.all_eq_true.mp hG j hj)
  refine ⟨?_, ?_, chain'_of_adjOK T.m_data order hC, ?_, ?_, ?_,
    of_decide_eq_true hH, ?_, of_decide_eq_true hJ, of_decide_eq_true hK, ?_⟩
  · obtain ⟨c, hcr, hc⟩ := List.any_eq_true.mp hA
    rw [Bool.and_eq_true] at hc
    refine ⟨c, of_decide_eq_true hc.1, ?_, of_decide_eq_true hc.2⟩
    have := List.mem_range.mp hcr
    omega
  · exact beq_iff_eq.mp hB
  · intro a ha
    simp only [ha] at hD
    exact beq_iff_eq.mp hD
  · intro a ha
    simp only [ha] at hE
    exact beq_iff_eq.mp hE
  · intro j
    by_cases hj : j < T.m_data.length
    · have hFe := List.all_eq_true.mp hF j (List.mem_range.mpr hj)
      have heq : (slotAt T.m_data j).is_used = order.contains j := by
        simpa using hFe
      constructor
      · intro hmem
        rw [heq]
        exact List.elem_iff.mpr hmem
      · intro hused
        rw [heq] at hused
        exact List.elem_iff.mp hused
    · constructor
      · intro hmem
        exact absurd (hGm j hmem) hj
      · intro hused
        rw [slotAt_oob T.m_data j (by omega)] at hused
        exact absurd hused (by simp [Element.is_used])
  · exact beq_iff_eq.mp hI
  · intro j hj k hk
    have hLe := List.all_eq_true.mp hL j hj
    simp only [hk] at hLe
    obtain ⟨s, hsr, hs⟩ := List.any_eq_true.mp hLe
    rw [Bool.and_eq_true] at hs
    refine ⟨s, beq_iff_eq.mp hs.1, ?_⟩
    intro t ht
    have := List.all_eq_true.mp hs.2 t (List.mem_range.mpr ht)
    simpa using this

end HashMap

namespace HashMap

variable {K V : Type} [DecidableEq K] [DecidableEq V]

theorem setNextSlot_eta (data : List (Element K V)) (i r : Nat)
    (h : nextD data i = r) : setNextSlot data i r = data := by
  cases hs : slotAt data i with
  | empty => simp [setNextSlot, hs]
  | erased => simp [setNextSlot, hs]
  | node a b c d =>
    have hc : c = r := by
      have h2 := h
      simp only [nextD, hs] at h2
      exact h2
    subst hc
    simp only [setNextSlot, hs]
    rw [← hs]
    exact setSlot_eta data i

theorem setPrevSlot_eta (data : List (Element K V)) (i r : Nat)
    (h : prevD data i = r) : setPrevSlot data i r = data := by
  cases hs : slotAt data i with
  | empty => simp [setPrevSlot, hs]
  | erased => simp [setPrevSlot, hs]
  | node a b c d =>
    have hc : d = r := by
      have h2 := h
      simp only [prevD, hs] at h2
      exact h2
    subst hc
    simp only [setPrevSlot, hs]
    rw [← hs]
    exact setSlot_eta data i

/-- Relinking a node between its actual neighbours changes nothing. -/
theorem link_nodes_eta {hash : K → Nat} {T : HashMap K V} {order : List Nat}
    (hinv : Inv hash T order) {p : Nat} (hp : p ∈ order) :
    link_nodes T (prevD T.m_data p) p = T := by
  have hplt := hinv.mem_lt hp
  have hlen := len_lt_m_end_of_goodLen hinv.good
  have hpne : p ≠ m_end := by omega
  obtain ⟨l1, l2, horder⟩ := List.append_of_mem hp
  rcases l1.eq_nil_or_concat with rfl | ⟨l1', a, rfl⟩
  · -- p is the head of the traversal list
    have hhead : order.head? = some p := by rw [horder]; rfl
    have hprev : prevD T.m_data p = m_end := hinv.head_prev p hhead
    have hbegin : T.m_begin = p := by
      rw [hinv.begin_eq, horder]
      rfl
    rw [hprev]
    have hset := setPrevSlot_eta T.m_data p m_end hprev
    have hmm : ¬ (m_end ≠ m_end) := by simp
    unfold link_nodes
    rw [if_neg hmm, if_pos hpne]
    show (⟨setPrevSlot T.m_data p m_end, T.m_size, p⟩ : HashMap K V) = T
    rw [hset, ← hbegin]
  · -- p has a predecessor a on the list
    have hchain := hinv.chain
    rw [horder] at hchain
    have hlink : NodeLink T.m_data a p := by
      have hsplit := (List.chain'_append.mp hchain).2.2
      exact hsplit a (by simp) p (by rfl)
    have hane : a ≠ m_end := by
      have hamem : a ∈ order := by rw [horder]; simp
      have := hinv.mem_lt hamem
      omega
    have hprev : prevD T.m_data p = a := hlink.2
    rw [hprev]
    have h1 := setNextSlot_eta T.m_data a p hlink.1
    have h2 := setPrevSlot_eta T.m_data p a hprev
    simp [link_nodes, hane, hpne, h1, h2]

/-- `erase(it, it)` at a valid iterator position is a no-op returning the
same position. -/
theorem erase_range_self {hash : K → Nat} {T : HashMap K V} {order : List Nat}
    (hinv : Inv hash T order) {p : Nat} (hp : p ∈ order) :
    ∀ fuel, erase_range T p p fuel = some (T, p) := by
  intro fuel
  have hused := (hinv.mem_iff p).mp hp
  obtain ⟨k, v, nx, pv, hnode⟩ : ∃ k v nx pv, slotAt T.m_data p = .node k v nx pv := by
    cases hs : slotAt T.m_data p <;> simp [hs, Element.is_used] at hused ⊢
  have hnodeAt : nodeAt? T.m_data p = some (k, v, nx, pv) := by
    unfold nodeAt?
    rw [hnode]
  have hprev : prevD T.m_data p = pv := by simp [prevD, hnode]
  have hlink : link_nodes T pv p = T := by
    rw [← hprev]
    exact link_nodes_eta hinv hp
  unfold erase_range
  simp only [hnodeAt]
  rw [hlink]
  cases fuel with
  | zero => simp [eraseLoopGo]
  | succ f => simp [eraseLoopGo]

end HashMap

namespace HashMap

variable {K V : Type} [DecidableEq K] [DecidableEq V]

theorem slotAt_replicate_lt (e : Element K V) (n j : Nat) (h : j < n) :
    slotAt (List.replicate n e) j = e := by
  induction n generalizing j with
  | zero => omega
  | succ m ih =>
    cases j with
    | zero => rfl
    | succ l => simpa [List.replicate, slotAt] using ih l (by omega)

/-- On the all-Tombstone table the probe loop of `find_pos` never stops:
no slot is Empty and no slot holds a key. -/
theorem allErased_find_pos_none (k : Nat) (se : Bool) :
    ∀ fuel, find_pos natHash c1BadTable k se fuel = none := by
  have hg : GoodLen c1BadTable.m_data.length := ⟨6, by omega, by omega, by decide⟩
  intro fuel
  refine find_posGo_diverges c1BadTable.m_data k se (index natHash c1BadTable k)
    ?_ fuel 0 _ _ (pathOf_zero hg _ (index_lt natHash c1BadTable k hg)).symm
  intro t
  have hlt : pathOf (index natHash c1BadTable k) c1BadTable.m_data.length t <
      c1BadTable.m_data.length := pathOf_lt_of_goodLen hg _ _
  have herased : slotAt c1BadTable.m_data
      (pathOf (index natHash c1BadTable k) c1BadTable.m_data.length t) =
      Element.erased := slotAt_replicate_lt Element.erased 64 _ hlt
  constructor
  · rw [herased]
    rfl
  · rw [herased]
    simp [Element.key?]

theorem find_none_of_search_none {hash : K → Nat} {T : HashMap K V} {k : K}
    {fuel : Nat} (h : search hash T k fuel = none) :
    find hash T k fuel = none := by
  unfold find
  simp [h]

theorem contains_none_of_search_none {hash : K → Nat} {T : HashMap K V} {k : K}
    {fuel : Nat} (h : search hash T k fuel = none) :
    contains hash T k fuel = none := by
  unfold contains
  simp [h]

theorem erase_none_of_search_none {hash : K → Nat} {T : HashMap K V} {k : K}
    {fuel : Nat} (h : search hash T k fuel = none) :
    erase_key hash T k fuel = none := by
  unfold erase_key
  simp [h]

/-- On the all-Tombstone table, `insert` also hangs: the growth check does
not fire (the table is "empty"), and the insertion-slot probe never stops. -/
theorem allErased_insert_none (k v : Nat) :
    ∀ fuel, insert natHash c1BadTable k v fuel = none := by
  intro fuel
  unfold insert
  have hte : try_emplace_impl natHash c1BadTable k v fuel = none := by
    simp only [try_emplace_impl]
    rw [if_neg (by decide)]
    have hfp : find_insertion_pos natHash c1BadTable k fuel = none :=
      allErased_find_pos_none k true fuel
    simp [hfp]
  simp [hte]

/-- Bridge from the executable per-key scan to `FindsValue`. -/
theorem findsValue_of_scan (T : HashMap Nat Nat) (n off fuel : Nat)
    (h : ((List.range n).all fun i =>
        match find natHash T (i + 1) fuel with
        | some p => ((slotAt T.m_data p).key? == some (i + 1)) &&
            ((slotAt T.m_data p).val? == some (i + off))
        | none => false) = true) :
    ∀ i, i < n → FindsValue natHash T (i + 1) (i + off) := by
  intro i hi
  have hii := List.all_eq_true.mp h i (List.mem_range.mpr hi)
  cases hf : find natHash T (i + 1) fuel with
  | none => rw [hf] at hii; simp at hii
  | some p =>
    simp only [hf] at hii
    rw [Bool.and_eq_true] at hii
    exact ⟨fuel, p, hf, beq_iff_eq.mp hii.1, beq_iff_eq.mp hii.2⟩

/-- An insertion that fires the growth check strictly enlarges the array. -/
theorem insert_grows {hash : K → Nat} {T : HashMap K V} {order : List Nat}
    (hinv : Inv hash T order) {k : K} {v : V} {fuel : Nat} {T1 : HashMap K V}
    {pos : Nat} {ok : Bool}
    (hneed : Power2RehashPolicy.need_rehash ((T.m_size + 1) % W)
      T.m_data.length = true)
    (h : insert hash T k v fuel = some (T1, pos, ok)) :
    T.m_data.length < T1.m_data.length := by
  unfold insert at h
  cases hte : try_emplace_impl hash T k v fuel with
  | none => rw [hte] at h; exact absurd h (by simp)
  | some r =>
    obtain ⟨T1', pos'⟩ := r
    simp only [hte] at h
    have hpair := Option.some.inj h
    injection hpair with hT hrest
    subst hT
    simp only [try_emplace_impl, if_pos hneed] at hte
    cases hres : reserve hash T ((T.m_size + 1) % W) fuel with
    | none => rw [hres] at hte; exact absurd hte (by simp)
    | some Tr =>
      simp only [hres] at hte
      obtain ⟨ordr, hinvr, _, _, hcountle, _⟩ := rehash_inv hinv hres
      have hlen1 : T1'.m_data.length = Tr.m_data.length := by
        cases hfp : find_insertion_pos hash Tr k fuel with
        | none => rw [hfp] at hte; exact absurd hte (by simp)
        | some p =>
          simp only [hfp] at hte
          by_cases hu : (slotAt Tr.m_data p).is_used = true
          · rw [if_pos hu] at hte
            have hp2 := Option.some.inj hte
            injection hp2 with h1 _
            rw [← h1]
          · rw [if_neg hu] at hte
            have hp2 := Option.some.inj hte
            injection hp2 with h1 _
            rw [← h1, insert_at_length]
      have hW := hinv.size_succ_lt_W
      have hmod : (T.m_size + 1) % W = T.m_size + 1 := Nat.mod_eq_of_lt hW
      have hhalf := hinv.half
      have hlen63 := len_le_of_goodLen hinv.good
      have hbn : Power2RehashPolicy.buckets_number ((T.m_size + 1) % W) =
          2 * (T.m_size + 1) := by
        unfold Power2RehashPolicy.buckets_number
        rw [hmod, Nat.shiftLeft_eq, pow_one]
        rw [Nat.mod_eq_of_lt (by unfold W at hW ⊢; omega)]
        omega
      rw [hbn] at hcountle
      have hx : T.m_data.length >>> 1 < T.m_size + 1 := by
        have hne := hneed
        unfold Power2RehashPolicy.need_rehash at hne
        rw [hmod] at hne
        exact of_decide_eq_true hne
      rw [Nat.shiftRight_eq_div_pow, pow_one] at hx
      obtain ⟨c, hc6, _, hlenc⟩ := hinv.good
      have h2dvd : 2 ∣ T.m_data.length := by
        rw [hlenc]
        exact dvd_pow_self 2 (by omega)
      rw [hlen1]
      omega

end HashMap

/-! ### The claims -/

namespace HashMap

/-- C1: The specification claims that every operation terminates on every
table state reachable by a finite sequence of insert and erase operations.
Refuted: 64 insert/erase rounds on a fresh 64-bucket table (`c1Build`) leave
every slot a Tombstone (`c1BadTable`); on that reachable state the probe
loop of `find_pos` never meets an Empty slot or a matching key, so
`find`, `contains`, `erase(key)` and `insert` of the absent key 99 all run
forever (they return `none` at every fuel). -/
theorem c1_probe_loops_diverge_on_reachable_state :
    c1Build = some c1BadTable ∧
    SearchDiverges natHash c1BadTable 99 ∧
    FindDiverges natHash c1BadTable 99 ∧
    (∀ fuel, contains natHash c1BadTable 99 fuel = none) ∧
    EraseDiverges natHash c1BadTable 99 ∧
    InsertDiverges natHash c1BadTable 99 0 := by
  refine ⟨by decide, ?_, ?_, ?_, ?_, ?_⟩
  · intro fuel
    exact allErased_find_pos_none 99 false fuel
  · intro fuel
    exact find_none_of_search_none (allErased_find_pos_none 99 false fuel)
  · intro fuel
    exact contains_none_of_search_none (allErased_find_pos_none 99 false fuel)
  · intro fuel
    exact erase_none_of_search_none (allErased_find_pos_none 99 false fuel)
  · intro fuel
    exact allErased_insert_none 99 0 fuel

/-- C2 (corrected): after `clear()` the count is zero, `begin() = end()`,
and the array keeps its size; but only the slots on the traversal list —
the Occupied ones — are reset to Empty, and every other slot (in particular
every Tombstone) keeps its previous state.  The well-formed result has an
empty traversal list. -/
theorem c2_clear_spec {K V : Type} [DecidableEq K] [DecidableEq V]
    (hash : K → Nat) (T : HashMap K V) (order : List Nat)
    (hinv : Inv hash T order) :
    (∀ fuel, order.length + 1 ≤ fuel → ∃ T2, clear T fuel = some T2) ∧
    (∀ fuel T2, clear T fuel = some T2 →
      T2.m_size = 0 ∧ T2.m_begin = m_end ∧
      T2.m_data.length = T.m_data.length ∧
      (∀ j, j ∈ order → slotAt T2.m_data j = Element.empty) ∧
      (∀ j, j ∉ order → slotAt T2.m_data j = slotAt T.m_data j) ∧
      WF hash T2) := by
  obtain ⟨htot, hspec⟩ := clear_inv hinv
  refine ⟨htot, fun fuel T2 h => ?_⟩
  obtain ⟨hi, h1, h2, h3, h4, h5⟩ := hspec fuel T2 h
  exact ⟨h1, h2, h3, h4, h5, ⟨[], hi⟩⟩

theorem c2_clear_spec_witness :
    ∃ T2, clear c10Tbl 2 = some T2 :=
  (c2_clear_spec natHash c10Tbl [7] (Inv_of_check (by decide))).1 2 (by decide)

/-- C2 counterexample: insert key 0, erase it (slot 0 becomes a Tombstone),
then `clear()`: slot 0 is still a Tombstone afterwards, refuting "every slot
of the array (Occupied and Tombstone alike) is in the Empty state". -/
theorem c2_clear_counterexample :
    (c2Run.map fun S => slotAt S.m_data 0) = some Element.erased := by decide

/-- C3: growth correctness.  When the impending insertion fires
`need_rehash` and the insertion succeeds, the table has grown strictly, the
load factor is back at or below one half, and every previously stored entry
is still found with its original value.  Concretely: keys 1..32 fill a
fresh 64-bucket table without rehash; inserting key 33 grows it to 128
buckets and all 33 keys are findable with their values. -/
theorem c3_growth_correct {K V : Type} [DecidableEq K] [DecidableEq V]
    (hash : K → Nat) (T T1 : HashMap K V) (order : List Nat) (k : K) (v : V)
    (fuel pos : Nat) (ok : Bool)
    (hinv : Inv hash T order)
    (hneed : Power2RehashPolicy.need_rehash ((T.m_size + 1) % W)
      T.m_data.length = true)
    (h : insert hash T k v fuel = some (T1, pos, ok)) :
    (WF hash T1 ∧ 2 * T1.m_size ≤ T1.m_data.length ∧
      T.m_data.length < T1.m_data.length ∧
      (∀ k' v', (k', v') ∈ entriesOf T.m_data order →
        FindsValue hash T1 k' v')) ∧
    (c3After32 = some c3Tbl ∧ c3Tbl.m_data.length = 64 ∧ c3Tbl.m_size = 32 ∧
     c3Res = some (c3Tbl33, 33, true) ∧ c3Tbl33.m_data.length = 128 ∧
     c3Tbl33.m_size = 33 ∧
     (∀ i, i < 33 → FindsValue natHash c3Tbl33 (i + 1) (i + 101))) := by
  constructor
  · obtain ⟨ord1, hinv1, _, _, hcase⟩ := insert_inv hinv h
    refine ⟨⟨ord1, hinv1⟩, hinv1.half, insert_grows hinv hneed h, ?_⟩
    intro k' v' hm
    refine findsValue_of_mem hinv1 ?_
    cases hcase with
    | inl hA => exact (hA.2.2.2.2 (k', v')).mpr (Or.inr hm)
    | inr hB => exact (hB.2.2.2 (k', v')).mpr hm
  · refine ⟨by decide, by decide, by decide, by decide, by decide, by decide, ?_⟩
    exact findsValue_of_scan c3Tbl33 33 101 200 (by decide)

theorem c3_growth_correct_witness :
    (WF natHash c3Tbl33 ∧ 2 * c3Tbl33.m_size ≤ c3Tbl33.m_data.length ∧
      c3Tbl.m_data.length < c3Tbl33.m_data.length ∧
      (∀ k' v', (k', v') ∈ entriesOf c3Tbl.m_data c3Order →
        FindsValue natHash c3Tbl33 k' v')) ∧
    (c3After32 = some c3Tbl ∧ c3Tbl.m_data.length = 64 ∧ c3Tbl.m_size = 32 ∧
     c3Res = some (c3Tbl33, 33, true) ∧ c3Tbl33.m_data.length = 128 ∧
     c3Tbl33.m_size = 33 ∧
     (∀ i, i < 33 → FindsValue natHash c3Tbl33 (i + 1) (i + 101))) :=
  c3_growth_correct natHash c3Tbl c3Tbl33 c3Order 33 133 300 33 true
    (Inv_of_check (by decide)) (by decide) (by decide)

/-- C4: each insertion links the new node at the head of the traversal
list, so iterating after inserting A, B, C yields C, B, A; a `rehash`
re-inserts the nodes in traversal order through the same head insertion, so
iterating afterwards yields the reverse — A, B, C.  In general a successful
rehash of a well-formed table reverses the iteration sequence. -/
theorem c4_rehash_reverses {K V : Type} [DecidableEq K] [DecidableEq V]
    (hash : K → Nat) (T T2 : HashMap K V) (order : List Nat)
    (c fuel f1 : Nat) (l : List (K × V))
    (hinv : Inv hash T order)
    (hreh : rehash hash T c fuel = some T2)
    (hl : iterate T f1 = some l) :
    (∃ f2, iterate T2 f2 = some l.reverse) ∧
    ((c4Table.bind fun S => iterate S 70) = some [(3, 30), (2, 20), (1, 10)] ∧
     c4Table = some c4Tbl ∧ rehash natHash c4Tbl 64 300 = some c4RTbl ∧
     (c4Rehashed.bind fun S => iterate S 70) =
       some [(1, 10), (2, 20), (3, 30)]) := by
  constructor
  · obtain ⟨ord2, hinv2, hent, _, _, _⟩ := rehash_inv hinv hreh
    have hit := iterate_of_inv hinv2 (ord2.length + 1) (le_refl _)
    rw [hent] at hit
    have hl' : l = entriesOf T.m_data order := iterate_unique hinv hl
    rw [hl']
    exact ⟨ord2.length + 1, hit⟩
  · exact ⟨by decide, by decide, by decide, by decide⟩

theorem c4_rehash_reverses_witness :
    ∃ f2, iterate c4RTbl f2 =
      some ([(3, 30), (2, 20), (1, 10)] : List (Nat × Nat)).reverse :=
  (c4_rehash_reverses natHash c4Tbl c4RTbl [3, 2, 1] 64 300 70
    [(3, 30), (2, 20), (1, 10)] (Inv_of_check (by decide)) (by decide)
    (by decide)).1

/-- C5 (corrected): on a well-formed table, `find` — when its probe loop
terminates — returns either an Occupied slot holding the sought key, or the
end iterator, and the latter only when the key is absent everywhere;
Tombstones are skipped.  When the key is present the loop does terminate,
with the key's slot.  Round trips: after a successful insert of `k`, `find
k` returns the reported slot; after `erase k`, any terminating `find k`
returns the end iterator.  (Unqualified termination, as claimed, fails: see
the counterexample, where `find` of an absent key diverges on an
all-Tombstone table.) -/
theorem c5_find_semantics {K V : Type} [DecidableEq K] [DecidableEq V]
    (hash : K → Nat) (T : HashMap K V) (order : List Nat) (k : K)
    (hinv : Inv hash T order) :
    (∀ fuel r, find hash T k fuel = some r → r ≠ m_end →
      (slotAt T.m_data r).key? = some k ∧ (slotAt T.m_data r).is_used = true) ∧
    (∀ fuel, find hash T k fuel = some m_end →
      ∀ j, (slotAt T.m_data j).key? ≠ some k) ∧
    (∀ j, (slotAt T.m_data j).key? = some k →
      ∃ F, ∀ fuel, F ≤ fuel → find hash T k fuel = some j) ∧
    (∀ v fuel T1 pos ok, insert hash T k v fuel = some (T1, pos, ok) →
      (slotAt T1.m_data pos).key? = some k ∧
      ∃ F, ∀ f2, F ≤ f2 → find hash T1 k f2 = some pos) ∧
    (∀ fuel T1 n, erase_key hash T k fuel = some (T1, n) →
      ∀ f2 r, find hash T1 k f2 = some r → r = m_end) := by
  refine ⟨fun fuel r h hr => find_found_key hinv h hr,
    fun fuel h => find_end_absent hinv h,
    fun j hj => find_present_total hinv hj, ?_, ?_⟩
  · intro v fuel T1 pos ok h
    obtain ⟨ord1, hinv1, _, hk1, _⟩ := insert_inv hinv h
    exact ⟨hk1, find_present_total hinv1 hk1⟩
  · intro fuel T1 n h f2 r hf
    classical
    by_cases hk : ∃ j, (slotAt T.m_data j).key? = some k
    · obtain ⟨j, hj⟩ := hk
      obtain ⟨_, _, l1, l2, _, hinv2, _, _, hsl, hpt⟩ :=
        erase_present_spec hinv hj h
      have habs1 : ∀ y, (slotAt T1.m_data y).key? ≠ some k := by
        intro y hy
        by_cases hyj : y = j
        · rw [hyj, hsl] at hy
          simp [Element.key?] at hy
        · rw [(hpt y hyj).1] at hy
          exact hyj (hinv.key_unique hy hj)
      by_contra hrm
      exact habs1 r (find_found_key hinv2 hf hrm).1
    · push_neg at hk
      obtain ⟨hTeq, _⟩ := erase_absent_noop hinv hk h
      subst hTeq
      by_contra hrm
      exact hk r (find_found_key hinv hf hrm).1

theorem c5_find_semantics_witness :
    ∃ F, ∀ fuel, F ≤ fuel → find natHash c10Tbl 7 fuel = some 7 :=
  (c5_find_semantics natHash c10Tbl [7] 7 (Inv_of_check (by decide))).2.2.1 7
    (by decide)

/-- C5 counterexample: on the reachable all-Tombstone state, `find` of the
absent key 77 never reaches an Empty slot, so it never returns the end
iterator — it diverges, contradicting the claimed total behaviour. -/
theorem c5_find_counterexample : FindDiverges natHash c1BadTable 77 :=
  fun fuel => find_none_of_search_none (allErased_find_pos_none 77 false fuel)

/-- C6 (corrected): erasing an absent key returns 0 and leaves the state
unchanged whenever the probe loop terminates (unqualified termination fails
— see the counterexample); `insert` on a present key reports
`inserted = false` and keeps the stored value; `insert_or_assign` on a
present key reports `inserted = false` and overwrites the value. -/
theorem c6_idempotence {K V : Type} [DecidableEq K] [DecidableEq V]
    (hash : K → Nat) (T : HashMap K V) (order : List Nat) (k : K)
    (hinv : Inv hash T order) :
    ((∀ j, (slotAt T.m_data j).key? ≠ some k) →
      ∀ fuel T1 n, erase_key hash T k fuel = some (T1, n) → T1 = T ∧ n = 0) ∧
    (∀ j v0, (slotAt T.m_data j).key? = some k →
        (slotAt T.m_data j).val? = some v0 →
      ∀ v fuel T1 pos ok, insert hash T k v fuel = some (T1, pos, ok) →
        ok = false ∧ T1.m_size = T.m_size ∧
        (slotAt T1.m_data pos).key? = some k ∧
        (slotAt T1.m_data pos).val? = some v0) ∧
    (∀ j, (slotAt T.m_data j).key? = some k →
      ∀ v fuel T2 pos ok, insert_or_assign hash T k v fuel = some (T2, pos, ok) →
        ok = false ∧ (slotAt T2.m_data pos).key? = some k ∧
        (slotAt T2.m_data pos).val? = some v) := by
  refine ⟨fun habs fuel T1 n h => erase_absent_noop hinv habs h, ?_, ?_⟩
  · intro j v0 hjk hjv v fuel T1 pos ok h
    obtain ⟨ord1, hinv1, _, hk1, hcase⟩ := insert_inv hinv h
    cases hcase with
    | inl hA => exact absurd hjk (hA.1 j)
    | inr hB =>
      obtain ⟨⟨j', hj'k, hj'v⟩, hok, hsz, _⟩ := hB
      refine ⟨hok, hsz, hk1, ?_⟩
      have hj'j : j' = j := hinv.key_unique hj'k hjk
      rw [hj'j] at hj'v
      rw [← hj'v, hjv]
  · intro j hjk v fuel T2 pos ok h
    obtain ⟨ord1, hinv1, hk2, hv2, hcase⟩ := insert_or_assign_inv hinv h
    cases hcase with
    | inl hA => exact absurd hjk (hA.2.1 j)
    | inr hB => exact ⟨hB.1, hk2, hv2⟩

theorem c6_idempotence_witness :
    false = false ∧ c10Tbl.m_size = c10Tbl.m_size ∧
    (slotAt c10Tbl.m_data 7).key? = some 7 ∧
    (slotAt c10Tbl.m_data 7).val? = some 70 :=
  (c6_idempotence natHash c10Tbl [7] 7 (Inv_of_check (by decide))).2.1 7 70
    (by decide) (by decide) 99 70 c10Tbl 7 false (by decide)

/-- C6 counterexample: erasing the absent key 55 on the reachable
all-Tombstone state is not a terminating no-op — the probe loop diverges,
so `erase` never returns 0. -/
theorem c6_idempotence_counterexample : EraseDiverges natHash c1BadTable 55 :=
  fun fuel => erase_none_of_search_none (allErased_find_pos_none 55 false fuel)

/-- C7: after every sequence of constructor / insert / erase(key) / clear /
rehash operations the table invariant holds: some traversal order lists
exactly the Occupied slots, each once; `size()` equals its length; no key
occupies two slots (the stored key list has no duplicates); and the array
length is a power of two, at least `2^6 = 64`. -/
theorem c7_invariant_preserved {K V : Type} [DecidableEq K] [DecidableEq V]
    (hash : K → Nat) (T : HashMap K V) (h : Reached hash T) :
    ∃ order, Inv hash T order ∧ T.m_size = order.length ∧ order.Nodup ∧
      (∀ j, j ∈ order ↔ (slotAt T.m_data j).is_used = true) ∧
      (keysOf T.m_data order).Nodup ∧
      ∃ c, 6 ≤ c ∧ T.m_data.length = 2 ^ c := by
  obtain ⟨order, hinv⟩ := reached_wf h
  obtain ⟨c, hc1, _, hc3⟩ := hinv.good
  exact ⟨order, hinv, hinv.size_eq, hinv.nodup, hinv.mem_iff, hinv.keys_nodup,
    c, hc1, hc3⟩

theorem c7_invariant_preserved_witness :
    ∃ order, Inv natHash fresh64 order ∧ fresh64.m_size = order.length ∧
      order.Nodup ∧
      (∀ j, j ∈ order ↔ (slotAt fresh64.m_data j).is_used = true) ∧
      (keysOf fresh64.m_data order).Nodup ∧
      ∃ c, 6 ≤ c ∧ fresh64.m_data.length = 2 ^ c :=
  c7_invariant_preserved natHash fresh64 (Reached.base 0 1 fresh64 (by decide))

/-- C8: for every power-of-two size `2^k` (k ≤ 63, every size the policy
produces) and every start index, both probing policies stay in range and
enumerate all `2^k` slot indices in their first `2^k` steps — each step is
injective below `2^k` and every slot is hit — the quadratic one through the
triangular-number offset `(step² + step)/2` taken modulo the size. -/
theorem c8_probing_permutation (k start : Nat) (hk : k ≤ 63) :
    (∀ s, LinearProbing.next start s (2 ^ k) < 2 ^ k) ∧
    (∀ s, QuadraticProbing.next start s (2 ^ k) < 2 ^ k) ∧
    (∀ i j, i < 2 ^ k → j < 2 ^ k →
      LinearProbing.next start i (2 ^ k) = LinearProbing.next start j (2 ^ k) →
      i = j) ∧
    (∀ i j, i < 2 ^ k → j < 2 ^ k →
      QuadraticProbing.next start i (2 ^ k) =
        QuadraticProbing.next start j (2 ^ k) → i = j) ∧
    (∀ x, x < 2 ^ k → ∃ s, s < 2 ^ k ∧ LinearProbing.next start s (2 ^ k) = x) ∧
    (∀ x, x < 2 ^ k →
      ∃ s, s < 2 ^ k ∧ QuadraticProbing.next start s (2 ^ k) = x) := by
  refine ⟨fun s => linear_next_lt k start s (by omega),
    fun s => quadratic_next_lt k start s hk,
    linear_probe_inj k start (by omega),
    quadratic_probe_inj k start hk, ?_, ?_⟩
  · exact probe_surj_of_inj _ _ (Nat.pos_pow_of_pos k (by omega))
      (fun s _ => linear_next_lt k start s (by omega))
      (linear_probe_inj k start (by omega))
  · exact probe_surj_of_inj _ _ (Nat.pos_pow_of_pos k (by omega))
      (fun s _ => quadratic_next_lt k start s hk)
      (quadratic_probe_inj k start hk)

theorem c8_probing_permutation_witness :
    LinearProbing.next 3 5 (2 ^ 6) < 2 ^ 6 :=
  (c8_probing_permutation 6 3 (by omega)).1 5

/-- C9: `operator==` on two well-formed tables holds (for some fuel) exactly
when the sizes agree and every stored entry of the left table is found in
the right one with the same mapped value — a property independent of the
iteration orders.  Concretely, the tables built by inserting (1,10),(2,20)
in the two opposite orders iterate differently but compare equal both
ways. -/
theorem c9_equality_order_independent {K V : Type} [DecidableEq K]
    [DecidableEq V] (hash : K → Nat) (T1 T2 : HashMap K V)
    (ord1 ord2 : List Nat)
    (hinv1 : Inv hash T1 ord1) (hinv2 : Inv hash T2 ord2) :
    (TableEqHolds hash T1 T2 ↔
      (T1.m_size = T2.m_size ∧
       ∀ e : K × V, e ∈ entriesOf T1.m_data ord1 →
         e ∈ entriesOf T2.m_data ord2)) ∧
    (c9Left = some c9A ∧ c9Right = some c9B ∧
     iterate c9A 70 = some [(2, 20), (1, 10)] ∧
     iterate c9B 70 = some [(1, 10), (2, 20)] ∧
     tableEq natHash c9A c9B 70 = some true ∧
     tableEq natHash c9B c9A 70 = some true) := by
  exact ⟨tableEq_iff hinv1 hinv2,
    by decide, by decide, by decide, by decide, by decide, by decide⟩

theorem c9_equality_order_independent_witness :
    TableEqHolds natHash c9A c9B ↔
      (c9A.m_size = c9B.m_size ∧
       ∀ e : Nat × Nat, e ∈ entriesOf c9A.m_data [2, 1] →
         e ∈ entriesOf c9B.m_data [1, 2]) :=
  (c9_equality_order_independent natHash c9A c9B [2, 1] [1, 2]
    (Inv_of_check (by decide)) (Inv_of_check (by decide))).1

/-- C10 (corrected): the empty-range erase `erase(p, p)` is a no-op
returning `p` for every iterator position `p` on the traversal list — but
NOT for `p = end()`: the relinking step unconditionally reads
`first.get_node().prev`, which for the end iterator is the out-of-bounds
access `m_data[m_end]`, modeled by `erase_range` returning `none` (see the
counterexample). -/
theorem c10_empty_range_noop {K V : Type} [DecidableEq K] [DecidableEq V]
    (hash : K → Nat) (T : HashMap K V) (order : List Nat) (p : Nat)
    (hinv : Inv hash T order) (hp : p ∈ order) :
    ∀ fuel, erase_range T p p fuel = some (T, p) :=
  erase_range_self hinv hp

theorem c10_empty_range_noop_witness :
    erase_range c10Tbl 7 7 3 = some (c10Tbl, 7) :=
  c10_empty_range_noop natHash c10Tbl [7] 7 (Inv_of_check (by decide))
    (by decide) 3

/-- C10 counterexample: `erase(end(), end())` on a fresh table reads through
the end sentinel (`m_data[m_end].prev`); the model yields `none` at every
fuel — the call is not well-defined, refuting "including p == end()". -/
theorem c10_end_counterexample : EraseRangeEndUndef :=
  fun _ => rfl

end HashMap
